import Mathlib

/-!
The matrix-based greedy compaction of kff-tools `compact`.

Shallow embedding of `src/src/compact.cpp` (class `Compact`).

* A k-mer reference (`uint8_t *` into `kmer_buffer`) is the offset of its record in the
  arena; the null pointer of a link pair is `none`.
* Bytes are natural numbers below 256, buffers are lists of bytes.
* `std::unordered_map` is a function from keys to optional values.
* `uint` arithmetic on `k - m` is explicit modulo `2 ^ 32`; container sizes are assumed to
  fit their machine types.
-/

namespace Compact

/-! ## Machine arithmetic -/

/-- Subtraction of two `uint` values (32 bits, wrapping). -/
def usub (a b : Nat) : Nat := (a % 2 ^ 32 + 2 ^ 32 - b % 2 ^ 32) % 2 ^ 32

/-! ## Link pairs and the hash index of `greedy_assembly` -/

/-- A link pair `(predecessor or nullptr, successor)`. -/
abbrev Pair := Option Nat × Nat

/-- The `unordered_map<uint64_t, vector<uint8_t *>>` of `greedy_assembly`. -/
abbrev Index := Nat → Option (List Nat)

/-- Assignment `map[key] = value`. -/
def map_set {β : Type} (map : Nat → Option β) (key : Nat) (value : β) : Nat → Option β :=
  fun x => if x = key then some value else map x

/-- Call `map.erase(key)`. -/
def map_erase {β : Type} (map : Nat → Option β) (key : Nat) : Nat → Option β :=
  fun x => if x = key then none else map x

/-- Body of the loop of lines 521-529: the k-mer is pushed at the back of the vector of its
suffix value, the vector being created first when the value is new. -/
def index_kmer (subseq_to_uint : Nat → Nat → Nat → Nat → Nat) (nb_nucl : Nat)
    (index : Index) (kmer : Nat) : Index :=
  let val := subseq_to_uint kmer nb_nucl 1 (usub nb_nucl 1)
  let index1 : Index := if (index val).isNone then map_set index val [] else index
  map_set index1 val ((index1 val).getD [] ++ [kmer])

/-- Lines 519-529: the index of the i-th column, keyed by the suffix value. -/
def index_column (subseq_to_uint : Nat → Nat → Nat → Nat → Nat) (nb_nucl : Nat)
    (column : List Nat) : Index :=
  column.foldl (index_kmer subseq_to_uint nb_nucl) (fun _ => none)

/-- Lines 540-559: scan of the candidates of one vector; the first candidate accepted by
the exact comparison is returned with its position `candidate_pos`. -/
def find_candidate (accept : Nat → Bool) : List Nat → Nat → Option (Nat × Nat)
  | [], _ => none
  | candidate :: rest, candidate_pos =>
    if accept candidate then some (candidate, candidate_pos)
    else find_candidate accept rest (candidate_pos + 1)

/-- Body of the loop of lines 532-565 for one k-mer of column `i+1`. -/
def link_kmer (subseq_to_uint : Nat → Nat → Nat → Nat → Nat)
    (sequence_compare : Nat → Nat → Nat → Nat → Nat → Nat → Nat → Nat → Int) (nb_nucl : Nat)
    (st : Index × List Pair) (kmer : Nat) : Index × List Pair :=
  let val := subseq_to_uint kmer nb_nucl 0 (usub nb_nucl 2)
  match st.1 val with
  | none => (st.1, st.2 ++ [(none, kmer)])
  | some candidates =>
    match find_candidate
        (fun candidate => decide (sequence_compare kmer nb_nucl 0 (usub nb_nucl 2)
          candidate nb_nucl 1 (usub nb_nucl 1) = 0)) candidates 0 with
    | some (candidate, candidate_pos) =>
      (map_set st.1 val (candidates.eraseIdx candidate_pos), st.2 ++ [(some candidate, kmer)])
    | none => (st.1, st.2 ++ [(none, kmer)])

/-- Body of the loop of lines 517-566: column `i` is indexed, then every k-mer of column
`i+1` is linked. -/
def link_column (subseq_to_uint : Nat → Nat → Nat → Nat → Nat)
    (sequence_compare : Nat → Nat → Nat → Nat → Nat → Nat → Nat → Nat → Int) (nb_nucl : Nat)
    (kmers : List (List Nat)) (assembly : List Pair) (i : Nat) : List Pair :=
  ((kmers.getD (i + 1) []).foldl (link_kmer subseq_to_uint sequence_compare nb_nucl)
    (index_column subseq_to_uint nb_nucl (kmers.getD i []), assembly)).2

/-- Body of the loop of lines 570-578, on the state `(assembly_idx, assembly)`. -/
def last_kmer (st : Int × List Pair) (kmer : Nat) : Int × List Pair :=
  if st.1 < 0 ∨ some kmer ≠ (st.2[st.1.toNat]?).map Prod.snd then
    (st.1, st.2 ++ [(none, kmer)])
  else (st.1 - 1, st.2)

/-- The function `Compact::greedy_assembly` (lines 508-581). The two helpers of
`sequences.hpp` are parameters, applied to k-mer references. -/
def greedy_assembly (subseq_to_uint : Nat → Nat → Nat → Nat → Nat)
    (sequence_compare : Nat → Nat → Nat → Nat → Nat → Nat → Nat → Nat → Int) (k m : Nat)
    (kmers : List (List Nat)) : List Pair :=
  let nb_nucl := usub k m
  let assembly0 : List Pair := (kmers.getD 0 []).map (fun kmer => (none, kmer))
  let assembly1 := (List.range nb_nucl).foldl
    (link_column subseq_to_uint sequence_compare nb_nucl kmers) assembly0
  ((kmers.getD nb_nucl []).reverse.foldl last_kmer
    (((assembly1.length : Int) - 1), assembly1)).2

/-! ## `pairs_to_paths` -/

/-- State of the loop of `pairs_to_paths`: the paths and the registry of path tails. -/
structure PathState where
  /-- The vector `paths`. -/
  paths : List (List Nat)
  /-- The map `path_registry`. -/
  path_registry : Nat → Option Nat

/-- Body of the loop of lines 587-603. Reading `path_registry[p.first]` on an absent key
gives the default index 0; indexing `paths` out of range has no defined result. -/
def pairs_step (st : PathState) (p : Pair) : Option PathState :=
  match p.1 with
  | none =>
    some { paths := st.paths ++ [[p.2]],
           path_registry := map_set st.path_registry p.2 st.paths.length }
  | some first =>
    let vec_idx := (st.path_registry first).getD 0
    if vec_idx < st.paths.length then
      some { paths := st.paths.set vec_idx (st.paths.getD vec_idx [] ++ [p.2]),
             path_registry := map_set (map_erase st.path_registry first) p.2 vec_idx }
    else none

/-- The loop of `pairs_to_paths` from a given state. -/
def pairs_loop : List Pair → PathState → Option PathState
  | [], st => some st
  | p :: rest, st =>
    match pairs_step st p with
    | some st1 => pairs_loop rest st1
    | none => none

/-- The function `Compact::pairs_to_paths` (lines 583-606). -/
def pairs_to_paths (to_compact : List Pair) : Option (List (List Nat)) :=
  (pairs_loop to_compact { paths := [], path_registry := fun _ => none }).map PathState.paths

/-! ## Specification predicates -/

/-- Every non-null predecessor of the list is the successor of an earlier pair and is not
the predecessor of an earlier pair. -/
def Linked (pairs : List Pair) : Prop :=
  ∀ pre post p s, pairs = pre ++ (some p, s) :: post →
    p ∈ pre.map Prod.snd ∧ some p ∉ pre.map Prod.fst

/-- Invariant of the loop of `pairs_to_paths` after the pairs `done`. -/
structure PathInv (done : List Pair) (st : PathState) : Prop where
  /-- The paths hold the successors seen so far. -/
  perm : st.paths.flatten.Perm (done.map Prod.snd)
  /-- No path is empty. -/
  nonempty : ∀ path ∈ st.paths, path ≠ []
  /-- The paths start with the successors of the null pairs, in order. -/
  heads : st.paths.map List.head? = (done.filter (fun p => p.1.isNone)).map (fun p => some p.2)
  /-- A registered reference is the last element of the path it is registered for. -/
  reg_tail : ∀ r idx, st.path_registry r = some idx →
    ∃ path, st.paths[idx]? = some path ∧ path.getLast? = some r
  /-- A successor that was not yet used as a predecessor is registered. -/
  reg_live : ∀ r ∈ done.map Prod.snd, some r ∉ done.map Prod.fst → (st.path_registry r).isSome
  /-- Two consecutive elements of a path come from a pair. -/
  links : ∀ a b path u v, path ∈ st.paths → path = u ++ a :: b :: v → (some a, b) ∈ done

/-- The key under which `greedy_assembly` indexes a k-mer of column `i`: the value of its
suffix (nucleotides `1 .. nb_nucl-1`). -/
def suffix_key (subseq_to_uint : Nat → Nat → Nat → Nat → Nat) (nb_nucl kmer : Nat) : Nat :=
  subseq_to_uint kmer nb_nucl 1 (usub nb_nucl 1)

/-- The key with which `greedy_assembly` looks a k-mer of column `i+1` up: the value of its
prefix (nucleotides `0 .. nb_nucl-2`). -/
def prefix_key (subseq_to_uint : Nat → Nat → Nat → Nat → Nat) (nb_nucl kmer : Nat) : Nat :=
  subseq_to_uint kmer nb_nucl 0 (usub nb_nucl 2)

/-- The exact test of lines 544-547: prefix of `kmer` against suffix of `candidate`. -/
def overlap_ok (sequence_compare : Nat → Nat → Nat → Nat → Nat → Nat → Nat → Nat → Int)
    (nb_nucl kmer candidate : Nat) : Bool :=
  decide (sequence_compare kmer nb_nucl 0 (usub nb_nucl 2)
    candidate nb_nucl 1 (usub nb_nucl 1) = 0)

/-- Greedy choice as the spec words it: among the k-mers of column `i` that are not consumed
yet (`avail`, in column order), the first one with the key of `kmer` that passes the exact
comparison. -/
def choose_pred (subseq_to_uint : Nat → Nat → Nat → Nat → Nat)
    (sequence_compare : Nat → Nat → Nat → Nat → Nat → Nat → Nat → Nat → Int) (nb_nucl : Nat)
    (avail : List Nat) (kmer : Nat) : Option Nat :=
  avail.find? (fun c =>
    decide (suffix_key subseq_to_uint nb_nucl c = prefix_key subseq_to_uint nb_nucl kmer)
      && overlap_ok sequence_compare nb_nucl kmer c)

/-- Linking of one k-mer as the spec words it, on the list of available candidates. -/
def link_avail (subseq_to_uint : Nat → Nat → Nat → Nat → Nat)
    (sequence_compare : Nat → Nat → Nat → Nat → Nat → Nat → Nat → Nat → Int) (nb_nucl : Nat)
    (st : List Nat × List Pair) (kmer : Nat) : List Nat × List Pair :=
  match choose_pred subseq_to_uint sequence_compare nb_nucl st.1 kmer with
  | some c => (st.1.erase c, st.2 ++ [(some c, kmer)])
  | none => (st.1, st.2 ++ [(none, kmer)])

/-- The hash index holds exactly the available candidates, each vector in column order. -/
def IndexOf (subseq_to_uint : Nat → Nat → Nat → Nat → Nat) (nb_nucl : Nat)
    (index : Index) (avail : List Nat) : Prop :=
  ∀ val, (index val).getD [] =
    avail.filter (fun c => decide (suffix_key subseq_to_uint nb_nucl c = val))

/-- Invariant of the inner loop of `greedy_assembly` (lines 532-565) in iteration `i`, on
the list of available candidates and the assembly. -/
structure ColInv (subseq_to_uint : Nat → Nat → Nat → Nat → Nat)
    (sequence_compare : Nat → Nat → Nat → Nat → Nat → Nat → Nat → Nat → Int) (nb_nucl : Nat)
    (kmers : List (List Nat)) (i : Nat) (avail : List Nat) (asm : List Pair)
    (processed : List Nat) : Prop where
  /-- The available candidates are k-mers of column `i`, in column order. -/
  sub : avail.Sublist (kmers.getD i [])
  /-- No available candidate is a predecessor yet. -/
  fresh : ∀ c ∈ avail, some c ∉ asm.map Prod.fst
  /-- The successors are the columns `0..i` and the processed k-mers of column `i+1`. -/
  seconds : asm.map Prod.snd = (kmers.take (i + 1)).flatten ++ processed
  /-- A link joins a k-mer of a column to a k-mer of the next column that overlaps it. -/
  pairs : ∀ c s, (some c, s) ∈ asm → ∃ j, j ≤ i ∧ c ∈ kmers.getD j [] ∧
    s ∈ kmers.getD (j + 1) [] ∧
    suffix_key subseq_to_uint nb_nucl c = prefix_key subseq_to_uint nb_nucl s ∧
    overlap_ok sequence_compare nb_nucl s c = true
  /-- Predecessors are earlier successors, used once. -/
  linked : Linked asm

/-- Invariant of the outer loop of `greedy_assembly` (line 517) before iteration `i`. -/
structure AsmInv (subseq_to_uint : Nat → Nat → Nat → Nat → Nat)
    (sequence_compare : Nat → Nat → Nat → Nat → Nat → Nat → Nat → Nat → Int) (nb_nucl : Nat)
    (kmers : List (List Nat)) (i : Nat) (asm : List Pair) : Prop where
  /-- The successors are the columns `0..i`, in order. -/
  seconds : asm.map Prod.snd = (kmers.take (i + 1)).flatten
  /-- A link joins a k-mer of a column to a k-mer of the next column that overlaps it. -/
  pairs : ∀ c s, (some c, s) ∈ asm → ∃ j, j < i ∧ c ∈ kmers.getD j [] ∧
    s ∈ kmers.getD (j + 1) [] ∧
    suffix_key subseq_to_uint nb_nucl c = prefix_key subseq_to_uint nb_nucl s ∧
    overlap_ok sequence_compare nb_nucl s c = true
  /-- Predecessors are earlier successors, used once. -/
  linked : Linked asm

/-! ## Packed sequences

The helpers of `sequences.hpp` are used by `compact.cpp` but are not part of the sources at
hand; they are modelled from §3 and §4.1 of the specification. A buffer argument is the
arena with the address of the sequence in it. -/

/-- Modelled from the spec: `sequences.hpp` is missing; §3 "Packed Sequence": each byte
holds 4 nucleotides of 2 bits, most significant first, and a sequence of `seq_size`
nucleotides starts after `(4 - seq_size % 4) % 4` padding nucleotides of its first byte.
This is nucleotide `i` of the sequence at address `seq`. -/
def nucleotide (mem : List Nat) (seq seq_size i : Nat) : Nat :=
  mem.getD (seq + ((4 - seq_size % 4) % 4 + i) / 4) 0
    / 4 ^ (3 - ((4 - seq_size % 4) % 4 + i) % 4) % 4

/-- Modelled from the spec: `sequences.hpp` is missing; §4.1 `extract_subrange`: the
nucleotides `[start, stop]`, both inclusive, of a packed sequence. -/
def subrange (mem : List Nat) (seq seq_size start stop : Nat) : List Nat :=
  (List.range (stop + 1 - start)).map (fun j => nucleotide mem seq seq_size (start + j))

/-- Modelled from the spec: `sequences.hpp` is missing; §4.1 `compare_subrange`:
"lexicographic nucleotide-by-nucleotide comparison" with result -1, 0 or +1. -/
def lex_compare : List Nat → List Nat → Int
  | [], [] => 0
  | [], _ :: _ => -1
  | _ :: _, [] => 1
  | a :: as, b :: bs => if a < b then -1 else if b < a then 1 else lex_compare as bs

/-- Modelled from the spec: `sequence_compare` of `sequences.hpp` is missing; §4.1
`compare_subrange(a, a_len, a_start, a_end, b, b_len, b_start, b_end)`. -/
def sequence_compare (mem : List Nat) (seq1 seq1_size seq1_start seq1_stop
    seq2 seq2_size seq2_start seq2_stop : Nat) : Int :=
  lex_compare (subrange mem seq1 seq1_size seq1_start seq1_stop)
    (subrange mem seq2 seq2_size seq2_start seq2_stop)

/-- Modelled from the spec: `subseq_to_uint` of `sequences.hpp` is missing; §4.1
`extract_subrange` "as a big-endian integer value (used for hashing)", in the 64 bits of
its `uint64_t` result. -/
def subseq_to_uint (mem : List Nat) (seq seq_size start stop : Nat) : Nat :=
  (subrange mem seq seq_size start stop).foldl (fun value nucl => 4 * value + nucl) 0 % 2 ^ 64

/-- Modelled from the spec: `leftshift8` of `sequences.hpp` is missing; §4.1 `shift_left`:
"in-place sub-byte bit shifts across the whole buffer, carrying bits between adjacent
bytes", on the first `length` bytes of the buffer, `bitshift < 8`. -/
def leftshift8 (bitarray : List Nat) (length bitshift : Nat) : List Nat :=
  (List.range bitarray.length).map (fun i =>
    if i < length then
      bitarray.getD i 0 * 2 ^ bitshift % 256 +
        (if i + 1 < length then bitarray.getD (i + 1) 0 / 2 ^ (8 - bitshift) else 0)
    else bitarray.getD i 0)

/-- Modelled from the spec: `rightshift8` of `sequences.hpp` is missing; §4.1
`shift_right`, on the first `length` bytes of the buffer, `bitshift < 8`. -/
def rightshift8 (bitarray : List Nat) (length bitshift : Nat) : List Nat :=
  (List.range bitarray.length).map (fun i =>
    if i < length then
      bitarray.getD i 0 / 2 ^ bitshift +
        (if 0 < i then bitarray.getD (i - 1) 0 * 2 ^ (8 - bitshift) % 256 else 0)
    else bitarray.getD i 0)

/-- The value of `static_cast<uint>(ceil(log2(n)))` for an integer `n >= 1`: the least `b`
with `n <= 2 ^ b`. -/
def ceil_log2 (n : Nat) : Nat :=
  ((List.range 64).find? (fun b => decide (n ≤ 2 ^ b))).getD 64

/-! ## Memory accesses -/

/-- The `len` bytes read from address `ptr` of the arena. -/
def read_bytes (mem : List Nat) (ptr len : Nat) : List Nat :=
  (List.range len).map (fun i => mem.getD (ptr + i) 0)

/-- Call `memcpy(dst + pos, src, src.length)` on a buffer of known size; writing past
the end of the buffer has no defined result. -/
def memcpy (dst : List Nat) (pos : Nat) (src : List Nat) : Option (List Nat) :=
  if pos + src.length ≤ dst.length then
    some (dst.take pos ++ src ++ dst.drop (pos + src.length))
  else none

/-- The loops of lines 629-635 and of `mini_pos_from_buffer`: big-endian value of
`mini_pos_size` bytes, accumulated in a `uint`. -/
def read_mini_pos (mem : List Nat) (ptr mini_pos_size : Nat) : Nat :=
  (List.range mini_pos_size).foldl
    (fun mini_pos b => (mini_pos * 2 ^ 8 % 2 ^ 32 + mem.getD (ptr + b) 0) % 2 ^ 32) 0

/-! ## `write_paths` -/

/-- The arguments of one call of `write_compacted_sequence_without_mini` (line 670). -/
structure Skmer where
  /-- The buffer `skmer_buffer`. -/
  seq : List Nat
  /-- The nucleotide count `skmer_size`. -/
  seq_size : Nat
  /-- The minimizer offset `mini_pos`. -/
  mini_pos : Nat
  /-- The buffer `data_buffer`. -/
  data : List Nat
deriving DecidableEq

/-- Lines 651-664: the k-mers of index `kmer_idx`, `kmer_idx + 1`, ... of the path are
compacted one by one into `(skmer_buffer, data_buffer)`. -/
def compact_kmers (mem : List Nat) (nb_nucl data_size skmer_offset kmer_bytes : Nat) :
    List Nat → Nat → List Nat × List Nat → Option (List Nat × List Nat)
  | [], _, st => some st
  | kmer :: rest, kmer_idx, (skmer_buffer, data_buffer) =>
    let compact_nucl_pos := (skmer_offset + usub nb_nucl 1 + kmer_idx) % 2 ^ 32
    let compact_byte := compact_nucl_pos / 4
    let compact_shift := 3 - compact_nucl_pos % 4
    let last_nucl := mem.getD (kmer + usub kmer_bytes 1) 0 &&& 3
    if compact_byte < skmer_buffer.length then
      match memcpy data_buffer (kmer_idx * data_size % 2 ^ 32)
          (read_bytes mem (kmer + kmer_bytes) data_size) with
      | some data_buffer1 =>
        compact_kmers mem nb_nucl data_size skmer_offset kmer_bytes rest (kmer_idx + 1)
          (skmer_buffer.set compact_byte
            ((skmer_buffer.getD compact_byte 0 ||| last_nucl <<< (2 * compact_shift)) % 256),
           data_buffer1)
      | none => none
    else none

/-- Body of the loop of `write_paths` over the paths (lines 622-671): what is handed to the
writer for one path. `max` is the `max` of the output section. Reading `path[0]` of an
empty path and writing outside a buffer have no defined result. -/
def write_path (mem : List Nat) (k m data_size max : Nat) (path : List Nat) : Option Skmer :=
  let nb_nucl := usub k m
  let kmer_bytes := (nb_nucl + 3) / 4
  let kmer_offset := (4 - nb_nucl % 4) % 4
  let mini_pos_size := (ceil_log2 (max + k - m) + 7) / 8
  let max_skmer_bytes := (2 * nb_nucl + 3) / 4
  let data_bytes := (nb_nucl + 1) * data_size % 2 ^ 32
  match path with
  | [] => none
  | first :: others =>
    let mini_pos := read_mini_pos mem (first + kmer_bytes + data_size) mini_pos_size
    let skmer_size := (usub nb_nucl 1 + path.length) % 2 ^ 32
    let skmer_offset := (4 - skmer_size % 4) % 4
    match memcpy (List.replicate (max_skmer_bytes + 1) 0) 0 (read_bytes mem first kmer_bytes),
      memcpy (List.replicate data_bytes 0) 0 (read_bytes mem (first + kmer_bytes) data_size) with
    | some buffer0, some data0 =>
      let buffer1 := leftshift8 buffer0 kmer_bytes (2 * kmer_offset)
      let buffer2 := rightshift8 buffer1 (kmer_bytes + 1) (2 * skmer_offset)
      match compact_kmers mem nb_nucl data_size skmer_offset kmer_bytes others 1
          (buffer2, data0) with
      | some (skmer_buffer, data_buffer) =>
        some { seq := skmer_buffer, seq_size := skmer_size, mini_pos := mini_pos,
               data := data_buffer }
      | none => none
    | _, _ => none

/-- The function `Compact::write_paths` (lines 608-677): the calls made to the writer, one
per path, in order. -/
def write_paths (mem : List Nat) (k m data_size max : Nat) (paths : List (List Nat)) :
    Option (List Skmer) :=
  paths.mapM (write_path mem k m data_size max)

/-- Nucleotide at absolute position `p` of a buffer: 4 nucleotides per byte, most
significant first. -/
def nucl_at (buf : List Nat) (p : Nat) : Nat :=
  buf.getD (p / 4) 0 / 4 ^ (3 - p % 4) % 4

/-! ## The arena and `prepare_kmer_matrix` -/

/-- Bytes of a list of nucleotides whose length is a multiple of 4. -/
def pack_bytes : List Nat → List Nat
  | a :: b :: c :: d :: rest => (64 * a + 16 * b + 4 * c + d) :: pack_bytes rest
  | _ => []

/-- Modelled from the spec: `subsequence` of `sequences.hpp` is missing; §4.1
`extract_subrange`: the nucleotides `[begin_nucl, end_nucl]` of a packed sequence copied
"into a newly packed buffer", with zero padding in front (§3). -/
def subsequence (mem : List Nat) (seq seq_size begin_nucl end_nucl : Nat) : List Nat :=
  pack_bytes (List.replicate ((4 - (end_nucl + 1 - begin_nucl) % 4) % 4) 0 ++
    subrange mem seq seq_size begin_nucl end_nucl)

/-- The arena fields of `Compact`. -/
structure Arena where
  /-- The bytes of `kmer_buffer`. -/
  kmer_buffer : List Nat
  /-- The field `buffer_size`. -/
  buffer_size : Nat
  /-- The field `next_free`. -/
  next_free : Nat
deriving DecidableEq

/-- The arena set up by the constructor `Compact::Compact` (lines 23-26). -/
def Arena.init : Arena :=
  { kmer_buffer := List.replicate (2 ^ 10) 0, buffer_size := 2 ^ 10, next_free := 0 }

/-- The growth step of lines 166-170 and 214-218: one doubling when the record does not
fit. -/
def Arena.grow (a : Arena) (record_size : Nat) : Arena :=
  if a.buffer_size - a.next_free < record_size then
    { kmer_buffer := a.kmer_buffer ++ List.replicate a.buffer_size 0,
      buffer_size := a.buffer_size * 2, next_free := a.next_free }
  else a

/-- One block of a minimizer section as `read_compacted_sequence_without_mini` returns it:
the packed sequence without the minimizer, the payloads, the minimizer position and the
number of k-mers (the return value). -/
structure Block where
  /-- The bytes written in `seq_buffer`. -/
  seq : List Nat
  /-- The bytes written in `data_buffer`. -/
  data : List Nat
  /-- The minimizer position `mini_pos`. -/
  mini_pos : Nat
  /-- The number of k-mers of the block. -/
  nb_kmers : Nat
deriving DecidableEq

/-- The fields of the input `Section_Minimizer` that `prepare_kmer_matrix` reads. -/
structure Section where
  /-- The field `k`. -/
  k : Nat
  /-- The field `m`. -/
  m : Nat
  /-- The field `max`. -/
  max : Nat
  /-- The field `data_size`. -/
  data_size : Nat
  /-- The `nb_blocks` blocks, in reading order. -/
  blocks : List Block
deriving DecidableEq

/-- Big-endian bytes written by the loops of lines 181-184 and 226-229. -/
def mini_pos_bytes (mini_pos_size value : Nat) : List Nat :=
  (List.range mini_pos_size).map (fun b => value / 256 ^ (mini_pos_size - 1 - b) % 256)

/-- The column index of line 211, `uint kmer_pos = sm.k - (uint)sm.m - mini_pos + kmer_idx`,
computed on 64 bits and truncated to 32 bits. -/
def kmer_column (k m mini_pos kmer_idx : Nat) : Nat :=
  (((k : Int) - (m : Int) - (mini_pos : Int) + (kmer_idx : Int)) % 2 ^ 32).toNat

/-- Body of the loop of lines 210-233 for the k-mer `kmer_idx` of a block. Writing outside
the arena and indexing `pos_matrix` out of range have no defined result. -/
def add_kmer (sm : Section) (block : Block)
    (st : Arena × List (List Nat)) (kmer_idx : Nat) : Option (Arena × List (List Nat)) :=
  let kmer_bytes := (usub sm.k sm.m + 3) / 4
  let mini_pos_size := (ceil_log2 (sm.k + sm.max - 1) + 7) / 8
  let kmer_pos := kmer_column sm.k sm.m block.mini_pos kmer_idx
  let a := st.1.grow (kmer_bytes + sm.data_size + mini_pos_size)
  let kmer_mini_pos := usub block.mini_pos kmer_idx
  match memcpy a.kmer_buffer a.next_free
      (subsequence block.seq 0 (usub (sm.k + block.nb_kmers) (sm.m + 1)) kmer_idx
        (usub (kmer_idx + sm.k) (sm.m + 1))) with
  | none => none
  | some buffer1 =>
    match memcpy buffer1 (a.next_free + kmer_bytes)
        (read_bytes block.data (kmer_idx * sm.data_size) sm.data_size) with
    | none => none
    | some buffer2 =>
      match memcpy buffer2 (a.next_free + kmer_bytes + sm.data_size)
          (mini_pos_bytes mini_pos_size kmer_mini_pos) with
      | none => none
      | some buffer3 =>
        if kmer_pos < st.2.length then
          some ({ kmer_buffer := buffer3, buffer_size := a.buffer_size,
                  next_free := a.next_free + (kmer_bytes + sm.data_size + mini_pos_size) },
                st.2.set kmer_pos (st.2.getD kmer_pos [] ++ [a.next_free]))
        else none

/-- The loop of lines 210-233 over the k-mers `kmer_idx, kmer_idx + 1, ...` of a block,
`count` of them. -/
def add_kmers (sm : Section) (block : Block) :
    Nat → Nat → Arena × List (List Nat) → Option (Arena × List (List Nat))
  | 0, _, st => some st
  | count + 1, kmer_idx, st =>
    match add_kmer sm block st kmer_idx with
    | some st1 => add_kmers sm block count (kmer_idx + 1) st1
    | none => none

/-- The loop of lines 203-234 over the blocks. -/
def add_blocks (sm : Section) :
    List Block → Arena × List (List Nat) → Option (Arena × List (List Nat))
  | [], st => some st
  | block :: rest, st =>
    match add_kmers sm block block.nb_kmers 0 st with
    | some st1 => add_blocks sm rest st1
    | none => none

/-- The function `Compact::prepare_kmer_matrix` (lines 190-250): the arena after the
section is loaded and the matrix of k-mer references (offsets in the arena). -/
def prepare_kmer_matrix (a : Arena) (sm : Section) : Option (Arena × List (List Nat)) :=
  add_blocks sm sm.blocks (a, List.replicate (usub sm.k sm.m + 1) [])

/-- Lines 145-155 of `Compact::compact_section`, non-sorted branch: the section is loaded,
then assembled; the result is the arena and the paths. `k` and `m` are the global variables
of the output file, `sm` is the input section. -/
def section_paths (a : Arena) (k m : Nat) (sm : Section) :
    Option (List Nat × List (List Nat)) :=
  match prepare_kmer_matrix a sm with
  | none => none
  | some (a1, kmers_per_index) =>
    match pairs_to_paths (greedy_assembly (subseq_to_uint a1.kmer_buffer)
        (sequence_compare a1.kmer_buffer) k m kmers_per_index) with
    | none => none
    | some paths => some (a1.kmer_buffer, paths)

/-- The non-sorted branch of `Compact::compact_section` (lines 130-161): `k`, `m`,
`data_size` and `max` are the global variables of the output file, `sm` is the input
section; the result is the list of calls made to the writer. -/
def compact_section (a : Arena) (k m data_size max : Nat) (sm : Section) :
    Option (List Skmer) :=
  match section_paths a k m sm with
  | none => none
  | some (mem, paths) => write_paths mem k m data_size max paths

/-- A section with `k = 5`, `m = 2`, `data_size = 1`: the given blocks. -/
def section_5_2 (max : Nat) (blocks : List Block) : Section :=
  { k := 5, m := 2, max := max, data_size := 1, blocks := blocks }

/-- The block of two k-mers with windows ACG and CGT (A = 0, C = 1, G = 3, T = 2, the
encoding of line 666), payloads 1 and 2, and minimizer position `p`. -/
def block_acgt (p : Nat) : Block :=
  { seq := [0x1E], data := [1, 2], mini_pos := p, nb_kmers := 2 }

/-- A block of one k-mer with window ACG, payload 1 and minimizer position 2. -/
def block_acg : Block :=
  { seq := [0x07], data := [1], mini_pos := 2, nb_kmers := 1 }

/-- A block of one k-mer with window TTT, payload 2 and minimizer position 1. -/
def block_ttt : Block :=
  { seq := [0x2A], data := [2], mini_pos := 1, nb_kmers := 1 }

/-- The size of an arena record as `prepare_kmer_matrix` lays it out (line 232). -/
def record_size (sm : Section) : Nat :=
  (sm.k - sm.m + 3) / 4 + sm.data_size + (ceil_log2 (sm.k + sm.max - 1) + 7) / 8

/-- Placement as the spec words it: the k-mers of the blocks in reading order, each with the
column `k - m - p + j` (`p` the minimizer position of its block, `j` its index in the
block) and its reference; references are consecutive records from `ref`. -/
def section_placements (sm : Section) : List Block → Nat → List (Nat × Nat)
  | [], _ => []
  | block :: rest, ref =>
    (List.range' 0 block.nb_kmers).map
        (fun j => (sm.k - sm.m - block.mini_pos + j, ref + j * record_size sm)) ++
      section_placements sm rest (ref + block.nb_kmers * record_size sm)

/-- The arena is consistent and a record fits in its current size. -/
def Arena.Fits (a : Arena) (size : Nat) : Prop :=
  a.kmer_buffer.length = a.buffer_size ∧ a.next_free ≤ a.buffer_size ∧ size ≤ a.buffer_size

/-- The matrix holds, column by column and in order, the references placed so far. -/
def MatrixOf (matrix : List (List Nat)) (placed : List (Nat × Nat)) : Prop :=
  matrix.flatten.Perm (placed.map Prod.snd) ∧
    ∀ c, matrix.getD c [] = (placed.filter (fun e => decide (e.1 = c))).map Prod.snd

/-! ## The greedy tie-break as the spec words it -/

/-- Tie-break as the spec words it: among the not yet consumed k-mers of column `i`
(`avail`, in the iteration order of the column), the earliest one whose suffix
(nucleotides `1 .. nb_nucl-1`) is the prefix (nucleotides `0 .. nb_nucl-2`) of `kmer`. -/
def first_match (mem : List Nat) (nb_nucl : Nat) (avail : List Nat) (kmer : Nat) :
    Option Nat :=
  avail.find? (fun c => decide (subrange mem c nb_nucl 1 (nb_nucl - 1) =
    subrange mem kmer nb_nucl 0 (nb_nucl - 2)))

/-- Linking of one k-mer of column `i+1` as the spec words it: the first match is consumed
and recorded as predecessor; without a match the k-mer starts a chain. -/
def link_first_match (mem : List Nat) (nb_nucl : Nat) (st : List Nat × List Pair)
    (kmer : Nat) : List Nat × List Pair :=
  match first_match mem nb_nucl st.1 kmer with
  | some c => (st.1.erase c, st.2 ++ [(some c, kmer)])
  | none => (st.1, st.2 ++ [(none, kmer)])

/-- The greedy assembler as §4.5 of the spec words it, without hash index: the k-mers of
column 0 start chains, then for every adjacent column pair every k-mer of column `i+1` is
linked to its first match among the unused k-mers of column `i`. -/
def greedy_first_match (mem : List Nat) (k m : Nat) (kmers : List (List Nat)) : List Pair :=
  (List.range (k - m)).foldl
    (fun asm i => ((kmers.getD (i + 1) []).foldl (link_first_match mem (k - m))
      (kmers.getD i [], asm)).2)
    ((kmers.getD 0 []).map (fun kmer => (none, kmer)))

/-! ## The fields set by `compact_section` and the record functions -/

/-- Line 139 of `compact_section`: `bytes_compacted = (k - m + 3) / 4`. -/
def bytes_compacted (k m : Nat) : Nat := (usub k m + 3) / 4

/-- Lines 140-141 of `compact_section`: `max_nucl = (k - m) + 1` in `uint` arithmetic, then
`mini_pos_size = (ceil(log2(max_nucl)) + 7) / 8`. -/
def mini_pos_size (k m : Nat) : Nat := (ceil_log2 ((usub k m + 1) % 2 ^ 32) + 7) / 8

/-- Line 142 of `compact_section`: `offset_idx = (4 - ((k - m) % 4)) % 4`. -/
def offset_idx (k m : Nat) : Nat := (4 - usub k m % 4) % 4

/-- The function `Compact::add_kmer_to_buffer` (lines 164-188), with the fields
`bytes_compacted`, `data_size`, `mini_pos_size` of the object: the new arena and the
returned position. `seq` and `data` are the caller's buffers. Writing outside the arena
has no defined result. -/
def add_kmer_to_buffer (bytes_compacted data_size mini_pos_size : Nat) (a : Arena)
    (seq data : List Nat) (mini_pos : Nat) : Option (Arena × Nat) :=
  let a1 := a.grow (bytes_compacted + data_size + mini_pos_size)
  let position := a1.next_free
  match memcpy a1.kmer_buffer a1.next_free (read_bytes seq 0 bytes_compacted) with
  | none => none
  | some buffer1 =>
    match memcpy buffer1 (a1.next_free + bytes_compacted) (read_bytes data 0 data_size) with
    | none => none
    | some buffer2 =>
      match memcpy buffer2 (a1.next_free + bytes_compacted + data_size)
          (mini_pos_bytes mini_pos_size (mini_pos % 2 ^ 64)) with
      | none => none
      | some buffer3 =>
        some ({ kmer_buffer := buffer3, buffer_size := a1.buffer_size,
                next_free := a1.next_free + (bytes_compacted + data_size + mini_pos_size) },
              position)

/-- The function `Compact::mini_pos_from_buffer` (lines 253-262) on the record at address
`kmer` of the arena. -/
def mini_pos_from_buffer (bytes_compacted data_size mini_pos_size : Nat) (mem : List Nat)
    (kmer : Nat) : Nat :=
  read_mini_pos mem (kmer + bytes_compacted + data_size) mini_pos_size

/-- The offset fields of the records placed so far: every placed record lies below
`next_free` and its minimizer-offset field, read on the width with which
`prepare_kmer_matrix` writes it, is `k - m` minus its column. -/
def StoredOffsets (sm : Section) (buf : List Nat) (next_free : Nat)
    (placed : List (Nat × Nat)) : Prop :=
  ∀ e ∈ placed, e.2 + record_size sm ≤ next_free ∧
    read_mini_pos buf (e.2 + (sm.k - sm.m + 3) / 4 + sm.data_size)
      ((ceil_log2 (sm.k + sm.max - 1) + 7) / 8) = sm.k - sm.m - e.1

/-! ## `pairs_to_paths` as a fold -/

/-- Every path has a last element, registered in `path_registry` under the index of the
path. -/
def TailsRegistered (st : PathState) : Prop :=
  ∀ idx path, st.paths[idx]? = some path →
    ∃ r, path.getLast? = some r ∧ st.path_registry r = some idx

/-- Each non-null predecessor is, when its pair is reached, the last element of a path
built from the pairs before it. -/
def preds_are_tails (to_compact : List Pair) : Bool :=
  (List.range to_compact.length).all (fun i =>
    match (to_compact.getD i (none, 0)).1 with
    | none => true
    | some first =>
      match pairs_to_paths (to_compact.take i) with
      | none => false
      | some paths => paths.any (fun path => path.getLast? == some first))

/-! ## `interleaved_compare_kmers` -/

/-- Conversion of a `uint` value to `int`. -/
def to_int (x : Nat) : Int :=
  if x % 2 ^ 32 < 2 ^ 31 then ((x % 2 ^ 32 : Nat) : Int)
  else ((x % 2 ^ 32 : Nat) : Int) - 2 ^ 32

/-- Conversion of an `int` value to `uint`. -/
def to_uint (x : Int) : Nat := (x % 2 ^ 32).toNat

/-- Lines 287-303 of the prefix loop of `interleaved_compare_kmers`: the two bytes
`pref_byte` of the records are masked, the first byte with `pref_start_mask`, the last byte
with `pref_stop_mask`, and xored. -/
def prefix_result (mem : List Nat) (kmer1 kmer2 offset_nucl suff_nucl pref_bytes : Nat)
    (pref_byte : Nat) : Nat :=
  let pref_start_mask := usub (1 <<< (8 - 2 * offset_nucl)) 1
  let pref_stop_mask := 2 ^ 32 - 1 - usub (1 <<< (2 * (suff_nucl % 4))) 1
  let end_byte := pref_byte == usub pref_bytes 1
  let byte1 := mem.getD (kmer1 + pref_byte) 0
  let byte2 := mem.getD (kmer2 + pref_byte) 0
  let byte1 := if pref_byte = 0 then (byte1 &&& pref_start_mask) % 256 else byte1
  let byte2 := if pref_byte = 0 then (byte2 &&& pref_start_mask) % 256 else byte2
  let byte1 := if end_byte then (byte1 &&& pref_stop_mask) % 256 else byte1
  let byte2 := if end_byte then (byte2 &&& pref_stop_mask) % 256 else byte2
  byte1 ^^^ byte2

/-- Body of the prefix loop of `interleaved_compare_kmers` (lines 286-310) for the byte
`pref_byte`: the new value of `last_prefix_divergence`. The inner loop stops at the first
`i` of `0, 1, 2, 3` that is examined and whose two bits of `result` are not zero. -/
def prefix_byte (mem : List Nat) (kmer1 kmer2 offset_nucl suff_nucl pref_bytes : Nat)
    (last_prefix_divergence : Int) (pref_byte : Nat) : Int :=
  match (List.range 4).find? (fun i =>
      (!(pref_byte == usub pref_bytes 1) || decide (suff_nucl % 4 ≤ i)) &&
      decide (prefix_result mem kmer1 kmer2 offset_nucl suff_nucl pref_bytes pref_byte &&&
        (3 <<< (2 * i)) ≠ 0)) with
  | some i => to_int (usub (usub (pref_byte * 4 + 3) i) offset_nucl)
  | none => last_prefix_divergence

/-- Body of the inner loop of the suffix scan (lines 330-335) for the value `i`: the state
is `(first_suffix_divergence, current_divergence_idx)`. -/
def suffix_slot (result : Nat) (st : Int × Int) (i : Nat) : Int × Int :=
  if result &&& (3 <<< (2 * (i - 1))) ≠ 0 then (st.2, st.2) else (st.1, st.2 + 1)

/-- Inner loop of the suffix scan (lines 322-336), `for (i = 4; i > 0; i--)`, from the
value `i`; on the first byte the value 4 is replaced by `((suff_nucl - 1) % 4) + 1`. The
loop has no `break`. The first argument bounds the number of iterations. -/
def suffix_slots (first_byte : Bool) (suff_nucl result : Nat) :
    Nat → Nat → Int × Int → Int × Int
  | 0, _, st => st
  | fuel + 1, i, st =>
    if 0 < i then
      let i1 := if first_byte && i == 4 then usub suff_nucl 1 % 4 + 1 else i
      suffix_slots first_byte suff_nucl result fuel (i1 - 1) (suffix_slot result st i1)
    else st

/-- Body of the outer loop of the suffix scan (lines 316-337) for the byte `suff_byte`; a
byte reached after a divergence was recorded is not scanned, as the loop has ended. -/
def suffix_byte (mem : List Nat) (kmer1 kmer2 suff_nucl suff_first_byte : Nat)
    (st : Int × Int) (suff_byte : Nat) : Int × Int :=
  if st.1 = to_int suff_nucl then
    suffix_slots (suff_byte == suff_first_byte) suff_nucl
      (mem.getD (kmer1 + suff_byte) 0 ^^^ mem.getD (kmer2 + suff_byte) 0) 4 4 st
  else st

/-- The function `Compact::interleaved_compare_kmers` (lines 265-379) with the fields
`k`, `m`, `bytes_compacted`, `data_size`, `mini_pos_size` of the object. The result is
`none` when the assertion of line 269 fails. -/
def interleaved_compare_kmers (k m bytes_compacted data_size mini_pos_size : Nat)
    (mem : List Nat) (kmer1 kmer2 : Nat) : Option Int :=
  let mini_pos1 := mini_pos_from_buffer bytes_compacted data_size mini_pos_size mem kmer1
  let mini_pos2 := mini_pos_from_buffer bytes_compacted data_size mini_pos_size mem kmer2
  if mini_pos1 ≠ mini_pos2 then none
  else
    let used_nucl := usub k m
    let offset_nucl := (4 - used_nucl % 4) % 4
    let pref_nucl := mini_pos1
    let pref_bytes := (offset_nucl + pref_nucl + 3) % 2 ^ 32 / 4
    let suff_nucl := usub used_nucl pref_nucl
    let suff_bytes := (suff_nucl + 3) % 2 ^ 32 / 4
    let total_bytes := (used_nucl + 3) % 2 ^ 32 / 4
    let last_prefix_divergence := (List.range pref_bytes).foldl
      (prefix_byte mem kmer1 kmer2 offset_nucl suff_nucl pref_bytes) (-1)
    let suff_first_byte := usub total_bytes suff_bytes
    let first_suffix_divergence :=
      ((List.range' suff_first_byte (total_bytes - suff_first_byte)).foldl
        (suffix_byte mem kmer1 kmer2 suff_nucl suff_first_byte) (to_int suff_nucl, 0)).1
    if last_prefix_divergence = -1 ∧ first_suffix_divergence = to_int suff_nucl then some 0
    else
      let pref_div_distance := usub (usub pref_nucl (to_uint last_prefix_divergence)) 1
      let nucl_pos :=
        if pref_div_distance = pref_nucl then
          (offset_nucl + pref_nucl + to_uint first_suffix_divergence) % 2 ^ 32
        else if first_suffix_divergence = to_int suff_nucl then
          (offset_nucl + to_uint last_prefix_divergence) % 2 ^ 32
        else if to_int pref_div_distance < first_suffix_divergence then
          (offset_nucl + to_uint last_prefix_divergence) % 2 ^ 32
        else (offset_nucl + pref_nucl + to_uint first_suffix_divergence) % 2 ^ 32
      let byte_pos := nucl_pos / 4
      let nucl_shift := 2 * (3 - nucl_pos % 4)
      let nucl1 := (mem.getD (kmer1 + byte_pos) 0 >>> nucl_shift) &&& 3
      let nucl2 := (mem.getD (kmer2 + byte_pos) 0 >>> nucl_shift) &&& 3
      some (if nucl1 < nucl2 then -1 else 1)

/-- Nucleotide at position `q` of the bytes of a record, the padding of the first byte
counted: 4 nucleotides per byte, most significant first. -/
def record_nucl (mem : List Nat) (kmer q : Nat) : Nat :=
  mem.getD (kmer + q / 4) 0 / 4 ^ (3 - q % 4) % 4

/-- Invariant of the suffix scan after `n` nucleotides from position `base` were examined:
when they are the same in the two records the state is `(suff, n)`, otherwise
`first_suffix_divergence` is set and `0 <= first_suffix_divergence <=
current_divergence_idx < n`. -/
def ScanInv (mem : List Nat) (kmer1 kmer2 base : Nat) (suff : Int) (n : Nat)
    (st : Int × Int) : Prop :=
  ((∀ j < n, record_nucl mem kmer1 (base + j) = record_nucl mem kmer2 (base + j)) →
    st = (suff, (n : Int))) ∧
  ((¬ ∀ j < n, record_nucl mem kmer1 (base + j) = record_nucl mem kmer2 (base + j)) →
    0 ≤ st.1 ∧ st.1 ≤ st.2 ∧ st.2 < (n : Int))

/-! ## The driver `exec` and the container interface -/

/-- The entries of an `unordered_map<string, uint64_t>`: the global variables of a file or
the variables of a variable section. -/
abbrev Vars := List (String × Nat)

/-- Value read by `map[name]`: 0 when the key is absent. -/
def vars_get (vars : Vars) (name : String) : Nat := (vars.lookup name).getD 0

/-- The map after a read `map[name]`: an absent key is inserted with the value 0. -/
def vars_touch (vars : Vars) (name : String) : Vars :=
  if (vars.lookup name).isSome then vars else vars ++ [(name, 0)]

/-- Assignment `map[name] = value`. -/
def vars_set (vars : Vars) (name : String) (value : Nat) : Vars :=
  if (vars.lookup name).isSome then
    vars.map (fun p => if p.1 = name then (name, value) else p)
  else vars ++ [(name, value)]

/-- A section of the output file. -/
inductive OutSection where
  /-- A variable section with its variables. -/
  | gv (vars : Vars)
  /-- An index section. -/
  | index (content : List Nat)
  /-- A raw section. -/
  | raw (content : List Nat)
  /-- A minimizer section: the calls made to the writer. -/
  | minimizer (skmers : List Skmer)
deriving DecidableEq

/-- A section of the input file, as the reader returns it. -/
inductive InSection where
  /-- A variable section with its variables (`Section_GV::vars`). -/
  | gv (vars : Vars)
  /-- An index section. -/
  | index (content : List Nat)
  /-- A raw section. -/
  | raw (content : List Nat)
  /-- A minimizer section. -/
  | minimizer (sm : Section)
deriving DecidableEq

/-- The output `Kff_file`: its global variables and the sections written so far. -/
structure Kff_file where
  /-- The map `global_vars`. -/
  global_vars : Vars
  /-- The sections written, in order. -/
  sections : List OutSection
deriving DecidableEq

/-- Modelled from the spec: the container library is outside `src/` (section 6, external
interfaces). An open variable section of the output file: the file and the variables
written so far. -/
structure Section_GV where
  /-- The output file. -/
  file : Kff_file
  /-- The variables of the section. -/
  vars : Vars

/-- Modelled from the spec: the container library is outside `src/`. The call
`write_var(name, value)` records the variable in the section and sets the global variable
of the file. -/
def Section_GV.write_var (sgv : Section_GV) (name : String) (value : Nat) : Section_GV :=
  { file := { sgv.file with global_vars := vars_set sgv.file.global_vars name value },
    vars := vars_set sgv.vars name value }

/-- Modelled from the spec: the container library is outside `src/`. The call `close()`
writes the section to the file. -/
def Section_GV.close (sgv : Section_GV) : Kff_file :=
  { sgv.file with sections := sgv.file.sections ++ [OutSection.gv sgv.vars] }

/-- Lines 103-117 of `Compact::exec`: when the `max` of the output file is below
`k - m + 1` (in `uint` arithmetic), a variable section is written with every variable of
the output file other than `max`, then `max = k - m + 1`. -/
def rewrite_max (outfile : Kff_file) : Kff_file :=
  let vars0 := vars_touch (vars_touch outfile.global_vars "k") "m"
  let k := vars_get vars0 "k" % 2 ^ 32
  let m := vars_get vars0 "m" % 2 ^ 32
  let vars1 := vars_touch vars0 "max"
  let outfile1 : Kff_file := { outfile with global_vars := vars1 }
  if vars_get vars1 "max" < (usub k m + 1) % 2 ^ 32 then
    let values := vars1
    let sgv : Section_GV := { file := outfile1, vars := [] }
    let sgv := values.foldl
      (fun sgv p => if p.1 ≠ "max" then sgv.write_var p.1 p.2 else sgv) sgv
    let sgv := sgv.write_var "max" ((usub k m + 1) % 2 ^ 32)
    sgv.close
  else outfile1

/-- The ways in which the process ends without returning. -/
inductive Fatal where
  /-- A failed `assert`. -/
  | assertion
  /-- A call of `exit` with the given status. -/
  | exit (status : Nat)
  /-- A memory access outside a buffer. -/
  | undefined
deriving DecidableEq

/-! ## The sorted mode -/

/-- The comparison function of `sort_matrix` (lines 387-389):
`interleaved_compare_kmers(kmer1, kmer2) < 0`. -/
def comp_function (compare : Nat → Nat → Option Int) (kmer1 kmer2 : Nat) : Option Bool :=
  (compare kmer1 kmer2).map (fun r => decide (r < 0))

/-- Insertion of a k-mer in a sorted column with the comparison function. -/
def insert_kmer (compare : Nat → Nat → Option Int) (kmer : Nat) :
    List Nat → Option (List Nat)
  | [] => some [kmer]
  | x :: rest =>
    match comp_function compare kmer x with
    | none => none
    | some true => some (kmer :: x :: rest)
    | some false => (insert_kmer compare kmer rest).map (fun l => x :: l)

/-- The call `sort(column.begin(), column.end(), comp_function)` of line 391, as an
insertion sort; `sort` is a library function and the order of its comparisons is not
fixed. The result is `none` when a comparison fails its assertion. -/
def sort_column (compare : Nat → Nat → Option Int) : List Nat → Option (List Nat)
  | [] => some []
  | kmer :: rest =>
    match sort_column compare rest with
    | none => none
    | some sorted => insert_kmer compare kmer sorted

/-- The function `Compact::sort_matrix` (lines 382-393). -/
def sort_matrix (compare : Nat → Nat → Option Int) :
    List (List Nat) → Option (List (List Nat))
  | [] => some []
  | column :: rest =>
    match sort_column compare column with
    | none => none
    | some sorted => (sort_matrix compare rest).map (fun l => sorted :: l)

/-- Lines 403-411 of `pair_kmers`: a k-mer of the second column is indexed under the value
of its prefix and entered in `used` as not used. -/
def index_second (subseq_to_uint : Nat → Nat → Nat → Nat → Nat) (nb_nucl : Nat)
    (st : Index × List (Nat × Bool)) (kmer : Nat) : Index × List (Nat × Bool) :=
  let hash := subseq_to_uint kmer nb_nucl 0 (usub nb_nucl 2)
  let index1 : Index := if (st.1 hash).isNone then map_set st.1 hash [] else st.1
  (map_set index1 hash ((index1 hash).getD [] ++ [kmer]),
    if (st.2.lookup kmer).isSome then
      st.2.map (fun e => if e.1 = kmer then (kmer, false) else e)
    else st.2 ++ [(kmer, false)])

/-- Lines 414-435 of `pair_kmers`: every candidate of the second column whose prefix is
the suffix of the k-mer is paired with it and marked as used. -/
def pair_kmer (subseq_to_uint : Nat → Nat → Nat → Nat → Nat)
    (sequence_compare : Nat → Nat → Nat → Nat → Nat → Nat → Nat → Nat → Int) (nb_nucl : Nat)
    (index : Index) (st : List Pair × List (Nat × Bool)) (kmer : Nat) :
    List Pair × List (Nat × Bool) :=
  let hash := subseq_to_uint kmer nb_nucl 1 (usub nb_nucl 1)
  match index hash with
  | none => st
  | some candidates =>
    candidates.foldl (fun st candidate =>
      if sequence_compare candidate nb_nucl 0 (usub nb_nucl 2)
          kmer nb_nucl 1 (usub nb_nucl 1) = 0 then
        (st.1 ++ [(some kmer, candidate)],
          st.2.map (fun e => if e.1 = candidate then (candidate, true) else e))
      else st) st

/-- The function `Compact::pair_kmers` (lines 396-446); the entries of `used` are visited
in the order of their insertion. -/
def pair_kmers (subseq_to_uint : Nat → Nat → Nat → Nat → Nat)
    (sequence_compare : Nat → Nat → Nat → Nat → Nat → Nat → Nat → Nat → Int) (k m : Nat)
    (column1 column2 : List Nat) : List Pair :=
  let nb_nucl := usub k m
  let indexed := column2.foldl (index_second subseq_to_uint nb_nucl) (fun _ => none, [])
  let paired := column1.foldl (pair_kmer subseq_to_uint sequence_compare nb_nucl indexed.1)
    ([], indexed.2)
  paired.1 ++ (paired.2.filter (fun e => !e.2)).map (fun e => (none, e.1))

/-- The function `Compact::colinear_chaining` (lines 449-466): the vector `selected` is
returned as it was created. -/
def colinear_chaining (_candidates : List Pair) : List Pair := []

/-- The function `Compact::polish_sort` (lines 469-475): the message `TODO polish_sort`,
then `exit(1)`. -/
def polish_sort (_colinear_chainings : List (List Pair)) : Except Fatal (List (List Nat)) :=
  Except.error (Fatal.exit 1)

/-- The function `Compact::sorted_assembly` (lines 478-505). -/
def sorted_assembly (compare : Nat → Nat → Option Int)
    (subseq_to_uint : Nat → Nat → Nat → Nat → Nat)
    (sequence_compare : Nat → Nat → Nat → Nat → Nat → Nat → Nat → Nat → Int) (k m : Nat)
    (kmers : List (List Nat)) : Except Fatal (List (List Nat)) :=
  match sort_matrix compare kmers with
  | none => Except.error Fatal.assertion
  | some sorted =>
    let first_kmers : List Pair := (sorted.getD 0 []).map (fun kmer => (none, kmer))
    let kmer_pairs := (List.range (usub k m)).foldl (fun kmer_pairs i =>
      kmer_pairs ++ [colinear_chaining (pair_kmers subseq_to_uint sequence_compare k m
        (sorted.getD i []) (sorted.getD (i + 1) []))]) [first_kmers]
    polish_sort kmer_pairs

/-- The function `Compact::compact_section` (lines 130-161) with the field `sorted`: the
arena and the output file after the section. In the sorted branch `exit(0)` follows the
call of `sorted_assembly`. -/
def compact_section_file (sorted : Bool) (a : Arena) (outfile : Kff_file) (sm : Section) :
    Except Fatal (Arena × Kff_file) :=
  let vars := vars_touch (vars_touch (vars_touch outfile.global_vars "k") "m") "data_size"
  let k := vars_get vars "k" % 2 ^ 32
  let m := vars_get vars "m" % 2 ^ 32
  let data_size := vars_get vars "data_size" % 2 ^ 32
  match prepare_kmer_matrix a sm with
  | none => Except.error Fatal.undefined
  | some (a1, kmers_per_index) =>
    if sorted then
      match sorted_assembly
          (interleaved_compare_kmers k m (bytes_compacted k m) data_size (mini_pos_size k m)
            a1.kmer_buffer)
          (subseq_to_uint a1.kmer_buffer) (sequence_compare a1.kmer_buffer) k m
          kmers_per_index with
      | Except.error e => Except.error e
      | Except.ok _ => Except.error (Fatal.exit 0)
    else
      match compact_section a k m data_size (vars_get vars "max") sm with
      | none => Except.error Fatal.undefined
      | some skmers =>
        Except.ok (a1, { global_vars := vars,
                         sections := outfile.sections ++ [OutSection.minimizer skmers] })

/-- State of the loop of `Compact::exec`: the output file, the arena of the object and the
flag `first_warning`. -/
structure ExecState where
  /-- The output file. -/
  outfile : Kff_file
  /-- The arena. -/
  arena : Arena
  /-- The flag `first_warning`. -/
  first_warning : Bool
deriving DecidableEq

/-- Body of the loop of `Compact::exec` (lines 68-123) for one section of the input. -/
def exec_step (sorted : Bool) (st : ExecState) : InSection → Except Fatal ExecState
  | InSection.gv vars =>
    let to_copy := vars.filter (fun p => p.1 ≠ "first_index" && p.1 ≠ "footer_size")
    if 0 < to_copy.length then
      let osgv : Section_GV := { file := st.outfile, vars := [] }
      let osgv := vars.foldl (fun osgv p => osgv.write_var p.1 p.2) osgv
      Except.ok { st with outfile := osgv.close }
    else Except.ok st
  | InSection.index _ => Except.ok st
  | InSection.raw _ => Except.ok { st with first_warning := false }
  | InSection.minimizer sm =>
    match compact_section_file sorted st.arena (rewrite_max st.outfile) sm with
    | Except.error e => Except.error e
    | Except.ok (a1, outfile1) =>
      Except.ok { outfile := outfile1, arena := a1, first_warning := st.first_warning }

/-- The loop of `Compact::exec` from a given state. -/
def exec_loop (sorted : Bool) : List InSection → ExecState → Except Fatal ExecState
  | [], st => Except.ok st
  | sec :: rest, st =>
    match exec_step sorted st sec with
    | Except.error e => Except.error e
    | Except.ok st1 => exec_loop sorted rest st1

/-- The function `Compact::exec` (lines 51-128) on the sections of the input file: the
output file starts without variables and without sections. -/
def exec (sorted : Bool) (input : List InSection) : Except Fatal ExecState :=
  exec_loop sorted input
    { outfile := { global_vars := [], sections := [] }, arena := Arena.init,
      first_warning := true }

/-- The value `k - m + 1` of lines 103-106 of `exec`, in `uint` arithmetic, for the
variables of the output file. -/
def max_needed (vars : Vars) : Nat :=
  (usub (vars_get vars "k" % 2 ^ 32) (vars_get vars "m" % 2 ^ 32) + 1) % 2 ^ 32

/-- The output file of `Compact::exec`. -/
def exec_output (sorted : Bool) (input : List InSection) : Except Fatal Kff_file :=
  match exec sorted input with
  | Except.ok st => Except.ok st.outfile
  | Except.error e => Except.error e

/-- The raw and the index sections of the input. -/
def is_raw_or_index : InSection → Bool
  | InSection.raw _ => true
  | InSection.index _ => true
  | _ => false

/-- The variable and the minimizer sections of the output. -/
def is_gv_or_minimizer : OutSection → Bool
  | OutSection.gv _ => true
  | OutSection.minimizer _ => true
  | _ => false


/-! ## The buffers of `write_paths` -/

/-- Line 609 of `write_paths`: `kmer_bytes = (k - m + 3) / 4`. -/
def kmer_bytes (k m : Nat) : Nat := (usub k m + 3) / 4

/-- Line 613 of `write_paths`: `max_skmer_bytes = (2 * (k - m) + 3) / 4`; the buffer
`skmer_buffer` has `max_skmer_bytes + 1` bytes. -/
def max_skmer_bytes (k m : Nat) : Nat := (2 * usub k m + 3) / 4

/-- Line 615 of `write_paths`: `data_bytes = (k - m + 1) * data_size`, the size of
`data_buffer`, a `uint`. -/
def data_bytes (k m data_size : Nat) : Nat := (usub k m + 1) * data_size % 2 ^ 32

/-- Lines 638-640 of `write_paths`: `skmer_offset` for a path of `path_size` k-mers. -/
def skmer_offset (k m path_size : Nat) : Nat :=
  (4 - (usub (usub k m) 1 + path_size) % 2 ^ 32 % 4) % 4

/-- Lines 656-657 of `write_paths`: `compact_byte`, the byte of `skmer_buffer` that receives
the last nucleotide of the k-mer `kmer_idx` of a path of `path_size` k-mers. -/
def compact_byte (k m path_size kmer_idx : Nat) : Nat :=
  (skmer_offset k m path_size + usub (usub k m) 1 + kmer_idx) % 2 ^ 32 / 4


/-! ## Chain starts of `greedy_assembly` -/

/-- Every pair `(null, s)` of the assembly is justified: each k-mer of the column before
the column of `s` whose suffix is the prefix of `s` is the first component of an earlier
pair. -/
def NullsJustified (sequence_compare : Nat → Nat → Nat → Nat → Nat → Nat → Nat → Nat → Int)
    (nb_nucl : Nat) (kmers : List (List Nat)) (asm : List Pair) : Prop :=
  ∀ (n s : Nat), asm[n]? = some (none, s) → ∀ j, s ∈ kmers.getD (j + 1) [] →
    ∀ c ∈ kmers.getD j [], overlap_ok sequence_compare nb_nucl s c = true →
      some c ∈ (asm.take n).map Prod.fst

/-! ## The legacy driver: `link_kmers` of `src/compact.cpp` -/

/-- An `unordered_map` of the legacy driver, as the list of its entries (one entry per key).
`begin()` is the first entry of the list; the order of the entries of an `unordered_map` is
not specified, the list keeps them in insertion order. -/
abbrev Bin_map (β : Type) := List (Nat × β)

/-- Lookup `map.find(key)`. -/
def bin_find {β : Type} (map : Bin_map β) (key : Nat) : Option β :=
  (map.find? (fun e => decide (e.1 = key))).map Prod.snd

/-- Assignment `map[key] = value`. -/
def bin_set {β : Type} (map : Bin_map β) (key : Nat) (value : β) : Bin_map β :=
  if (bin_find map key).isSome then
    map.map (fun e => if e.1 = key then (key, value) else e)
  else map ++ [(key, value)]

/-- Removal `map.erase(key)`. -/
def bin_erase {β : Type} (map : Bin_map β) (key : Nat) : Bin_map β :=
  map.filter (fun e => !decide (e.1 = key))

/-- The size `max_block_size` of one loaded block (lines 220-222 of `src/compact.cpp`). -/
def max_block_size (k m max_kmers data_size : Nat) : Nat :=
  ((usub (usub (max_kmers % 2 ^ 32 + k % 2 ^ 32) 1) m + 3) % 2 ^ 32 / 4 +
    max_kmers * data_size % 2 ^ 32) % 2 ^ 32

/-- The number of nucleotides `k - 1 + kmer_nb - m` of a loaded sequence (lines 244, 285). -/
def loaded_seq_size (k m kmer_nb : Nat) : Nat := usub (usub k 1 + kmer_nb % 2 ^ 32) m

/-- The variables of `link_kmers` that its loops change. -/
structure Link_state where
  /-- The map `prefix_bins`: minimizer position, then prefix value, then sequence indexes. -/
  prefix_bins : Bin_map (Bin_map (List Nat))
  /-- The vector `present_bins`. -/
  present_bins : List Nat
  /-- The vector `current_path`. -/
  current_path : List Nat
deriving DecidableEq

/-- Lines 232-251 of `link_kmers`: the sequences are distributed into the bins of their
minimizer position, under the value of their prefix of `k - m - 1` nucleotides.
`subsequence seq seq_size begin end` stands for the bytes that `subsequence` of
`sequences.hpp` leaves in `sub_seq` for the sequence at offset `seq` of `loading_memory`,
`seq_to_uint` for the function of the same name. -/
def distribute (subsequence : Nat → Nat → Nat → Nat → List Nat)
    (seq_to_uint : List Nat → Nat → Nat) (k m max_kmers data_size : Nat)
    (kmer_nbs mini_pos : List Nat) : Bin_map (Bin_map (List Nat)) × List Nat :=
  (List.range mini_pos.length).foldl (fun st kmer_idx =>
    let mini_idx := mini_pos.getD kmer_idx 0
    let st1 : Bin_map (Bin_map (List Nat)) × List Nat :=
      if (bin_find st.1 mini_idx).isNone then (bin_set st.1 mini_idx [], st.2 ++ [mini_idx])
      else st
    let seq := kmer_idx * max_block_size k m max_kmers data_size % 2 ^ 32
    let sub_seq := subsequence seq (loaded_seq_size k m (kmer_nbs.getD kmer_idx 0)) 0
      (usub (usub (usub k 1) m) 1)
    let prefix_val := seq_to_uint sub_seq (usub (usub k m) 1)
    let bin := (bin_find st1.1 mini_idx).getD []
    (bin_set st1.1 mini_idx
      (bin_set bin prefix_val ((bin_find bin prefix_val).getD [] ++ [kmer_idx])), st1.2))
    ([], [])

/-- Lines 262-275 of `link_kmers`: a path is started with the first sequence of the first
entry of the first present bin, which is removed from the bins. -/
def start_path (st : Link_state) : Except Fatal Link_state :=
  match st.present_bins with
  | [] => Except.error Fatal.undefined
  | first_bin :: present_rest =>
    match bin_find st.prefix_bins first_bin with
    | none => Except.error Fatal.undefined
    | some [] => Except.error Fatal.undefined
    | some ((_, []) :: _) => Except.error Fatal.undefined
    | some (( first_prefix, first :: first_kmers_idx) :: entries) =>
      let current_path := st.current_path ++ [first]
      if first_kmers_idx = [] then
        let first_idx_bin := bin_erase (( first_prefix, first_kmers_idx) :: entries) first_prefix
        if first_idx_bin = [] then
          Except.ok ⟨bin_erase st.prefix_bins first_bin, present_rest, current_path⟩
        else
          Except.ok ⟨bin_set st.prefix_bins first_bin first_idx_bin, st.present_bins,
            current_path⟩
      else
        Except.ok ⟨bin_set st.prefix_bins first_bin (( first_prefix, first_kmers_idx) :: entries),
          st.present_bins, current_path⟩

/-- The outcome of one turn of the loop of lines 278-326. -/
inductive Link_step where
  /-- One of the three `break`. -/
  | stop
  /-- The process ends: `exit(1)` of line 312, or an access outside a vector. -/
  | fatal (f : Fatal)
  /-- A candidate was appended to the path and removed from the bins. -/
  | next (st : Link_state)
deriving DecidableEq

/-- The value compared with 32 at line 306: `last_seq_size - 1 - suff_idx`, in `uint`. -/
def tested_size (k m last_kmer_nb : Nat) (suff_idx : Int) : Nat :=
  usub (usub (loaded_seq_size k m last_kmer_nb) 1) (to_uint suff_idx)

/-- One turn of the loop of lines 278-326 of `link_kmers`. -/
def link_step (subsequence : Nat → Nat → Nat → Nat → List Nat)
    (seq_to_uint : List Nat → Nat → Nat) (k m max_kmers data_size : Nat)
    (kmer_nbs mini_pos : List Nat) (st : Link_state) : Link_step :=
  match st.current_path.getLast? with
  | none => Link_step.fatal Fatal.undefined
  | some last_idx =>
    let last_kmer_nb := kmer_nbs.getD last_idx 0
    let last_mini_idx := mini_pos.getD last_idx 0
    let last_seq := last_idx * max_block_size k m max_kmers data_size % 2 ^ 32
    let last_seq_size := loaded_seq_size k m last_kmer_nb
    let suff_idx : Int := to_int last_mini_idx - to_int last_kmer_nb
    if suff_idx < -(2 ^ 31) ∨ 2 ^ 31 ≤ suff_idx then Link_step.fatal Fatal.undefined
    else if suff_idx < 0 then Link_step.stop
    else
      match bin_find st.prefix_bins (to_uint suff_idx) with
      | none => Link_step.stop
      | some bin =>
        let sub_seq := subsequence last_seq last_seq_size last_kmer_nb (usub last_seq_size 1)
        let suff_val := seq_to_uint sub_seq (usub last_seq_size last_kmer_nb)
        match bin_find bin suff_val with
        | none => Link_step.stop
        | some candidates =>
          if tested_size k m last_kmer_nb suff_idx ≤ 32 then
            match candidates with
            | [] => Link_step.fatal Fatal.undefined
            | candidate :: rest =>
              let current_path := st.current_path ++ [candidate]
              if rest = [] then
                let bin2 := bin_erase bin suff_val
                if bin2 = [] then
                  Link_step.next ⟨bin_erase st.prefix_bins (to_uint suff_idx),
                    st.present_bins.filter (fun b => !decide (b = to_uint suff_idx)),
                    current_path⟩
                else
                  Link_step.next ⟨bin_set st.prefix_bins (to_uint suff_idx) bin2,
                    st.present_bins, current_path⟩
              else
                Link_step.next ⟨bin_set st.prefix_bins (to_uint suff_idx)
                  (bin_set bin suff_val rest), st.present_bins, current_path⟩
          else Link_step.fatal (Fatal.exit 1)

/-- The loop `while (true)` of lines 278-326. Every turn that does not leave the loop
removes one sequence from the bins, so the callers give it one turn more than there are
sequences. -/
def extend_path (subsequence : Nat → Nat → Nat → Nat → List Nat)
    (seq_to_uint : List Nat → Nat → Nat) (k m max_kmers data_size : Nat)
    (kmer_nbs mini_pos : List Nat) : Nat → Link_state → Except Fatal Link_state
  | 0, _ => Except.error Fatal.undefined
  | fuel + 1, st =>
    match link_step subsequence seq_to_uint k m max_kmers data_size kmer_nbs mini_pos st with
    | Link_step.stop => Except.ok st
    | Link_step.fatal f => Except.error f
    | Link_step.next st2 =>
      extend_path subsequence seq_to_uint k m max_kmers data_size kmer_nbs mini_pos fuel st2

/-- The loop `while(present_bins.size() > 0)` of lines 260-331: each turn starts a path,
extends it and stores it. Each turn removes at least one sequence from the bins. -/
def link_paths (subsequence : Nat → Nat → Nat → Nat → List Nat)
    (seq_to_uint : List Nat → Nat → Nat) (k m max_kmers data_size : Nat)
    (kmer_nbs mini_pos : List Nat) :
    Nat → Link_state → List (List Nat) → Except Fatal (List (List Nat))
  | 0, _, _ => Except.error Fatal.undefined
  | fuel + 1, st, paths =>
    if st.present_bins = [] then Except.ok paths
    else
      match start_path st with
      | Except.error f => Except.error f
      | Except.ok st1 =>
        match extend_path subsequence seq_to_uint k m max_kmers data_size kmer_nbs mini_pos
            (mini_pos.length + 1) st1 with
        | Except.error f => Except.error f
        | Except.ok st2 =>
          link_paths subsequence seq_to_uint k m max_kmers data_size kmer_nbs mini_pos fuel
            ⟨st2.prefix_bins, st2.present_bins, []⟩ (paths ++ [st2.current_path])

/-- The function `Compact::link_kmers` of `src/compact.cpp` (lines 213-339), on the fields
`kmer_nbs` and `mini_pos` and the four variables of the file. The result is the vector
`paths`; `exit(1)` is `Fatal.exit 1`. The last statement prints `paths[0].size()`, an access
outside the vector when there is no sequence. -/
def link_kmers (subsequence : Nat → Nat → Nat → Nat → List Nat)
    (seq_to_uint : List Nat → Nat → Nat) (k m max_kmers data_size : Nat)
    (kmer_nbs mini_pos : List Nat) : Except Fatal (List (List Nat)) :=
  let bins := distribute subsequence seq_to_uint k m max_kmers data_size kmer_nbs mini_pos
  match link_paths subsequence seq_to_uint k m max_kmers data_size kmer_nbs mini_pos
      (mini_pos.length + 1)
      ⟨bins.1, (bins.2.insertionSort (fun a b => a ≤ b)).reverse, []⟩ [] with
  | Except.error f => Except.error f
  | Except.ok [] => Except.error Fatal.undefined
  | Except.ok (path :: paths) => Except.ok (path :: paths)


/-- The bytes of the arena once `prepare_kmer_matrix` has loaded the section: the memory
that the helpers of `greedy_assembly` read in `compact_section` (the empty buffer when the
loading has no result). -/
def prepared_buffer (a : Arena) (sm : Section) : List Nat :=
  match prepare_kmer_matrix a sm with
  | some (a1, _) => a1.kmer_buffer
  | none => []

/-! ## Lists of link pairs -/

theorem Linked.snoc_inv {pairs : List Pair} {p : Pair} (h : Linked (pairs ++ [p])) :
    Linked pairs := by
  intro pre post q s hp
  exact h pre (post ++ [p]) q s (by simp [hp])

theorem Linked.last {pairs : List Pair} {q s : Nat} (h : Linked (pairs ++ [(some q, s)])) :
    q ∈ pairs.map Prod.snd ∧ some q ∉ pairs.map Prod.fst :=
  h pairs [] q s rfl

theorem Linked.snoc_none {pairs : List Pair} {s : Nat} (h : Linked pairs) :
    Linked (pairs ++ [(none, s)]) := by
  intro pre post q t hp
  rcases List.append_eq_append_iff.mp hp with ⟨a', h1, h2⟩ | ⟨c', h1, h2⟩
  · cases a' with
    | nil => simp at h2
    | cons x xs =>
      simp at h2
  · cases c' with
    | nil =>
      simp at h2 h1
    | cons x xs =>
      simp at h2
      obtain ⟨h3, h4⟩ := h2
      subst h3
      exact h pre xs q t h1

theorem Linked.snoc_some {pairs : List Pair} {c s : Nat} (h : Linked pairs)
    (h1 : c ∈ pairs.map Prod.snd) (h2 : some c ∉ pairs.map Prod.fst) :
    Linked (pairs ++ [(some c, s)]) := by
  intro pre post q t hp
  rcases List.append_eq_append_iff.mp hp with ⟨a', h3, h4⟩ | ⟨c', h3, h4⟩
  · cases a' with
    | nil =>
      simp at h4 h3
      obtain ⟨⟨h5, h6⟩, h7⟩ := h4
      subst h5 h3
      exact ⟨h1, h2⟩
    | cons x xs =>
      simp at h4
  · cases c' with
    | nil =>
      simp at h4 h3
      obtain ⟨⟨h5, h6⟩, h7⟩ := h4
      subst h5 h3
      exact ⟨h1, h2⟩
    | cons x xs =>
      simp at h4
      obtain ⟨h5, h6⟩ := h4
      subst h5
      exact h pre xs q t h3

theorem set_flatten_perm (paths : List (List Nat)) (idx s : Nat) (h : idx < paths.length) :
    (paths.set idx (paths.getD idx [] ++ [s])).flatten.Perm (paths.flatten ++ [s]) := by
  induction paths generalizing idx with
  | nil => simp at h
  | cons p0 rest ih =>
    cases idx with
    | zero =>
      simp only [List.set_cons_zero, List.flatten_cons, List.getD_cons_zero, List.append_assoc]
      exact List.Perm.append_left p0 List.perm_append_comm
    | succ j =>
      simp only [List.length_cons, Nat.add_lt_add_iff_right] at h
      simp only [List.set_cons_succ, List.flatten_cons, List.getD_cons_succ, List.append_assoc]
      exact List.Perm.append_left p0 (ih j h)

/-! ## The loop of `pairs_to_paths` -/

theorem PathInv.init : PathInv [] { paths := [], path_registry := fun _ => none } where
  perm := by simp
  nonempty := by simp
  heads := by simp
  reg_tail := by simp
  reg_live := by simp
  links := by simp

theorem PathInv.step_none {done : List Pair} {st : PathState} (inv : PathInv done st)
    (s : Nat) :
    PathInv (done ++ [(none, s)])
      { paths := st.paths ++ [[s]],
        path_registry := map_set st.path_registry s st.paths.length } where
  perm := by
    simp only [List.flatten_append, List.flatten_cons, List.flatten_nil, List.append_nil,
      List.map_append, List.map_cons, List.map_nil]
    exact List.Perm.append_right _ inv.perm
  nonempty := by
    intro path hp
    simp only [List.mem_append, List.mem_singleton] at hp
    rcases hp with hp | hp
    · exact inv.nonempty path hp
    · simp [hp]
  heads := by
    simp [List.filter_append, inv.heads]
  reg_tail := by
    intro r idx hr
    simp only [map_set] at hr
    split at hr
    · injection hr with hr
      subst hr
      refine ⟨[s], by simp, by simp_all⟩
    · obtain ⟨path, h1, h2⟩ := inv.reg_tail r idx hr
      refine ⟨path, ?_, h2⟩
      have hlt : idx < st.paths.length := by
        by_contra hc
        rw [List.getElem?_eq_none (by omega)] at h1
        cases h1
      rw [List.getElem?_append_left hlt]
      exact h1
  reg_live := by
    intro r hr hn
    simp only [map_set]
    split
    · rfl
    · rename_i hne
      simp only [List.map_append, List.map_cons, List.map_nil, List.mem_append,
        List.mem_singleton] at hr hn
      rcases hr with hr | hr
      · exact inv.reg_live r hr (fun hc => hn (Or.inl hc))
      · exact absurd hr hne
  links := by
    intro a b path u v hp he
    simp only [List.mem_append, List.mem_singleton] at hp
    rcases hp with hp | hp
    · exact List.mem_append_left _ (inv.links a b path u v hp he)
    · subst hp
      have := congrArg List.length he
      simp at this
      omega

theorem PathInv.step_some {done : List Pair} {st : PathState} (inv : PathInv done st)
    (p s idx : Nat) (hreg : st.path_registry p = some idx) :
    idx < st.paths.length ∧
    PathInv (done ++ [(some p, s)])
      { paths := st.paths.set idx (st.paths.getD idx [] ++ [s]),
        path_registry := map_set (map_erase st.path_registry p) s idx } := by
  obtain ⟨tail, ht1, ht2⟩ := inv.reg_tail p idx hreg
  have hlt : idx < st.paths.length := by
    by_contra hc
    rw [List.getElem?_eq_none (by omega)] at ht1
    cases ht1
  have hgetD : st.paths.getD idx [] = tail := by
    simp [List.getD, ht1]
  refine ⟨hlt, ?_⟩
  rw [hgetD]
  constructor
  · have := set_flatten_perm st.paths idx s hlt
    rw [hgetD] at this
    simp only [List.map_append, List.map_cons, List.map_nil]
    exact this.trans (List.Perm.append_right _ inv.perm)
  · intro path hp
    rcases List.mem_or_eq_of_mem_set hp with hp | hp
    · exact inv.nonempty path hp
    · simp [hp]
  · have hne : tail ≠ [] := inv.nonempty tail (List.getElem?_mem ht1)
    have h1 : (st.paths.set idx (tail ++ [s])).map List.head? = st.paths.map List.head? := by
      apply List.ext_getElem?
      intro i
      simp only [List.getElem?_map, List.getElem?_set]
      split
      · rename_i hi
        subst hi
        simp only [hlt, ↓reduceIte, Option.map_some', ht1]
        cases tail with
        | nil => exact absurd rfl hne
        | cons x xs => simp
      · rfl
    rw [h1, inv.heads]
    simp [List.filter_append]
  · intro r j hr
    simp only [map_set, map_erase] at hr
    split at hr
    · injection hr with hr
      subst hr
      refine ⟨tail ++ [s], ?_, by simp_all⟩
      simp [List.getElem?_set, hlt]
    · split at hr
      · cases hr
      · rename_i h1 h2
        obtain ⟨path, h3, h4⟩ := inv.reg_tail r j hr
        refine ⟨path, ?_, h4⟩
        have hji : idx ≠ j := by
          intro hc
          subst hc
          rw [ht1] at h3
          injection h3 with h3
          subst h3
          rw [ht2] at h4
          injection h4 with h4
          exact h2 h4.symm
        rw [List.getElem?_set_ne hji]
        exact h3
  · intro r hr hn
    simp only [map_set, map_erase]
    split
    · rfl
    · rename_i hne
      simp only [List.map_append, List.map_cons, List.map_nil, List.mem_append,
        List.mem_singleton] at hr hn
      have hrp : r ≠ p := by
        intro hc
        subst hc
        exact hn (Or.inr rfl)
      simp only [hrp, ↓reduceIte]
      rcases hr with hr | hr
      · exact inv.reg_live r hr (fun hc => hn (Or.inl hc))
      · exact absurd hr hne
  · intro a b path u v hp he
    rcases List.mem_or_eq_of_mem_set hp with hp | hp
    · exact List.mem_append_left _ (inv.links a b path u v hp he)
    · subst hp
      rcases List.eq_nil_or_concat v with hv | ⟨v', c, hv⟩
      · subst hv
        have h1 : tail ++ [s] = (u ++ [a]) ++ [b] := by simp [he]
        obtain ⟨h2, h3⟩ := List.append_inj' h1 rfl
        simp only [List.cons.injEq, and_true] at h3
        subst h3
        rw [h2] at ht2
        simp at ht2
        subst ht2
        simp
      · subst hv
        have h1 : tail ++ [s] = (u ++ a :: b :: v') ++ [c] := by simp [he]
        obtain ⟨h2, h3⟩ := List.append_inj' h1 rfl
        exact List.mem_append_left _
          (inv.links a b tail u v' (List.getElem?_mem ht1) h2)

theorem pairs_loop_inv (rest : List Pair) : ∀ (done : List Pair) (st : PathState),
    PathInv done st → Linked (done ++ rest) →
    ∃ st', pairs_loop rest st = some st' ∧ PathInv (done ++ rest) st' := by
  induction rest with
  | nil =>
    intro done st inv _
    exact ⟨st, rfl, by simpa using inv⟩
  | cons p rest ih =>
    intro done st inv hl
    have hl' : Linked ((done ++ [p]) ++ rest) := by simpa using hl
    obtain ⟨first, s⟩ := p
    cases first with
    | none =>
      have := ih (done ++ [(none, s)]) _ (inv.step_none s) hl'
      simpa [pairs_loop, pairs_step] using this
    | some q =>
      have hq := hl done rest q s rfl
      have hsome := inv.reg_live q hq.1 hq.2
      obtain ⟨idx, hidx⟩ := Option.isSome_iff_exists.mp hsome
      obtain ⟨hlt, inv'⟩ := inv.step_some q s idx hidx
      have := ih (done ++ [(some q, s)]) _ inv' hl'
      simpa [pairs_loop, pairs_step, hidx, hlt] using this

theorem pairs_to_paths_inv (pairs : List Pair) (hl : Linked pairs) :
    ∃ st, pairs_loop pairs { paths := [], path_registry := fun _ => none } = some st ∧
      pairs_to_paths pairs = some st.paths ∧ PathInv pairs st := by
  obtain ⟨st, h1, h2⟩ := pairs_loop_inv pairs [] _ PathInv.init (by simpa using hl)
  exact ⟨st, h1, by simp [pairs_to_paths, h1], by simpa using h2⟩

/-! ## The hash index of `greedy_assembly` against the list of available candidates -/

theorem index_kmer_spec (h : Nat → Nat → Nat → Nat → Nat) (nb : Nat) (index : Index)
    (pre : List Nat) (kmer : Nat) (hi : IndexOf h nb index pre) :
    IndexOf h nb (index_kmer h nb index kmer) (pre ++ [kmer]) := by
  intro val
  have hv := hi val
  have hk := hi (h kmer nb 1 (usub nb 1))
  simp only [suffix_key] at hv hk
  simp only [index_kmer, List.filter_append, suffix_key]
  by_cases hval : val = h kmer nb 1 (usub nb 1)
  · subst hval
    cases hidx : index (h kmer nb 1 (usub nb 1)) with
    | none =>
      rw [hidx] at hk
      simp only [Option.getD_none] at hk
      simp [map_set, ← hk, List.filter]
    | some b =>
      rw [hidx] at hk
      simp only [Option.getD_some] at hk
      simp [map_set, hidx, ← hk, List.filter]
  · have hne : ¬ h kmer nb 1 (usub nb 1) = val := fun hc => hval hc.symm
    have e1 : ∀ (idx1 : Index) (b : List Nat),
        (map_set idx1 (h kmer nb 1 (usub nb 1)) b val) = idx1 val := by
      intro idx1 b
      simp [map_set, hval]
    rw [e1]
    split
    · rw [e1, hv]; simp [List.filter, hne]
    · rw [hv]; simp [List.filter, hne]

theorem index_column_fold (h : Nat → Nat → Nat → Nat → Nat) (nb : Nat) (col : List Nat) :
    ∀ (index : Index) (pre : List Nat), IndexOf h nb index pre →
      IndexOf h nb (col.foldl (index_kmer h nb) index) (pre ++ col) := by
  induction col with
  | nil => intro index pre hi; simpa using hi
  | cons x xs ih =>
    intro index pre hi
    have := ih _ _ (index_kmer_spec h nb index pre x hi)
    simpa using this

theorem index_column_spec (h : Nat → Nat → Nat → Nat → Nat) (nb : Nat) (col : List Nat) :
    IndexOf h nb (index_column h nb col) col := by
  have := index_column_fold h nb col (fun _ => none) [] (by intro val; simp)
  simpa [index_column] using this

theorem find_candidate_none (accept : Nat → Bool) (l : List Nat) :
    ∀ pos, find_candidate accept l pos = none → l.find? accept = none := by
  induction l with
  | nil => intro _ _; rfl
  | cons x xs ih =>
    intro pos hf
    simp only [find_candidate] at hf
    split at hf
    · cases hf
    · rename_i hx
      simp only [List.find?, hx]
      exact ih _ hf

theorem find_candidate_some (accept : Nat → Bool) (l : List Nat) :
    ∀ pos c cpos, find_candidate accept l pos = some (c, cpos) →
      pos ≤ cpos ∧ l.find? accept = some c ∧ l.eraseIdx (cpos - pos) = l.erase c := by
  induction l with
  | nil => intro _ _ _ hf; simp [find_candidate] at hf
  | cons x xs ih =>
    intro pos c cpos hf
    simp only [find_candidate] at hf
    split at hf
    · rename_i hx
      simp only [Option.some.injEq, Prod.mk.injEq] at hf
      obtain ⟨h1, h2⟩ := hf
      subst h1 h2
      simp [List.find?, hx]
    · rename_i hx
      obtain ⟨h1, h2, h3⟩ := ih _ _ _ hf
      have hc : accept c = true := List.find?_some h2
      have hne : x ≠ c := by
        intro hxc
        rw [hxc] at hx
        exact hx hc
      refine ⟨by omega, by simp [List.find?, hx, h2], ?_⟩
      have hpos : cpos - pos = (cpos - (pos + 1)) + 1 := by omega
      rw [hpos, List.eraseIdx_cons_succ, h3, List.erase_cons]
      simp [hne]

theorem filter_erase_other (p : Nat → Bool) (l : List Nat) (c : Nat) (hc : p c = false) :
    (l.erase c).filter p = l.filter p := by
  rw [← List.erase_filter]
  apply List.erase_of_not_mem
  intro hmem
  rw [List.mem_filter] at hmem
  rw [hc] at hmem
  exact Bool.false_ne_true hmem.2

theorem link_kmer_refines (h : Nat → Nat → Nat → Nat → Nat)
    (cmp : Nat → Nat → Nat → Nat → Nat → Nat → Nat → Nat → Int) (nb : Nat)
    (index : Index) (avail : List Nat) (asm : List Pair) (kmer : Nat)
    (hi : IndexOf h nb index avail) :
    IndexOf h nb (link_kmer h cmp nb (index, asm) kmer).1
        (link_avail h cmp nb (avail, asm) kmer).1 ∧
      (link_kmer h cmp nb (index, asm) kmer).2 = (link_avail h cmp nb (avail, asm) kmer).2 := by
  have hb := hi (h kmer nb 0 (usub nb 2))
  have hfind : ∀ b, (index (h kmer nb 0 (usub nb 2))).getD [] = b →
      b.find? (fun c => decide (cmp kmer nb 0 (usub nb 2) c nb 1 (usub nb 1) = 0)) =
        choose_pred h cmp nb avail kmer := by
    intro b hbb
    rw [← hbb, hb, List.find?_filter]
    simp [choose_pred, overlap_ok, prefix_key]
  simp only [link_kmer, link_avail]
  cases hidx : index (h kmer nb 0 (usub nb 2)) with
  | none =>
    have h1 := hfind [] (by simp [hidx])
    simp only [List.find?] at h1
    rw [← h1]
    exact ⟨hi, rfl⟩
  | some b =>
    have h1 := hfind b (by simp [hidx])
    simp only []
    cases hfc : find_candidate
        (fun c => decide (cmp kmer nb 0 (usub nb 2) c nb 1 (usub nb 1) = 0)) b 0 with
    | none =>
      have h2 := find_candidate_none _ _ _ hfc
      rw [h2] at h1
      rw [← h1]
      exact ⟨hi, rfl⟩
    | some res =>
      obtain ⟨c, cpos⟩ := res
      obtain ⟨-, h2, h3⟩ := find_candidate_some _ _ _ _ _ hfc
      rw [h2] at h1
      rw [← h1]
      refine ⟨?_, rfl⟩
      simp only [Nat.sub_zero] at h3
      have hkey : suffix_key h nb c = h kmer nb 0 (usub nb 2) := by
        have := List.find?_some h1.symm
        simp only [Bool.and_eq_true, decide_eq_true_eq] at this
        exact this.1
      intro val
      simp only [map_set]
      split
      · rename_i hv
        subst hv
        have hbb : b = avail.filter
            (fun c => decide (suffix_key h nb c = h kmer nb 0 (usub nb 2))) := by
          rw [← hb, hidx]; rfl
        simp only [Option.getD_some, h3]
        rw [hbb, List.erase_filter]
      · rename_i hv
        rw [hi val]
        symm
        apply filter_erase_other
        simp only [decide_eq_false_iff_not]
        rw [hkey]
        exact fun hc => hv hc.symm

theorem link_fold_refines (h : Nat → Nat → Nat → Nat → Nat)
    (cmp : Nat → Nat → Nat → Nat → Nat → Nat → Nat → Nat → Int) (nb : Nat) (col : List Nat) :
    ∀ (index : Index) (avail : List Nat) (asm : List Pair), IndexOf h nb index avail →
      (col.foldl (link_kmer h cmp nb) (index, asm)).2 =
        (col.foldl (link_avail h cmp nb) (avail, asm)).2 := by
  induction col with
  | nil => intro _ _ _ _; rfl
  | cons x xs ih =>
    intro index avail asm hi
    obtain ⟨h1, h2⟩ := link_kmer_refines h cmp nb index avail asm x hi
    simp only [List.foldl_cons]
    have e1 : link_kmer h cmp nb (index, asm) x =
        ((link_kmer h cmp nb (index, asm) x).1, (link_kmer h cmp nb (index, asm) x).2) := rfl
    have e2 : link_avail h cmp nb (avail, asm) x =
        ((link_avail h cmp nb (avail, asm) x).1, (link_avail h cmp nb (avail, asm) x).2) := rfl
    rw [e1, e2, h2]
    exact ih _ _ _ h1

/-- The hash index is an implementation of the scan of the available candidates: one
iteration of `greedy_assembly` returns what linking on the plain list returns. -/
theorem link_column_eq (h : Nat → Nat → Nat → Nat → Nat)
    (cmp : Nat → Nat → Nat → Nat → Nat → Nat → Nat → Nat → Int) (nb : Nat)
    (kmers : List (List Nat)) (asm : List Pair) (i : Nat) :
    link_column h cmp nb kmers asm i =
      ((kmers.getD (i + 1) []).foldl (link_avail h cmp nb) (kmers.getD i [], asm)).2 :=
  link_fold_refines h cmp nb _ _ _ asm (index_column_spec h nb _)

/-! ## Invariants of `greedy_assembly` -/

theorem column_nodup (kmers : List (List Nat)) (hd : kmers.flatten.Nodup) (i : Nat) :
    (kmers.getD i []).Nodup := by
  rw [List.getD_eq_getElem?_getD]
  cases hi : kmers[i]? with
  | none => simp
  | some col =>
    exact (List.nodup_flatten.mp hd).1 col (List.getElem?_mem hi)

theorem column_disjoint (kmers : List (List Nat)) (hd : kmers.flatten.Nodup) (i j c : Nat)
    (hij : i < j) (hi : c ∈ kmers.getD i []) (hj : c ∈ kmers.getD j []) : False := by
  rw [List.getD_eq_getElem?_getD] at hi hj
  have hjl : j < kmers.length := by
    by_contra hc
    rw [List.getElem?_eq_none (by omega)] at hj
    simp at hj
  have hil : i < kmers.length := by omega
  rw [List.getElem?_eq_getElem hil] at hi
  rw [List.getElem?_eq_getElem hjl] at hj
  have := List.pairwise_iff_getElem.mp (List.nodup_flatten.mp hd).2 i j hil hjl hij
  exact this hi hj

theorem take_succ_flatten (kmers : List (List Nat)) (i : Nat) :
    (kmers.take (i + 1)).flatten = (kmers.take i).flatten ++ kmers.getD i [] := by
  rw [List.take_succ, List.flatten_append, List.getD_eq_getElem?_getD]
  cases kmers[i]? <;> simp

theorem column_subset_take (kmers : List (List Nat)) (i c : Nat) (hc : c ∈ kmers.getD i []) :
    c ∈ (kmers.take (i + 1)).flatten := by
  rw [take_succ_flatten]
  exact List.mem_append_right _ hc

theorem link_avail_inv (h : Nat → Nat → Nat → Nat → Nat)
    (cmp : Nat → Nat → Nat → Nat → Nat → Nat → Nat → Nat → Int) (nb : Nat)
    (kmers : List (List Nat)) (hd : kmers.flatten.Nodup) (i : Nat)
    (avail : List Nat) (asm : List Pair) (processed : List Nat) (kmer : Nat)
    (hk : kmer ∈ kmers.getD (i + 1) [])
    (inv : ColInv h cmp nb kmers i avail asm processed) :
    ColInv h cmp nb kmers i (link_avail h cmp nb (avail, asm) kmer).1
      (link_avail h cmp nb (avail, asm) kmer).2 (processed ++ [kmer]) := by
  simp only [link_avail]
  cases hc : choose_pred h cmp nb avail kmer with
  | none =>
    exact {
      sub := inv.sub
      fresh := by
        intro c hc
        simpa using inv.fresh c hc
      seconds := by simp [inv.seconds]
      pairs := by
        intro c s hm
        simp only [List.mem_append, List.mem_singleton, Prod.mk.injEq] at hm
        rcases hm with hm | hm
        · exact inv.pairs c s hm
        · cases hm.1
      linked := inv.linked.snoc_none }
  | some c =>
    have hmem : c ∈ avail := List.mem_of_find?_eq_some hc
    have hprop := List.find?_some hc
    simp only [Bool.and_eq_true, decide_eq_true_eq] at hprop
    have hnd : avail.Nodup := inv.sub.nodup (column_nodup kmers hd i)
    have hcol : c ∈ kmers.getD i [] := inv.sub.subset hmem
    exact {
      sub := (List.erase_sublist c avail).trans inv.sub
      fresh := by
        intro c' hc'
        rw [hnd.mem_erase_iff] at hc'
        simp only [List.map_append, List.map_cons, List.map_nil, List.mem_append,
          List.mem_singleton, Option.some.injEq, not_or]
        exact ⟨inv.fresh c' hc'.2, hc'.1⟩
      seconds := by simp [inv.seconds]
      pairs := by
        intro c' s hm
        simp only [List.mem_append, List.mem_singleton, Prod.mk.injEq,
          Option.some.injEq] at hm
        rcases hm with hm | ⟨h1, h2⟩
        · exact inv.pairs c' s hm
        · subst h1 h2
          exact ⟨i, le_refl _, hcol, hk, hprop.1, hprop.2⟩
      linked := by
        apply inv.linked.snoc_some
        · rw [inv.seconds]
          exact List.mem_append_left _ (column_subset_take kmers i c hcol)
        · exact inv.fresh c hmem }

theorem link_avail_fold_inv (h : Nat → Nat → Nat → Nat → Nat)
    (cmp : Nat → Nat → Nat → Nat → Nat → Nat → Nat → Nat → Int) (nb : Nat)
    (kmers : List (List Nat)) (hd : kmers.flatten.Nodup) (i : Nat) (todo : List Nat) :
    ∀ (avail : List Nat) (asm : List Pair) (processed : List Nat),
      (∀ s ∈ todo, s ∈ kmers.getD (i + 1) []) →
      ColInv h cmp nb kmers i avail asm processed →
      ColInv h cmp nb kmers i (todo.foldl (link_avail h cmp nb) (avail, asm)).1
        (todo.foldl (link_avail h cmp nb) (avail, asm)).2 (processed ++ todo) := by
  induction todo with
  | nil => intro avail asm processed _ inv; simpa using inv
  | cons x xs ih =>
    intro avail asm processed hs inv
    have h1 := link_avail_inv h cmp nb kmers hd i avail asm processed x
      (hs x (List.mem_cons_self _ _)) inv
    have h2 := ih _ _ _ (fun s hs' => hs s (List.mem_cons_of_mem _ hs')) h1
    simpa using h2

theorem link_column_inv (h : Nat → Nat → Nat → Nat → Nat)
    (cmp : Nat → Nat → Nat → Nat → Nat → Nat → Nat → Nat → Int) (nb : Nat)
    (kmers : List (List Nat)) (hd : kmers.flatten.Nodup) (i : Nat) (asm : List Pair)
    (inv : AsmInv h cmp nb kmers i asm) :
    AsmInv h cmp nb kmers (i + 1) (link_column h cmp nb kmers asm i) := by
  rw [link_column_eq]
  have start : ColInv h cmp nb kmers i (kmers.getD i []) asm [] := {
    sub := List.Sublist.refl _
    fresh := by
      intro c hc hp
      rw [List.mem_map] at hp
      obtain ⟨⟨q, s⟩, hqs, hq⟩ := hp
      simp only at hq
      subst hq
      obtain ⟨j, hj, hcj, -⟩ := inv.pairs c s hqs
      exact column_disjoint kmers hd j i c hj hcj hc
    seconds := by simp [inv.seconds]
    pairs := by
      intro c s hm
      obtain ⟨j, hj, rest⟩ := inv.pairs c s hm
      exact ⟨j, by omega, rest⟩
    linked := inv.linked }
  have fin := link_avail_fold_inv h cmp nb kmers hd i (kmers.getD (i + 1) []) _ _ _
    (fun s hs => hs) start
  exact {
    seconds := by
      rw [fin.seconds, List.nil_append, take_succ_flatten kmers (i + 1)]
    pairs := by
      intro c s hm
      obtain ⟨j, hj, rest⟩ := fin.pairs c s hm
      exact ⟨j, by omega, rest⟩
    linked := fin.linked }

theorem Linked.all_none (col : List Nat) :
    Linked (col.map (fun kmer => ((none : Option Nat), kmer))) := by
  intro pre post p s hp
  have : (some p, s) ∈ col.map (fun kmer => ((none : Option Nat), kmer)) := by
    rw [hp]; simp
  simp at this

theorem link_columns_inv (h : Nat → Nat → Nat → Nat → Nat)
    (cmp : Nat → Nat → Nat → Nat → Nat → Nat → Nat → Nat → Int) (nb : Nat)
    (kmers : List (List Nat)) (hd : kmers.flatten.Nodup) (n : Nat) :
    AsmInv h cmp nb kmers n ((List.range n).foldl (link_column h cmp nb kmers)
      ((kmers.getD 0 []).map (fun kmer => (none, kmer)))) := by
  induction n with
  | zero =>
    exact {
      seconds := by
        rw [take_succ_flatten]
        simp [Function.comp_def]
      pairs := by
        intro c s hm
        simp at hm
      linked := Linked.all_none _ }
  | succ n ih =>
    rw [List.range_succ, List.foldl_append]
    exact link_column_inv h cmp nb kmers hd n _ ih

theorem last_kmer_fold (col : List Nat) :
    ∀ (pre sp rest : List Pair), sp.map Prod.snd = col →
      (col.reverse.foldl last_kmer ((((pre ++ sp).length : Int) - 1), pre ++ sp ++ rest)).2 =
        pre ++ sp ++ rest := by
  induction col using List.reverseRecOn with
  | nil => intro pre sp rest _; rfl
  | append_singleton col' x ih =>
    intro pre sp rest hsp
    obtain ⟨sp', l2, h1, h2, h3⟩ := List.map_eq_append_iff.mp hsp
    obtain ⟨⟨q, x'⟩, l3, h4, h5, h6⟩ := List.map_eq_cons_iff.mp h3
    simp only at h5
    simp only [List.map_eq_nil_iff] at h6
    subst h1 h4 h5 h6
    have hidx : (((pre ++ (sp' ++ [(q, x')])).length : Int) - 1) = ((pre ++ sp').length : Int) := by
      simp only [List.length_append, List.length_cons, List.length_nil]
      push_cast
      ring
    have hget : (pre ++ (sp' ++ [(q, x')]) ++ rest)[(pre ++ sp').length]? = some (q, x') := by
      have e : pre ++ (sp' ++ [(q, x')]) ++ rest = (pre ++ sp') ++ ((q, x') :: rest) := by simp
      rw [e, List.getElem?_append_right (le_refl _)]
      simp
    have hstep : last_kmer ((((pre ++ (sp' ++ [(q, x')])).length : Int) - 1),
        pre ++ (sp' ++ [(q, x')]) ++ rest) x' =
        ((((pre ++ sp').length : Int) - 1), pre ++ sp' ++ ((q, x') :: rest)) := by
      rw [hidx]
      simp only [last_kmer, Int.toNat_ofNat, hget]
      simp
      omega
    rw [List.reverse_append, List.reverse_singleton, List.singleton_append, List.foldl_cons,
      hstep, ih pre sp' ((q, x') :: rest) h2]
    simp

/-- The assembly returned by `greedy_assembly` satisfies the loop invariant of the last
column: the final pass (lines 569-578) adds nothing. -/
theorem greedy_assembly_inv (h : Nat → Nat → Nat → Nat → Nat)
    (cmp : Nat → Nat → Nat → Nat → Nat → Nat → Nat → Nat → Int) (k m : Nat)
    (kmers : List (List Nat)) (hd : kmers.flatten.Nodup) :
    AsmInv h cmp (usub k m) kmers (usub k m) (greedy_assembly h cmp k m kmers) := by
  have inv := link_columns_inv h cmp (usub k m) kmers hd (usub k m)
  have hs := inv.seconds
  rw [take_succ_flatten] at hs
  obtain ⟨pre, sp, h1, -, h3⟩ := List.map_eq_append_iff.mp hs
  have := last_kmer_fold (kmers.getD (usub k m) []) pre sp [] h3
  simp only [List.append_nil] at this
  simp only [greedy_assembly]
  rw [h1, this, ← h1]
  exact inv

/-! ## Partition of the k-mers into paths -/

theorem usub_eq (a b : Nat) (ha : a < 2 ^ 32) (hb : b ≤ a) : usub a b = a - b := by
  unfold usub
  omega

theorem greedy_paths_inv (h : Nat → Nat → Nat → Nat → Nat)
    (cmp : Nat → Nat → Nat → Nat → Nat → Nat → Nat → Nat → Int) (k m : Nat)
    (kmers : List (List Nat)) (hd : kmers.flatten.Nodup) :
    ∃ st, pairs_to_paths (greedy_assembly h cmp k m kmers) = some st.paths ∧
      PathInv (greedy_assembly h cmp k m kmers) st ∧
      AsmInv h cmp (usub k m) kmers (usub k m) (greedy_assembly h cmp k m kmers) := by
  have inv := greedy_assembly_inv h cmp k m kmers hd
  obtain ⟨st, -, h2, h3⟩ := pairs_to_paths_inv _ inv.linked
  exact ⟨st, h2, h3, inv⟩

/-- C1: for a position matrix of `k - m + 1` columns (`k > m`) with pairwise distinct
k-mer references, `pairs_to_paths (greedy_assembly matrix)` returns paths that together
hold exactly the references of the matrix, each one once (no reference is missing, none is
in two paths or twice in a path), and the path lengths sum to the number of k-mers. This
holds whatever the two sequence helpers return. -/
theorem greedy_paths_partition (subseq_to_uint : Nat → Nat → Nat → Nat → Nat)
    (sequence_compare : Nat → Nat → Nat → Nat → Nat → Nat → Nat → Nat → Int) (k m : Nat)
    (kmers : List (List Nat)) (hk : k < 2 ^ 32) (hm : m < k)
    (hlen : kmers.length = k - m + 1) (hd : kmers.flatten.Nodup) :
    ∃ paths, pairs_to_paths (greedy_assembly subseq_to_uint sequence_compare k m kmers) =
        some paths ∧
      paths.flatten.Perm kmers.flatten ∧
      (∀ r ∈ kmers.flatten, paths.flatten.count r = 1) ∧
      paths.flatten.Nodup ∧
      (paths.map List.length).sum = kmers.flatten.length := by
  obtain ⟨st, h1, h2, h3⟩ := greedy_paths_inv subseq_to_uint sequence_compare k m kmers hd
  have hperm : st.paths.flatten.Perm kmers.flatten := by
    have := h2.perm
    rw [h3.seconds, usub_eq k m hk (le_of_lt hm), ← hlen, List.take_length] at this
    exact this
  refine ⟨st.paths, h1, hperm, ?_, hperm.nodup_iff.mpr hd, ?_⟩
  · intro r hr
    rw [hperm.count_eq]
    exact List.count_eq_one_of_mem hd hr
  · rw [← List.length_flatten]
    exact hperm.length_eq

theorem greedy_paths_partition_witness :
    ∃ paths, pairs_to_paths (greedy_assembly (fun kmer _ _ _ => kmer % 2)
        (fun kmer _ _ _ candidate _ _ _ => (kmer : Int) / 10 - candidate % 10) 3 1
        [[12, 23], [31, 20, 14], [43, 40]]) = some paths ∧
      paths.flatten.Perm [[12, 23], [31, 20, 14], [43, 40]].flatten ∧
      (∀ r ∈ [[12, 23], [31, 20, 14], [43, 40]].flatten, paths.flatten.count r = 1) ∧
      paths.flatten.Nodup ∧
      (paths.map List.length).sum = [[12, 23], [31, 20, 14], [43, 40]].flatten.length :=
  greedy_paths_partition _ _ 3 1 [[12, 23], [31, 20, 14], [43, 40]] (by norm_num)
    (by norm_num) (by decide) (by decide)

/-! ## Overlap of consecutive k-mers -/

theorem lex_compare_eq_zero (l1 : List Nat) : ∀ l2, lex_compare l1 l2 = 0 ↔ l1 = l2 := by
  induction l1 with
  | nil =>
    intro l2
    cases l2 <;> simp [lex_compare]
  | cons a as ih =>
    intro l2
    cases l2 with
    | nil => simp [lex_compare]
    | cons b bs =>
      simp only [lex_compare, List.cons.injEq]
      split
      · constructor
        · intro hc; cases hc
        · intro hc; omega
      · split
        · constructor
          · intro hc; cases hc
          · intro hc; omega
        · rw [ih]
          constructor
          · intro hc; exact ⟨by omega, hc⟩
          · intro hc; exact hc.2

theorem subrange_eq_iff (mem : List Nat) (a b size sa sb len : Nat) :
    subrange mem a size sa (sa + len) = subrange mem b size sb (sb + len) ↔
      ∀ j ≤ len, nucleotide mem a size (sa + j) = nucleotide mem b size (sb + j) := by
  have e1 : sa + len + 1 - sa = len + 1 := by omega
  have e2 : sb + len + 1 - sb = len + 1 := by omega
  simp only [subrange, e1, e2]
  constructor
  · intro h j hj
    have := congrArg (fun l => l[j]?) h
    simpa [List.getElem?_map, List.getElem?_range (show j < len + 1 by omega)] using this
  · intro h
    apply List.map_congr_left
    intro j hj
    exact h j (by have := List.mem_range.mp hj; omega)

/-- The exact test of `greedy_assembly` succeeds exactly when the `nb - 1` last nucleotides
of the candidate are the `nb - 1` first nucleotides of the k-mer. -/
theorem overlap_ok_iff (mem : List Nat) (nb kmer candidate : Nat) (h2 : 2 ≤ nb)
    (h32 : nb < 2 ^ 32) :
    overlap_ok (sequence_compare mem) nb kmer candidate = true ↔
      ∀ j < nb - 1, nucleotide mem candidate nb (j + 1) = nucleotide mem kmer nb j := by
  have e1 : usub nb 2 = 0 + (nb - 2) := by rw [usub_eq nb 2 h32 h2]; omega
  have e2 : usub nb 1 = 1 + (nb - 2) := by rw [usub_eq nb 1 h32 (by omega)]; omega
  simp only [overlap_ok, decide_eq_true_eq, sequence_compare, lex_compare_eq_zero]
  rw [e1, e2, subrange_eq_iff]
  constructor
  · intro h j hj
    have := h j (by omega)
    simp only [Nat.zero_add] at this
    rw [this, Nat.add_comm]
  · intro h j hj
    have := h j (by omega)
    simp only [Nat.zero_add]
    rw [← this, Nat.add_comm]

/-- C2: for a position matrix with `k - m >= 2` and distinct references, two consecutive
k-mers `a`, `b` of a path returned by `pairs_to_paths (greedy_assembly matrix)` overlap:
`sequence_compare` of nucleotides `0..k-m-2` of `b` against nucleotides `1..k-m-1` of `a`
returns 0, that is nucleotide `j+1` of `a` is nucleotide `j` of `b` for every
`j < k-m-1`. This holds for every hash value `subseq_to_uint` returns. -/
theorem path_overlap (mem : List Nat) (hash : Nat → Nat → Nat → Nat → Nat) (k m : Nat)
    (kmers : List (List Nat)) (hk : k < 2 ^ 32) (hm : m + 2 ≤ k)
    (_hlen : kmers.length = k - m + 1) (hd : kmers.flatten.Nodup) :
    ∃ paths, pairs_to_paths (greedy_assembly hash (sequence_compare mem) k m kmers) =
        some paths ∧
      ∀ path ∈ paths, ∀ u a b v, path = u ++ a :: b :: v →
        sequence_compare mem b (k - m) 0 (k - m - 2) a (k - m) 1 (k - m - 1) = 0 ∧
        ∀ j < k - m - 1, nucleotide mem a (k - m) (j + 1) = nucleotide mem b (k - m) j := by
  obtain ⟨st, h1, h2, h3⟩ := greedy_paths_inv hash (sequence_compare mem) k m kmers hd
  have hnb : usub k m = k - m := usub_eq k m hk (by omega)
  refine ⟨st.paths, h1, ?_⟩
  intro path hp u a b v he
  obtain ⟨j, -, -, -, -, hok⟩ := h3.pairs a b (h2.links a b path u v hp he)
  rw [hnb] at hok
  refine ⟨?_, (overlap_ok_iff mem (k - m) b a (by omega) (by omega)).mp hok⟩
  have e1 : usub (k - m) 2 = k - m - 2 := usub_eq _ 2 (by omega) (by omega)
  have e2 : usub (k - m) 1 = k - m - 1 := usub_eq _ 1 (by omega) (by omega)
  simpa [overlap_ok, e1, e2] using hok

theorem path_overlap_witness :
    ∃ paths, pairs_to_paths (greedy_assembly (subseq_to_uint [7, 30])
        (sequence_compare [7, 30]) 5 2 [[0], [1], [], []]) = some paths ∧
      ∀ path ∈ paths, ∀ u a b v, path = u ++ a :: b :: v →
        sequence_compare [7, 30] b (5 - 2) 0 (5 - 2 - 2) a (5 - 2) 1 (5 - 2 - 1) = 0 ∧
        ∀ j < 5 - 2 - 1, nucleotide [7, 30] a (5 - 2) (j + 1) = nucleotide [7, 30] b (5 - 2) j :=
  path_overlap [7, 30] (subseq_to_uint [7, 30]) 5 2 [[0], [1], [], []] (by norm_num)
    (by norm_num) (by decide) (by decide)

/-! ## Shifts of packed buffers -/

theorem nucleotide_eq_nucl_at (buf : List Nat) (seq_size i : Nat) :
    nucleotide buf 0 seq_size i = nucl_at buf ((4 - seq_size % 4) % 4 + i) := by
  simp [nucleotide, nucl_at]

theorem shl_byte (x y o j : Nat) (_hx : x < 256) (hy : y < 256) (ho : o < 4) (hj : j < 4) :
    (x * 2 ^ (2 * o) % 256 + y / 2 ^ (8 - 2 * o)) / 4 ^ (3 - j) % 4 =
      if j + o < 4 then x / 4 ^ (3 - (j + o)) % 4 else y / 4 ^ (3 - (j + o - 4)) % 4 := by
  interval_cases o <;> interval_cases j <;> simp <;> omega

theorem shr_byte (x y s j : Nat) (_hx : x < 256) (hy : y < 256) (hs : s < 4) (hj : j < 4) :
    (y / 2 ^ (2 * s) + x * 2 ^ (8 - 2 * s) % 256) / 4 ^ (3 - j) % 4 =
      if s ≤ j then y / 4 ^ (3 - (j - s)) % 4 else x / 4 ^ (3 - (j + 4 - s)) % 4 := by
  interval_cases s <;> interval_cases j <;> simp <;> omega

theorem shl_byte_lt (x y o : Nat) (_hx : x < 256) (hy : y < 256) (ho : o < 4) :
    x * 2 ^ (2 * o) % 256 + y / 2 ^ (8 - 2 * o) < 256 := by
  interval_cases o <;> simp <;> omega

theorem shr_byte_lt (x y s : Nat) (_hx : x < 256) (hy : y < 256) (hs : s < 4) :
    y / 2 ^ (2 * s) + x * 2 ^ (8 - 2 * s) % 256 < 256 := by
  interval_cases s <;> simp <;> omega

theorem getD_lt_of_forall (buf : List Nat) (hb : ∀ x ∈ buf, x < 256) (i : Nat) :
    buf.getD i 0 < 256 := by
  rw [List.getD_eq_getElem?_getD]
  cases h : buf[i]? with
  | none => simp
  | some x => exact hb x (List.getElem?_mem h)

theorem getD_map_range (f : Nat → Nat) (n i : Nat) :
    ((List.range n).map f).getD i 0 = if i < n then f i else 0 := by
  rw [List.getD_eq_getElem?_getD, List.getElem?_map]
  by_cases h : i < n
  · simp [List.getElem?_range h, h]
  · simp [List.getElem?_eq_none (show (List.range n).length ≤ i by simp; omega), h]

theorem getD_leftshift8 (b : List Nat) (len bits i : Nat) :
    (leftshift8 b len bits).getD i 0 =
      if i < len then
        (if i < b.length then b.getD i 0 * 2 ^ bits % 256 +
          (if i + 1 < len then b.getD (i + 1) 0 / 2 ^ (8 - bits) else 0) else 0)
      else b.getD i 0 := by
  rw [leftshift8, getD_map_range]
  by_cases h1 : i < b.length <;> by_cases h2 : i < len <;> simp [h1, h2]
  rw [List.getElem?_eq_none (by omega)]
  rfl

theorem getD_rightshift8 (b : List Nat) (len bits i : Nat) :
    (rightshift8 b len bits).getD i 0 =
      if i < len then
        (if i < b.length then b.getD i 0 / 2 ^ bits +
          (if 0 < i then b.getD (i - 1) 0 * 2 ^ (8 - bits) % 256 else 0) else 0)
      else b.getD i 0 := by
  rw [rightshift8, getD_map_range]
  by_cases h1 : i < b.length <;> by_cases h2 : i < len <;> simp [h1, h2]
  rw [List.getElem?_eq_none (by omega)]
  rfl

theorem leftshift8_lt (b : List Nat) (len o : Nat) (hb : ∀ x ∈ b, x < 256) (ho : o < 4) :
    ∀ x ∈ leftshift8 b len (2 * o), x < 256 := by
  intro x hx
  simp only [leftshift8, List.mem_map, List.mem_range] at hx
  obtain ⟨i, hi, rfl⟩ := hx
  have h1 := getD_lt_of_forall b hb i
  have h2 := getD_lt_of_forall b hb (i + 1)
  split
  · split
    · exact shl_byte_lt _ _ o h1 h2 ho
    · have := shl_byte_lt (b.getD i 0) 0 o h1 (by omega) ho
      simpa using this
  · exact h1

theorem rightshift8_lt (b : List Nat) (len s : Nat) (hb : ∀ x ∈ b, x < 256) (hs : s < 4) :
    ∀ x ∈ rightshift8 b len (2 * s), x < 256 := by
  intro x hx
  simp only [rightshift8, List.mem_map, List.mem_range] at hx
  obtain ⟨i, hi, rfl⟩ := hx
  have h1 := getD_lt_of_forall b hb i
  have h2 := getD_lt_of_forall b hb (i - 1)
  split
  · split
    · exact shr_byte_lt _ _ s h2 h1 hs
    · have := shr_byte_lt 0 (b.getD i 0) s (by omega) h1 hs
      simpa using this
  · exact h1

/-- Shifting left by `o` nucleotides moves nucleotide `q + o` to position `q`; the last `o`
positions of the shifted part are zero. -/
theorem nucl_at_leftshift8 (b : List Nat) (len o q : Nat) (hb : ∀ x ∈ b, x < 256)
    (hlen : len ≤ b.length) (ho : o < 4) :
    nucl_at (leftshift8 b len (2 * o)) q =
      if q < 4 * len then (if q + o < 4 * len then nucl_at b (q + o) else 0)
      else nucl_at b q := by
  simp only [nucl_at, getD_leftshift8]
  have hj : q % 4 < 4 := Nat.mod_lt _ (by norm_num)
  have hx := getD_lt_of_forall b hb (q / 4)
  have hy := getD_lt_of_forall b hb (q / 4 + 1)
  by_cases h1 : q < 4 * len
  · have h2 : q / 4 < len := by omega
    have h3 : q / 4 < b.length := by omega
    simp only [h1, h2, h3, ↓reduceIte]
    by_cases h4 : q % 4 + o < 4
    · have e1 : (q + o) / 4 = q / 4 := by omega
      have e2 : (q + o) % 4 = q % 4 + o := by omega
      have e3 : q + o < 4 * len := by omega
      simp only [e1, e2, e3, ↓reduceIte]
      by_cases h5 : q / 4 + 1 < len
      · simp only [h5, ↓reduceIte]
        rw [shl_byte _ _ o _ hx hy ho hj]
        simp [h4]
      · simp only [h5, ↓reduceIte]
        have := shl_byte (b.getD (q / 4) 0) 0 o (q % 4) hx (by omega) ho hj
        simp only [Nat.zero_div, h4, ↓reduceIte] at this
        exact this
    · have e1 : (q + o) / 4 = q / 4 + 1 := by omega
      have e2 : (q + o) % 4 = q % 4 + o - 4 := by omega
      by_cases h5 : q / 4 + 1 < len
      · have e3 : q + o < 4 * len := by omega
        simp only [h5, e1, e2, e3, ↓reduceIte]
        rw [shl_byte _ _ o _ hx hy ho hj]
        simp [h4]
      · have e3 : ¬ q + o < 4 * len := by omega
        simp only [h5, e3, ↓reduceIte]
        have := shl_byte (b.getD (q / 4) 0) 0 o (q % 4) hx (by omega) ho hj
        simp only [Nat.zero_div, h4, ↓reduceIte] at this
        simpa using this
  · have h2 : ¬ q / 4 < len := by omega
    simp only [h1, h2, ↓reduceIte]

/-- Shifting right by `s` nucleotides moves nucleotide `p - s` to position `p`; the first
`s` positions are zero. -/
theorem nucl_at_rightshift8 (b : List Nat) (len s p : Nat) (hb : ∀ x ∈ b, x < 256)
    (hlen : len ≤ b.length) (hs : s < 4) :
    nucl_at (rightshift8 b len (2 * s)) p =
      if p < 4 * len then (if p < s then 0 else nucl_at b (p - s))
      else nucl_at b p := by
  simp only [nucl_at, getD_rightshift8]
  have hj : p % 4 < 4 := Nat.mod_lt _ (by norm_num)
  have hy := getD_lt_of_forall b hb (p / 4)
  have hx := getD_lt_of_forall b hb (p / 4 - 1)
  by_cases h1 : p < 4 * len
  · have h2 : p / 4 < len := by omega
    have h3 : p / 4 < b.length := by omega
    simp only [h1, h2, h3, ↓reduceIte]
    by_cases h4 : s ≤ p % 4
    · have e1 : (p - s) / 4 = p / 4 := by omega
      have e2 : (p - s) % 4 = p % 4 - s := by omega
      have e3 : ¬ p < s := by omega
      simp only [e1, e2, e3, ↓reduceIte]
      by_cases h5 : 0 < p / 4
      · simp only [h5, ↓reduceIte]
        rw [shr_byte _ _ s _ hx hy hs hj]
        simp [h4]
      · simp only [h5, ↓reduceIte]
        have := shr_byte 0 (b.getD (p / 4) 0) s (p % 4) (by omega) hy hs hj
        simp only [Nat.zero_mul, Nat.zero_mod, Nat.add_zero, h4, ↓reduceIte] at this
        simpa using this
    · by_cases h5 : 0 < p / 4
      · have e1 : (p - s) / 4 = p / 4 - 1 := by omega
        have e2 : (p - s) % 4 = p % 4 + 4 - s := by omega
        have e3 : ¬ p < s := by omega
        simp only [h5, e1, e2, e3, ↓reduceIte]
        rw [shr_byte _ _ s _ hx hy hs hj]
        simp [h4]
      · have e3 : p < s := by omega
        simp only [h5, e3, ↓reduceIte]
        have := shr_byte 0 (b.getD (p / 4) 0) s (p % 4) (by omega) hy hs hj
        simp only [Nat.zero_mul, Nat.zero_mod, Nat.add_zero, h4, ↓reduceIte] at this
        simpa using this
  · have h2 : ¬ p / 4 < len := by omega
    simp only [h1, h2, ↓reduceIte]

/-! ## The buffers of `write_paths` -/

theorem memcpy_length (dst src r : List Nat) (pos : Nat) (h : memcpy dst pos src = some r) :
    r.length = dst.length := by
  simp only [memcpy] at h
  split at h
  · injection h with h
    subst h
    simp only [List.length_append, List.length_take, List.length_drop]
    omega
  · cases h

theorem memcpy_getD (dst src r : List Nat) (pos q : Nat) (h : memcpy dst pos src = some r) :
    r.getD q 0 = if pos ≤ q ∧ q < pos + src.length then src.getD (q - pos) 0
      else dst.getD q 0 := by
  simp only [memcpy] at h
  split at h
  · rename_i hle
    injection h with h
    subst h
    simp only [List.getD_eq_getElem?_getD]
    by_cases h1 : q < pos
    · have : ¬ (pos ≤ q ∧ q < pos + src.length) := by omega
      simp only [this, ↓reduceIte, List.append_assoc]
      rw [List.getElem?_append_left (by simp; omega), List.getElem?_take_of_lt h1]
    · by_cases h2 : q < pos + src.length
      · have : pos ≤ q ∧ q < pos + src.length := by omega
        simp only [this, and_self, ↓reduceIte, List.append_assoc]
        rw [List.getElem?_append_right (by simp; omega)]
        simp only [List.length_take]
        rw [Nat.min_eq_left (by omega), List.getElem?_append_left (by omega)]
      · have : ¬ (pos ≤ q ∧ q < pos + src.length) := by omega
        simp only [this, ↓reduceIte]
        rw [List.getElem?_append_right (by simp; omega)]
        simp only [List.length_append, List.length_take]
        rw [Nat.min_eq_left (by omega), List.getElem?_drop]
        congr 2
        omega
  · cases h

theorem memcpy_lt (dst src r : List Nat) (pos : Nat) (h : memcpy dst pos src = some r)
    (hd : ∀ x ∈ dst, x < 256) (hs : ∀ x ∈ src, x < 256) : ∀ x ∈ r, x < 256 := by
  simp only [memcpy] at h
  split at h
  · injection h with h
    subst h
    intro x hx
    simp only [List.mem_append] at hx
    rcases hx with (hx | hx) | hx
    · exact hd x (List.mem_of_mem_take hx)
    · exact hs x hx
    · exact hd x (List.mem_of_mem_drop hx)
  · cases h

theorem read_bytes_length (mem : List Nat) (ptr len : Nat) :
    (read_bytes mem ptr len).length = len := by
  simp [read_bytes]

theorem read_bytes_getD (mem : List Nat) (ptr len i : Nat) :
    (read_bytes mem ptr len).getD i 0 = if i < len then mem.getD (ptr + i) 0 else 0 := by
  rw [read_bytes, getD_map_range]

theorem read_bytes_lt (mem : List Nat) (hmem : ∀ x ∈ mem, x < 256) (ptr len : Nat) :
    ∀ x ∈ read_bytes mem ptr len, x < 256 := by
  intro x hx
  simp only [read_bytes, List.mem_map] at hx
  obtain ⟨i, -, rfl⟩ := hx
  exact getD_lt_of_forall mem hmem _

set_option maxRecDepth 1000000 in
theorem or_eq_add : ∀ x < 256, ∀ n < 4, ∀ sh < 4, x / 4 ^ sh % 4 = 0 →
    x ||| n <<< (2 * sh) = x + n * 4 ^ sh := by
  decide

theorem or_byte (x n j j' : Nat) (hx : x < 256) (hn : n < 4) (hj : j < 4) (hj' : j' < 4)
    (hz : x / 4 ^ (3 - j) % 4 = 0) :
    (x ||| n <<< (2 * (3 - j))) % 256 < 256 ∧
      (x ||| n <<< (2 * (3 - j))) % 256 / 4 ^ (3 - j') % 4 =
        if j' = j then n else x / 4 ^ (3 - j') % 4 := by
  rw [or_eq_add x hx n hn (3 - j) (by omega) hz]
  refine ⟨Nat.mod_lt _ (by norm_num), ?_⟩
  interval_cases j <;> interval_cases j' <;> simp at hz ⊢ <;> omega

theorem getD_set (buf : List Nat) (i j v : Nat) (hi : i < buf.length) :
    (buf.set i v).getD j 0 = if j = i then v else buf.getD j 0 := by
  simp only [List.getD_eq_getElem?_getD, List.getElem?_set]
  by_cases h : i = j
  · subst h
    simp [hi]
  · have h' : ¬ j = i := fun hc => h hc.symm
    simp [h, h']

/-- Line 661: or-ing a nucleotide into a free position of the buffer writes this
nucleotide there and changes nothing else. -/
theorem nucl_at_set_or (buf : List Nat) (pos n : Nat) (hb : ∀ x ∈ buf, x < 256) (hn : n < 4)
    (hpos : pos / 4 < buf.length) (hz : nucl_at buf pos = 0) :
    (∀ x ∈ buf.set (pos / 4) ((buf.getD (pos / 4) 0 ||| n <<< (2 * (3 - pos % 4))) % 256),
        x < 256) ∧
      ∀ p, nucl_at (buf.set (pos / 4)
          ((buf.getD (pos / 4) 0 ||| n <<< (2 * (3 - pos % 4))) % 256)) p =
        if p = pos then n else nucl_at buf p := by
  have hx := getD_lt_of_forall buf hb (pos / 4)
  have hj : pos % 4 < 4 := Nat.mod_lt _ (by norm_num)
  constructor
  · intro x hxm
    rcases List.mem_or_eq_of_mem_set hxm with h | h
    · exact hb x h
    · rw [h]
      exact Nat.mod_lt _ (by norm_num)
  · intro p
    have hj' : p % 4 < 4 := Nat.mod_lt _ (by norm_num)
    simp only [nucl_at] at hz ⊢
    rw [getD_set _ _ _ _ hpos]
    by_cases h1 : p / 4 = pos / 4
    · simp only [h1, ↓reduceIte]
      rw [(or_byte _ n _ _ hx hn hj hj' hz).2]
      by_cases h2 : p % 4 = pos % 4
      · have : p = pos := by omega
        simp [h2, this]
      · have : ¬ p = pos := by omega
        simp [h2, this]
    · have : ¬ p = pos := by
        intro hc
        rw [hc] at h1
        exact h1 rfl
      simp [h1, this]

theorem and_three (x : Nat) : x &&& 3 = x % 4 := Nat.and_pow_two_sub_one_eq_mod x 2

/-- The loop of lines 651-664 from index `t`: every k-mer left puts its last nucleotide at
the next free position of the sequence buffer and its payload in its slot of the data
buffer; nothing else changes and no access leaves the buffers. -/
theorem compact_kmers_spec (mem : List Nat)
    (nb ds s W : Nat) (hnb : 1 ≤ nb) (hW : 1 ≤ W) (hWnb : W ≤ nb) (others : List Nat) :
    ∀ (t : Nat) (buf data : List Nat), (∀ x ∈ buf, x < 256) →
      (∀ p, s + nb - 1 + t ≤ p → nucl_at buf p = 0) →
      s + nb - 1 + t + others.length ≤ 4 * buf.length →
      (t + others.length) * ds ≤ data.length →
      s + nb + t + others.length < 2 ^ 32 →
      (t + others.length) * ds < 2 ^ 32 →
      ∃ buf' data', compact_kmers mem nb ds s W others t (buf, data) = some (buf', data') ∧
        buf'.length = buf.length ∧ data'.length = data.length ∧
        (∀ p, nucl_at buf' p =
          if s + nb - 1 + t ≤ p ∧ p < s + nb - 1 + t + others.length then
            mem.getD (others.getD (p - (s + nb - 1 + t)) 0 + W - 1) 0 % 4
          else nucl_at buf p) ∧
        (∀ q, data'.getD q 0 =
          if t * ds ≤ q ∧ q < (t + others.length) * ds then
            mem.getD (others.getD (q / ds - t) 0 + W + q % ds) 0
          else data.getD q 0) := by
  induction others with
  | nil =>
    intro t buf data _ _ _ _ _ _
    refine ⟨buf, data, rfl, rfl, rfl, ?_, ?_⟩
    · intro p
      have : ¬ (s + nb - 1 + t ≤ p ∧ p < s + nb - 1 + t + ([] : List Nat).length) := by
        simp only [List.length_nil]; omega
      simp only [this, ↓reduceIte]
    · intro q
      have : ¬ (t * ds ≤ q ∧ q < (t + ([] : List Nat).length) * ds) := by
        simp only [List.length_nil, Nat.add_zero]; omega
      simp only [this, ↓reduceIte]
  | cons kmer rest ih =>
    intro t buf data hb hz hroom hdata h32 hds32
    simp only [List.length_cons] at hroom hdata h32 hds32
    have e4 : t * ds % 2 ^ 32 = t * ds := by
      apply Nat.mod_eq_of_lt
      have : (t + (rest.length + 1)) * ds = t * ds + ds + rest.length * ds := by ring
      omega
    have e1 : usub nb 1 = nb - 1 := usub_eq nb 1 (by omega) hnb
    have e2 : usub W 1 = W - 1 := by
      unfold usub
      have : W < 2 ^ 32 := by omega
      omega
    have e3 : (s + (nb - 1) + t) % 2 ^ 32 = s + nb - 1 + t := by omega
    have hpos : (s + nb - 1 + t) / 4 < buf.length := by omega
    have hn : mem.getD (kmer + (W - 1)) 0 % 4 < 4 := Nat.mod_lt _ (by norm_num)
    obtain ⟨hb1, hnucl1⟩ := nucl_at_set_or buf (s + nb - 1 + t) _ hb hn hpos
      (hz _ (le_refl _))
    have hsrc : (read_bytes mem (kmer + W) ds).length = ds := read_bytes_length _ _ _
    have hfit : t * ds + (read_bytes mem (kmer + W) ds).length ≤ data.length := by
      rw [hsrc]
      have : (t + (rest.length + 1)) * ds = t * ds + ds + rest.length * ds := by ring
      omega
    have hcpy : memcpy data (t * ds) (read_bytes mem (kmer + W) ds) =
        some (data.take (t * ds) ++ read_bytes mem (kmer + W) ds ++
          data.drop (t * ds + (read_bytes mem (kmer + W) ds).length)) := by
      simp only [memcpy, hfit, ↓reduceIte]
    have hlen1 := memcpy_length _ _ _ _ hcpy
    have hget1 := fun q => memcpy_getD _ _ _ _ q hcpy
    obtain ⟨buf', data', hrun, hl1, hl2, hn2, hd2⟩ := ih (t + 1) _ _ hb1
      (by
        intro p hp
        rw [hnucl1 p]
        have : ¬ p = s + nb - 1 + t := by omega
        simp only [this, ↓reduceIte]
        exact hz p (by omega))
      (by simp only [List.length_set]; omega)
      (by rw [hlen1]; have : t + 1 + rest.length = t + (rest.length + 1) := by omega
          rw [this]; exact hdata)
      (by omega)
      (by have : t + 1 + rest.length = t + (rest.length + 1) := by omega
          rw [this]; exact hds32)
    refine ⟨buf', data', ?_, ?_, ?_, ?_, ?_⟩
    · simp only [compact_kmers, e1, e2, e3, e4, hpos, ↓reduceIte, hcpy, and_three]
      exact hrun
    · rw [hl1, List.length_set]
    · rw [hl2, hlen1]
    · intro p
      rw [hn2 p, hnucl1 p]
      by_cases h1 : p = s + nb - 1 + t
      · subst h1
        have c1 : ¬ (s + nb - 1 + (t + 1) ≤ s + nb - 1 + t ∧
            s + nb - 1 + t < s + nb - 1 + (t + 1) + rest.length) := by omega
        have c2 : s + nb - 1 + t ≤ s + nb - 1 + t ∧
            s + nb - 1 + t < s + nb - 1 + t + (rest.length + 1) := by omega
        have c3 : kmer + (W - 1) = kmer + W - 1 := by omega
        simp only [c1, c2, and_self, ↓reduceIte, Nat.sub_self, List.getD_cons_zero,
          List.length_cons, c3]
      · by_cases h2 : s + nb - 1 + (t + 1) ≤ p ∧ p < s + nb - 1 + (t + 1) + rest.length
        · have c2 : s + nb - 1 + t ≤ p ∧ p < s + nb - 1 + t + (rest.length + 1) := by omega
          have c3 : p - (s + nb - 1 + t) = (p - (s + nb - 1 + (t + 1))) + 1 := by omega
          simp only [h2, c2, and_self, ↓reduceIte, List.length_cons, c3,
            List.getD_cons_succ]
        · have c2 : ¬ (s + nb - 1 + t ≤ p ∧ p < s + nb - 1 + t + (rest.length + 1)) := by
            omega
          simp only [h2, c2, h1, ↓reduceIte, List.length_cons]
    · intro q
      rw [hd2 q, hget1 q, hsrc, read_bytes_getD]
      have hmul : (t + 1) * ds = t * ds + ds := by ring
      have hmul2 : (t + 1 + rest.length) * ds = (t + (rest.length + 1)) * ds := by
        rw [show t + 1 + rest.length = t + (rest.length + 1) by omega]
      simp only [List.length_cons]
      by_cases h1 : t * ds ≤ q ∧ q < t * ds + ds
      · have hds : 0 < ds := by omega
        have hq : q / ds = t := Nat.div_eq_of_lt_le h1.1 (by rw [hmul]; exact h1.2)
        have hr : q % ds = q - t * ds := by
          have := Nat.div_add_mod q ds
          rw [hq, Nat.mul_comm] at this
          omega
        have c1 : ¬ ((t + 1) * ds ≤ q ∧ q < (t + 1 + rest.length) * ds) := by
          rw [hmul]; omega
        have c2 : t * ds ≤ q ∧ q < (t + (rest.length + 1)) * ds := by
          have : (t + (rest.length + 1)) * ds = t * ds + ds + rest.length * ds := by ring
          omega
        have c3 : q - t * ds < ds := by omega
        simp only [c1, c2, h1, c3, and_self, ↓reduceIte, hq, hr, Nat.sub_self,
          List.getD_cons_zero]
      · by_cases h2 : (t + 1) * ds ≤ q ∧ q < (t + 1 + rest.length) * ds
        · have hds : 0 < ds := by
            rcases Nat.eq_zero_or_pos ds with h0 | h0
            · subst h0; simp at h2
            · exact h0
          have hq : t + 1 ≤ q / ds := (Nat.le_div_iff_mul_le hds).mpr h2.1
          have c2 : t * ds ≤ q ∧ q < (t + (rest.length + 1)) * ds := by
            rw [← hmul2]; rw [hmul] at h2; omega
          have c3 : q / ds - t = (q / ds - (t + 1)) + 1 := by omega
          simp only [h2, c2, and_self, ↓reduceIte, c3, List.getD_cons_succ]
        · have c2 : ¬ (t * ds ≤ q ∧ q < (t + (rest.length + 1)) * ds) := by
            rw [← hmul2]; rw [hmul] at h2; omega
          simp only [h2, c2, h1, ↓reduceIte]

theorem getD_replicate_zero (n i : Nat) : (List.replicate n 0).getD i 0 = 0 := by
  rw [List.getD_eq_getElem?_getD, List.getElem?_replicate]
  split <;> rfl

theorem leftshift8_length (b : List Nat) (len bits : Nat) :
    (leftshift8 b len bits).length = b.length := by
  simp [leftshift8]

theorem rightshift8_length (b : List Nat) (len bits : Nat) :
    (rightshift8 b len bits).length = b.length := by
  simp [rightshift8]

/-- Lines 644-646: after the copy of the first k-mer and the two shifts, the sequence
buffer holds `s` zero nucleotides, then the `nb` nucleotides of the k-mer, then zeros. -/
theorem first_kmer_buffer (mem : List Nat) (hmem : ∀ x ∈ mem, x < 256)
    (nb M s first : Nat) (buffer0 : List Nat) (_hnb : 1 ≤ nb) (hM : (nb + 3) / 4 ≤ M)
    (hs : s < 4)
    (h0 : memcpy (List.replicate (M + 1) 0) 0 (read_bytes mem first ((nb + 3) / 4)) =
      some buffer0) :
    (rightshift8 (leftshift8 buffer0 ((nb + 3) / 4) (2 * ((4 - nb % 4) % 4)))
        ((nb + 3) / 4 + 1) (2 * s)).length = M + 1 ∧
      (∀ x ∈ rightshift8 (leftshift8 buffer0 ((nb + 3) / 4) (2 * ((4 - nb % 4) % 4)))
        ((nb + 3) / 4 + 1) (2 * s), x < 256) ∧
      ∀ p, nucl_at (rightshift8 (leftshift8 buffer0 ((nb + 3) / 4) (2 * ((4 - nb % 4) % 4)))
          ((nb + 3) / 4 + 1) (2 * s)) p =
        if s ≤ p ∧ p - s < nb then nucleotide mem first nb (p - s) else 0 := by
  have hl0 : buffer0.length = M + 1 := by
    rw [memcpy_length _ _ _ _ h0, List.length_replicate]
  have hb0 : ∀ x ∈ buffer0, x < 256 :=
    memcpy_lt _ _ _ _ h0 (by intro x hx; rw [List.eq_of_mem_replicate hx]; norm_num)
      (read_bytes_lt mem hmem _ _)
  have ho : (4 - nb % 4) % 4 < 4 := Nat.mod_lt _ (by norm_num)
  have hb1 := leftshift8_lt buffer0 ((nb + 3) / 4) _ hb0 ho
  have hn0 : ∀ q, nucl_at buffer0 q =
      if q < 4 * ((nb + 3) / 4) then mem.getD (first + q / 4) 0 / 4 ^ (3 - q % 4) % 4
      else 0 := by
    intro q
    simp only [nucl_at]
    rw [memcpy_getD _ _ _ _ _ h0, read_bytes_length, read_bytes_getD, getD_replicate_zero]
    by_cases h1 : q < 4 * ((nb + 3) / 4)
    · have : q / 4 < (nb + 3) / 4 := by omega
      simp [h1, this]
    · have : ¬ q / 4 < (nb + 3) / 4 := by omega
      simp [h1, this]
  have hn1 : ∀ q, nucl_at (leftshift8 buffer0 ((nb + 3) / 4) (2 * ((4 - nb % 4) % 4))) q =
      if q < nb then nucleotide mem first nb q else 0 := by
    intro q
    rw [nucl_at_leftshift8 _ _ _ _ hb0 (by omega) ho, hn0, hn0]
    by_cases h1 : q < nb
    · have c1 : q < 4 * ((nb + 3) / 4) := by omega
      have c2 : q + (4 - nb % 4) % 4 < 4 * ((nb + 3) / 4) := by omega
      simp only [c1, c2, h1, ↓reduceIte, nucleotide]
      rw [Nat.add_comm q]
    · by_cases c1 : q < 4 * ((nb + 3) / 4)
      · have c2 : ¬ q + (4 - nb % 4) % 4 < 4 * ((nb + 3) / 4) := by omega
        simp only [c1, c2, h1, ↓reduceIte]
      · simp only [c1, h1, ↓reduceIte]
  refine ⟨by rw [rightshift8_length, leftshift8_length, hl0],
    rightshift8_lt _ _ _ hb1 hs, ?_⟩
  intro p
  rw [nucl_at_rightshift8 _ _ _ _ hb1 (by rw [leftshift8_length, hl0]; omega) hs, hn1, hn1]
  split_ifs <;> first | rfl | (exfalso; omega)

theorem skmer_room (nb len : Nat) (h1 : 1 ≤ nb) (h2 : len ≤ nb) :
    (4 - (nb + len) % 4) % 4 + nb - 1 + 1 + len ≤ 4 * ((2 * nb + 3) / 4 + 1) := by
  omega

/-- What `write_paths` hands to the writer for a path `first :: others` of at most
`k - m + 1` k-mers, when the size `(k - m + 1) * data_size` of the data buffer is a `uint`
value: the call succeeds inside its buffers, and every nucleotide of the
sequence buffer and every byte of the data buffer is determined. -/
theorem write_path_spec (mem : List Nat) (hmem : ∀ x ∈ mem, x < 256)
    (k m ds max first : Nat) (others : List Nat) (hk : k < 2 ^ 30) (hm : m < k)
    (hds : (k - m + 1) * ds < 2 ^ 32) (hL : others.length ≤ k - m) :
    ∃ out, write_path mem k m ds max (first :: others) = some out ∧
      out.seq_size = k - m + others.length ∧
      out.mini_pos = read_mini_pos mem (first + (k - m + 3) / 4 + ds)
        ((ceil_log2 (max + k - m) + 7) / 8) ∧
      out.seq.length = (2 * (k - m) + 3) / 4 + 1 ∧
      out.data.length = (k - m + 1) * ds ∧
      (∀ p, nucl_at out.seq p =
        if p < (4 - (k - m + others.length) % 4) % 4 then 0
        else if p - (4 - (k - m + others.length) % 4) % 4 < k - m then
          nucleotide mem first (k - m) (p - (4 - (k - m + others.length) % 4) % 4)
        else if p - (4 - (k - m + others.length) % 4) % 4 < k - m + others.length then
          mem.getD (others.getD (p - (4 - (k - m + others.length) % 4) % 4 - (k - m)) 0
            + (k - m + 3) / 4 - 1) 0 % 4
        else 0) ∧
      (∀ q, out.data.getD q 0 =
        if q < (1 + others.length) * ds then
          mem.getD ((first :: others).getD (q / ds) 0 + (k - m + 3) / 4 + q % ds) 0
        else 0) := by
  have hnb : usub k m = k - m := usub_eq k m (by omega) (le_of_lt hm)
  have e1 : usub (k - m) 1 = k - m - 1 := usub_eq _ 1 (by omega) (by omega)
  have hsize : (k - m - 1 + (others.length + 1)) % 2 ^ 32 = k - m + others.length := by omega
  have hs : (4 - (k - m + others.length) % 4) % 4 < 4 := Nat.mod_lt _ (by norm_num)
  have hmod : (k - m + 1) * ds % 2 ^ 32 = (k - m + 1) * ds := Nat.mod_eq_of_lt hds
  have hfit0 : 0 + (read_bytes mem first ((k - m + 3) / 4)).length ≤
      (List.replicate ((2 * (k - m) + 3) / 4 + 1) (0 : Nat)).length := by
    rw [read_bytes_length, List.length_replicate]; omega
  have hfitd : 0 + (read_bytes mem (first + (k - m + 3) / 4) ds).length ≤
      (List.replicate ((k - m + 1) * ds) (0 : Nat)).length := by
    rw [read_bytes_length, List.length_replicate]
    have : (k - m + 1) * ds = (k - m) * ds + ds := by ring
    omega
  obtain ⟨buffer0, h0⟩ : ∃ b, memcpy (List.replicate ((2 * (k - m) + 3) / 4 + 1) 0) 0
      (read_bytes mem first ((k - m + 3) / 4)) = some b := by
    simp only [memcpy, hfit0, ↓reduceIte]; exact ⟨_, rfl⟩
  obtain ⟨data0, hd0⟩ : ∃ d, memcpy (List.replicate ((k - m + 1) * ds) 0) 0
      (read_bytes mem (first + (k - m + 3) / 4) ds) = some d := by
    simp only [memcpy, hfitd, ↓reduceIte]; exact ⟨_, rfl⟩
  obtain ⟨hl2, hb2, hn2⟩ := first_kmer_buffer mem hmem (k - m) ((2 * (k - m) + 3) / 4)
    ((4 - (k - m + others.length) % 4) % 4) first buffer0 (by omega) (by omega) hs h0
  have hdl0 : data0.length = (k - m + 1) * ds := by
    rw [memcpy_length _ _ _ _ hd0, List.length_replicate]
  obtain ⟨buf', data', hrun, hl3, hdl3, hn3, hd3⟩ := compact_kmers_spec mem (k - m) ds
    ((4 - (k - m + others.length) % 4) % 4) ((k - m + 3) / 4) (by omega) (by omega) (by omega)
    others 1 _ data0 hb2
    (by
      intro p hp
      rw [hn2 p]
      have : ¬ ((4 - (k - m + others.length) % 4) % 4 ≤ p ∧
          p - (4 - (k - m + others.length) % 4) % 4 < k - m) := by omega
      simp only [this, ↓reduceIte])
    (by rw [hl2]; exact skmer_room (k - m) others.length (by omega) hL)
    (by rw [hdl0]; exact Nat.mul_le_mul_right ds (by omega))
    (by omega)
    (lt_of_le_of_lt (Nat.mul_le_mul_right ds (by omega)) hds)
  refine ⟨{ seq := buf', seq_size := k - m + others.length,
            mini_pos := read_mini_pos mem (first + (k - m + 3) / 4 + ds)
              ((ceil_log2 (max + k - m) + 7) / 8),
            data := data' }, ?_, rfl, rfl, ?_, ?_, ?_, ?_⟩
  · simp only [write_path, hnb, e1, List.length_cons, hsize, hmod, h0, hd0, hrun]
  · simp only [hl3, hl2]
  · simp only [hdl3, hdl0]
  · intro p
    simp only [hn3 p, hn2 p]
    have c3 : p - ((4 - (k - m + others.length) % 4) % 4 + (k - m) - 1 + 1) =
        p - (4 - (k - m + others.length) % 4) % 4 - (k - m) := by omega
    rw [c3]
    split_ifs <;> first | rfl | (exfalso; omega)
  · intro q
    simp only [hd3 q]
    rw [memcpy_getD _ _ _ _ _ hd0, read_bytes_length, read_bytes_getD, getD_replicate_zero]
    by_cases h1 : q < ds
    · have hq : q / ds = 0 := Nat.div_eq_of_lt h1
      have hr : q % ds = q := Nat.mod_eq_of_lt h1
      have c1 : ¬ (1 * ds ≤ q ∧ q < (1 + others.length) * ds) := by omega
      have c2 : q < (1 + others.length) * ds := by
        have : (1 + others.length) * ds = ds + others.length * ds := by ring
        omega
      have c3 : 0 ≤ q ∧ q < 0 + ds := by omega
      rw [if_neg c1, if_pos c3, if_pos c2, if_pos (show q - 0 < ds by omega), hq, hr,
        List.getD_cons_zero, Nat.sub_zero]
    · by_cases h2 : q < (1 + others.length) * ds
      · have hds : 0 < ds := by
          rcases Nat.eq_zero_or_pos ds with h0 | h0
          · subst h0; simp at h2
          · exact h0
        have hq : 1 ≤ q / ds := (Nat.le_div_iff_mul_le hds).mpr (by omega)
        have c1 : 1 * ds ≤ q ∧ q < (1 + others.length) * ds := by omega
        have c3 : q / ds = (q / ds - 1) + 1 := by omega
        rw [if_pos c1, if_pos h2]
        conv_rhs => rw [c3, List.getD_cons_succ]
      · have c1 : ¬ (1 * ds ≤ q ∧ q < (1 + others.length) * ds) := by omega
        have c3 : ¬ (0 ≤ q ∧ q < 0 + ds) := by omega
        rw [if_neg c1, if_neg c3, if_neg h2]

/-! ## What `write_paths` hands to the writer -/

theorem last_nucleotide (mem : List Nat) (kmer nb : Nat) (hnb : 1 ≤ nb) :
    nucleotide mem kmer nb (nb - 1) = mem.getD (kmer + (nb + 3) / 4 - 1) 0 % 4 := by
  have e1 : ((4 - nb % 4) % 4 + (nb - 1)) / 4 = (nb + 3) / 4 - 1 := by omega
  have e2 : ((4 - nb % 4) % 4 + (nb - 1)) % 4 = 3 := by omega
  have e3 : kmer + ((nb + 3) / 4 - 1) = kmer + (nb + 3) / 4 - 1 := by omega
  simp only [nucleotide, e1, e2, e3]
  simp

/-- The nucleotides of the sequence buffer that `write_paths` hands to the writer, for a
path given as a list and a data buffer whose size is a `uint` value. -/
theorem write_path_nucleotides (mem : List Nat) (hmem : ∀ x ∈ mem, x < 256)
    (k m data_size max : Nat) (path : List Nat) (hk : k < 2 ^ 30) (hm : m < k)
    (hds : (k - m + 1) * data_size < 2 ^ 32)
    (h1 : 1 ≤ path.length) (hL : path.length ≤ k - m + 1) :
    ∃ out, write_path mem k m data_size max path = some out ∧
      out.seq_size = (k - m - 1) + path.length ∧
      (∀ i < out.seq_size, nucleotide out.seq 0 out.seq_size i =
        if i < k - m then nucleotide mem (path.getD 0 0) (k - m) i
        else mem.getD (path.getD (i - (k - m) + 1) 0 + (k - m + 3) / 4 - 1) 0 % 4) ∧
      (∀ p < (4 - out.seq_size % 4) % 4, nucl_at out.seq p = 0) := by
  cases path with
  | nil => simp at h1
  | cons first others =>
    simp only [List.length_cons] at hL
    obtain ⟨out, h2, h3, -, -, -, h4, -⟩ :=
      write_path_spec mem hmem k m data_size max first others hk hm hds (by omega)
    refine ⟨out, h2, by rw [h3, List.length_cons]; omega, ?_, ?_⟩
    · intro i hi
      rw [nucleotide_eq_nucl_at, h4, h3]
      rw [h3] at hi
      have c1 : ¬ (4 - (k - m + others.length) % 4) % 4 + i <
          (4 - (k - m + others.length) % 4) % 4 := by omega
      have c2 : (4 - (k - m + others.length) % 4) % 4 + i -
          (4 - (k - m + others.length) % 4) % 4 = i := by omega
      rw [if_neg c1, c2]
      by_cases h5 : i < k - m
      · rw [if_pos h5, if_pos h5, List.getD_cons_zero]
      · rw [if_neg h5, if_neg h5, if_pos hi, List.getD_cons_succ]
    · intro p hp
      rw [h4, ← h3, if_pos hp]

/-- C4: for a path of `L` k-mers, `1 <= L <= k-m+1`, `k > m`, and a `data_size` for which
the size `(k-m+1) * data_size` of the data buffer is a `uint` value, `write_paths` hands to
the writer the nucleotide count `(k-m-1)+L` and a buffer which, read as that many nucleotides
(2 bits each, most significant first, right-aligned), is the `k-m` nucleotides of the first
k-mer followed by the last nucleotide (low 2 bits of the last window byte) of every next
k-mer in path order; the padding nucleotides in front are zero. -/
theorem write_path_sequence (mem : List Nat) (hmem : ∀ x ∈ mem, x < 256)
    (k m data_size max : Nat) (path : List Nat) (hk : k < 2 ^ 30) (hm : m < k)
    (hds : (k - m + 1) * data_size < 2 ^ 32)
    (h1 : 1 ≤ path.length) (hL : path.length ≤ k - m + 1) :
    ∃ out, write_path mem k m data_size max path = some out ∧
      out.seq_size = (k - m - 1) + path.length ∧
      (∀ i < out.seq_size, nucleotide out.seq 0 out.seq_size i =
        if i < k - m then nucleotide mem (path.getD 0 0) (k - m) i
        else mem.getD (path.getD (i - (k - m) + 1) 0 + (k - m + 3) / 4 - 1) 0 % 4) ∧
      (∀ p < (4 - out.seq_size % 4) % 4, nucl_at out.seq p = 0) :=
  write_path_nucleotides mem hmem k m data_size max path hk hm hds h1 hL

theorem write_path_sequence_witness :
    ∃ out, write_path [0x1B, 0x1B, 1, 2, 0x6C, 0x6D, 2, 1] 10 2 1 9 [0, 4] = some out ∧
      out.seq_size = (10 - 2 - 1) + [0, 4].length ∧
      (∀ i < out.seq_size, nucleotide out.seq 0 out.seq_size i =
        if i < 10 - 2 then
          nucleotide [0x1B, 0x1B, 1, 2, 0x6C, 0x6D, 2, 1] ([0, 4].getD 0 0) (10 - 2) i
        else ([0x1B, 0x1B, 1, 2, 0x6C, 0x6D, 2, 1] : List Nat).getD
          ([0, 4].getD (i - (10 - 2) + 1) 0 + (10 - 2 + 3) / 4 - 1) 0 % 4) ∧
      (∀ p < (4 - out.seq_size % 4) % 4, nucl_at out.seq p = 0) :=
  write_path_sequence [0x1B, 0x1B, 1, 2, 0x6C, 0x6D, 2, 1] (by decide) 10 2 1 9 [0, 4]
    (by norm_num) (by norm_num) (by norm_num) (by decide) (by decide)

theorem overlap_to_first (mem : List Nat) (nb : Nat) (path : List Nat)
    (hov : ∀ i < path.length - 1, ∀ j < nb - 1,
      nucleotide mem (path.getD i 0) nb (j + 1) = nucleotide mem (path.getD (i + 1) 0) nb j) :
    ∀ i, i < path.length → ∀ j, i + j < nb →
      nucleotide mem (path.getD i 0) nb j = nucleotide mem (path.getD 0 0) nb (i + j) := by
  intro i
  induction i with
  | zero => intro _ j _; rw [Nat.zero_add]
  | succ i ih =>
    intro hi j hj
    rw [← hov i (by omega) j (by omega), ih (by omega) (j + 1) (by omega)]
    congr 1
    omega

theorem overlap_to_last (mem : List Nat) (nb : Nat) (path : List Nat)
    (hov : ∀ i < path.length - 1, ∀ j < nb - 1,
      nucleotide mem (path.getD i 0) nb (j + 1) = nucleotide mem (path.getD (i + 1) 0) nb j) :
    ∀ e i j, i < path.length → j + e + 1 = nb → e ≤ i →
      nucleotide mem (path.getD i 0) nb j = nucleotide mem (path.getD (i - e) 0) nb (nb - 1) := by
  intro e
  induction e with
  | zero =>
    intro i j _ hj _
    have : j = nb - 1 := by omega
    rw [this, Nat.sub_zero]
  | succ e ih =>
    intro i j hi hj he
    have h1 := hov (i - 1) (by omega) j (by omega)
    have e1 : i - 1 + 1 = i := by omega
    rw [e1] at h1
    rw [← h1, ih (i - 1) (j + 1) (by omega) (by omega) (by omega)]
    congr 2
    omega

/-- C3: for a path of `L` k-mers, `1 <= L <= k-m+1`, whose consecutive k-mers overlap by
`k-m-1` nucleotides, and a `data_size` for which the size `(k-m+1) * data_size` of the data
buffer is a `uint` value, the window of `k-m` nucleotides starting at nucleotide `i` of the
super-k-mer handed to the writer is the window of the `i`-th k-mer of the path, for every
`i < L`: cutting the super-k-mer gives the k-mers of the path back, in order. -/
theorem write_path_roundtrip (mem : List Nat) (hmem : ∀ x ∈ mem, x < 256)
    (k m data_size max : Nat) (path : List Nat) (hk : k < 2 ^ 30) (hm : m < k)
    (hds : (k - m + 1) * data_size < 2 ^ 32)
    (h1 : 1 ≤ path.length) (hL : path.length ≤ k - m + 1)
    (hov : ∀ i < path.length - 1, ∀ j < k - m - 1,
      nucleotide mem (path.getD i 0) (k - m) (j + 1) =
        nucleotide mem (path.getD (i + 1) 0) (k - m) j) :
    ∃ out, write_path mem k m data_size max path = some out ∧
      ∀ i < path.length, ∀ j < k - m,
        nucleotide out.seq 0 out.seq_size (i + j) =
          nucleotide mem (path.getD i 0) (k - m) j := by
  obtain ⟨out, h2, h3, h4, -⟩ :=
    write_path_nucleotides mem hmem k m data_size max path hk hm hds h1 hL
  refine ⟨out, h2, ?_⟩
  intro i hi j hj
  rw [h4 (i + j) (by rw [h3]; omega)]
  by_cases h5 : i + j < k - m
  · rw [if_pos h5, overlap_to_first mem (k - m) path hov i hi j h5]
  · have e1 : i - (k - m - 1 - j) = i + j - (k - m) + 1 := by omega
    rw [if_neg h5, overlap_to_last mem (k - m) path hov (k - m - 1 - j) i j hi (by omega)
      (by omega), last_nucleotide mem _ (k - m) (by omega), e1]

theorem write_path_roundtrip_witness :
    ∃ out, write_path [0x1B, 0x1B, 1, 2, 0x6C, 0x6D, 2, 1] 10 2 1 9 [0, 4] = some out ∧
      ∀ i < [0, 4].length, ∀ j < 10 - 2,
        nucleotide out.seq 0 out.seq_size (i + j) =
          nucleotide [0x1B, 0x1B, 1, 2, 0x6C, 0x6D, 2, 1] ([0, 4].getD i 0) (10 - 2) j :=
  write_path_roundtrip [0x1B, 0x1B, 1, 2, 0x6C, 0x6D, 2, 1] (by decide) 10 2 1 9 [0, 4]
    (by norm_num) (by norm_num) (by norm_num) (by decide) (by decide) (by decide)

theorem entry_eq (data src : List Nat) (ds i : Nat) (hlen : src.length = ds)
    (hfit : (i + 1) * ds ≤ data.length)
    (h : ∀ j < ds, data.getD (i * ds + j) 0 = src.getD j 0) :
    (data.drop (i * ds)).take ds = src := by
  have hmul : (i + 1) * ds = i * ds + ds := by ring
  apply List.ext_getElem
  · rw [List.length_take, List.length_drop, hlen]
    omega
  · intro j h1 h2
    have hj : j < ds := by rw [hlen] at h2; exact h2
    have h3 := h j hj
    rw [List.getD_eq_getElem _ _ (by omega), List.getD_eq_getElem _ _ h2] at h3
    rw [List.getElem_take, List.getElem_drop]
    exact h3

theorem usub_self (k : Nat) : usub k k = 0 := by
  unfold usub
  have : k % 2 ^ 32 < 2 ^ 32 := Nat.mod_lt _ (by norm_num)
  omega

theorem write_path_single_degenerate (mem : List Nat) (k ds max first : Nat)
    (hds : ds < 2 ^ 32) :
    ∃ out, write_path mem k k ds max [first] = some out ∧
      out.data = read_bytes mem first ds := by
  have e1 : usub 0 1 = 2 ^ 32 - 1 := by unfold usub; norm_num
  have hfit : 0 + (read_bytes mem first ds).length ≤ (List.replicate ds (0 : Nat)).length := by
    simp [read_bytes_length]
  have hmod : ds % 2 ^ 32 = ds := Nat.mod_eq_of_lt hds
  simp only [write_path, usub_self, e1, Nat.zero_add, Nat.reduceDiv, Nat.add_zero,
    Nat.mul_zero, Nat.one_mul, hmod, memcpy, List.length_replicate, read_bytes_length,
    Nat.zero_le, ↓reduceIte, Nat.le_refl, compact_kmers]
  refine ⟨_, rfl, ?_⟩
  simp [read_bytes_length]

/-- The entries of the data buffer that `write_paths` hands to the writer, when the size of
the buffer is a `uint` value. -/
theorem write_path_entries (mem : List Nat) (hmem : ∀ x ∈ mem, x < 256)
    (k m data_size max : Nat) (path : List Nat) (hk : k < 2 ^ 30) (hm : m ≤ k)
    (hds : (k - m + 1) * data_size < 2 ^ 32)
    (h1 : 1 ≤ path.length) (hL : path.length ≤ k - m + 1) :
    ∃ out, write_path mem k m data_size max path = some out ∧
      path.length * data_size ≤ out.data.length ∧
      ∀ i < path.length, (out.data.drop (i * data_size)).take data_size =
        read_bytes mem (path.getD i 0 + (k - m + 3) / 4) data_size := by
  cases path with
  | nil => simp at h1
  | cons first others =>
    simp only [List.length_cons] at hL
    rcases Nat.eq_or_lt_of_le hm with hmk | hmk
    · subst hmk
      have ho : others = [] := by
        cases others with
        | nil => rfl
        | cons _ _ => simp only [List.length_cons] at hL; omega
      subst ho
      obtain ⟨out, h2, h3⟩ := write_path_single_degenerate mem m data_size max first
        (by simpa using hds)
      refine ⟨out, h2, by simp [h3, read_bytes_length], ?_⟩
      intro i hi
      simp only [List.length_singleton, Nat.lt_one_iff] at hi
      subst hi
      simp [h3, read_bytes_length]
    · obtain ⟨out, h2, -, -, -, h3, -, h4⟩ :=
        write_path_spec mem hmem k m data_size max first others hk hmk hds (by omega)
      have hroom : (others.length + 1) * data_size ≤ out.data.length := by
        rw [h3]; exact Nat.mul_le_mul_right _ (by omega)
      refine ⟨out, h2, by simpa using hroom, ?_⟩
      intro i hi
      simp only [List.length_cons] at hi
      apply entry_eq _ _ _ _ (read_bytes_length _ _ _)
      · exact le_trans (Nat.mul_le_mul_right _ (by omega)) hroom
      · intro j hj
        have hlt : i * data_size + j < (1 + others.length) * data_size := by
          have : (i + 1) * data_size ≤ (1 + others.length) * data_size :=
            Nat.mul_le_mul_right _ (by omega)
          have e : (i + 1) * data_size = i * data_size + data_size := by ring
          omega
        have hq : (i * data_size + j) / data_size = i :=
          Nat.div_eq_of_lt_le (by omega) (by
            have e : (i + 1) * data_size = i * data_size + data_size := by ring
            omega)
        have hr : (i * data_size + j) % data_size = j := by
          rw [Nat.add_comm, Nat.add_mul_mod_self_right, Nat.mod_eq_of_lt hj]
        rw [h4, if_pos hlt, hq, hr, read_bytes_getD, if_pos hj]

/-- C5: for a path of `L` k-mers, `1 <= L <= k-m+1`, and a `data_size` for which the size
`(k-m+1) * data_size` of the data buffer is a `uint` value, the data buffer handed to the
writer starts with `L` entries of `data_size` bytes, and entry `i` is, byte for byte, the payload
of the arena record of the `i`-th k-mer of the path: the `data_size` bytes that follow its
packed window of `(k-m+3)/4` bytes. -/
theorem write_path_payload (mem : List Nat) (hmem : ∀ x ∈ mem, x < 256)
    (k m data_size max : Nat) (path : List Nat) (hk : k < 2 ^ 30) (hm : m ≤ k)
    (hds : (k - m + 1) * data_size < 2 ^ 32)
    (h1 : 1 ≤ path.length) (hL : path.length ≤ k - m + 1) :
    ∃ out, write_path mem k m data_size max path = some out ∧
      path.length * data_size ≤ out.data.length ∧
      ∀ i < path.length, (out.data.drop (i * data_size)).take data_size =
        read_bytes mem (path.getD i 0 + (k - m + 3) / 4) data_size :=
  write_path_entries mem hmem k m data_size max path hk hm hds h1 hL

theorem write_path_payload_witness :
    ∃ out, write_path [0x1B, 0x1B, 1, 2, 3, 0x6C, 0x6D, 5, 6, 2] 10 2 2 9 [0, 5] = some out ∧
      [0, 5].length * 2 ≤ out.data.length ∧
      ∀ i < [0, 5].length, (out.data.drop (i * 2)).take 2 =
        read_bytes [0x1B, 0x1B, 1, 2, 3, 0x6C, 0x6D, 5, 6, 2]
          ([0, 5].getD i 0 + (10 - 2 + 3) / 4) 2 :=
  write_path_payload [0x1B, 0x1B, 1, 2, 3, 0x6C, 0x6D, 5, 6, 2] (by decide) 10 2 2 9 [0, 5]
    (by norm_num) (by norm_num) (by norm_num) (by decide) (by decide)

/-! ## `prepare_kmer_matrix` -/

theorem pack_bytes_length (l : List Nat) : (pack_bytes l).length = l.length / 4 := by
  induction l using pack_bytes.induct with
  | case1 a b c d rest ih =>
    simp only [pack_bytes, List.length_cons, ih]
    omega
  | case2 l h =>
    have hl : l.length < 4 := by
      match l, h with
      | [], _ => simp
      | [_], _ => simp
      | [_, _], _ => simp
      | [_, _, _], _ => simp
      | a :: b :: c :: d :: rest, h => exact absurd rfl (h a b c d rest)
    rw [pack_bytes]
    · simp; omega
    · exact h

theorem subsequence_length (mem : List Nat) (seq seq_size b e : Nat) :
    (subsequence mem seq seq_size b e).length = (e + 1 - b + 3) / 4 := by
  simp only [subsequence, pack_bytes_length, List.length_append, List.length_replicate,
    subrange, List.length_map, List.length_range]
  omega

theorem memcpy_some (dst src : List Nat) (pos : Nat) (h : pos + src.length ≤ dst.length) :
    ∃ r, memcpy dst pos src = some r ∧ r.length = dst.length := by
  have : memcpy dst pos src =
      some (dst.take pos ++ src ++ dst.drop (pos + src.length)) := by
    simp only [memcpy, h, ↓reduceIte]
  exact ⟨_, this, memcpy_length _ _ _ _ this⟩

theorem grow_fits (a : Arena) (size : Nat) (h : a.Fits size) :
    (a.grow size).Fits size ∧ (a.grow size).next_free = a.next_free ∧
      (a.grow size).next_free + size ≤ (a.grow size).buffer_size := by
  obtain ⟨h1, h2, h3⟩ := h
  unfold Arena.grow
  split
  · refine ⟨⟨?_, ?_, ?_⟩, rfl, ?_⟩
    · simp only [List.length_append, List.length_replicate, h1]; omega
    · simp only; omega
    · simp only; omega
    · simp only; omega
  · exact ⟨⟨h1, h2, h3⟩, rfl, by omega⟩

theorem kmer_column_eq (k m p j : Nat) (hk : k + j < 2 ^ 32) (hp : p ≤ k - m) (hm : m ≤ k) :
    kmer_column k m p j = k - m - p + j := by
  unfold kmer_column
  omega

theorem mini_pos_bytes_length (size value : Nat) : (mini_pos_bytes size value).length = size := by
  simp [mini_pos_bytes]

theorem MatrixOf.add (matrix : List (List Nat)) (placed : List (Nat × Nat)) (c r : Nat)
    (h : MatrixOf matrix placed) (hc : c < matrix.length) :
    MatrixOf (matrix.set c (matrix.getD c [] ++ [r])) (placed ++ [(c, r)]) := by
  obtain ⟨h1, h2⟩ := h
  constructor
  · rw [List.map_append]
    exact (set_flatten_perm matrix c r hc).trans (List.Perm.append_right _ h1)
  · intro c'
    rw [List.filter_append, List.map_append, ← h2 c']
    simp only [List.getD_eq_getElem?_getD, List.getElem?_set]
    by_cases hcc : c = c'
    · subst hcc
      simp [hc, List.filter]
    · simp [hcc, List.filter]

/-- One k-mer of a block is stored in the arena and its reference is pushed at the back of
column `k - m - p + j`. -/
theorem add_kmer_ok (sm : Section) (block : Block) (a : Arena) (matrix : List (List Nat))
    (j : Nat) (hk : sm.k + block.nb_kmers < 2 ^ 32) (hm : sm.m < sm.k)
    (hj : j < block.nb_kmers) (hp1 : j ≤ block.mini_pos)
    (hp2 : block.mini_pos ≤ sm.k - sm.m) (hlen : matrix.length = sm.k - sm.m + 1)
    (hfit : a.Fits (record_size sm)) :
    ∃ a', add_kmer sm block (a, matrix) j =
        some (a', matrix.set (sm.k - sm.m - block.mini_pos + j)
          (matrix.getD (sm.k - sm.m - block.mini_pos + j) [] ++ [a.next_free])) ∧
      a'.next_free = a.next_free + record_size sm ∧ a'.Fits (record_size sm) := by
  have e1 : usub sm.k sm.m = sm.k - sm.m := usub_eq _ _ (by omega) (by omega)
  have e2 : usub (j + sm.k) (sm.m + 1) = j + (sm.k - sm.m - 1) := by
    rw [usub_eq _ _ (by omega) (by omega)]; omega
  have e3 : kmer_column sm.k sm.m block.mini_pos j = sm.k - sm.m - block.mini_pos + j :=
    kmer_column_eq _ _ _ _ (by omega) hp2 (by omega)
  obtain ⟨⟨g1, g2, g3⟩, hnf, hroom⟩ := grow_fits a (record_size sm) hfit
  have hrs : record_size sm = (sm.k - sm.m + 3) / 4 + sm.data_size +
      (ceil_log2 (sm.k + sm.max - 1) + 7) / 8 := rfl
  have hl1 : (subsequence block.seq 0 (usub (sm.k + block.nb_kmers) (sm.m + 1)) j
      (j + (sm.k - sm.m - 1))).length = (sm.k - sm.m + 3) / 4 := by
    rw [subsequence_length]
    congr 2
    omega
  obtain ⟨b1, hb1, hbl1⟩ := memcpy_some (a.grow (record_size sm)).kmer_buffer
    (subsequence block.seq 0 (usub (sm.k + block.nb_kmers) (sm.m + 1)) j
      (j + (sm.k - sm.m - 1))) (a.grow (record_size sm)).next_free
    (by rw [hl1, g1]; omega)
  obtain ⟨b2, hb2, hbl2⟩ := memcpy_some b1
    (read_bytes block.data (j * sm.data_size) sm.data_size)
    ((a.grow (record_size sm)).next_free + (sm.k - sm.m + 3) / 4)
    (by rw [read_bytes_length, hbl1, g1]; omega)
  obtain ⟨b3, hb3, hbl3⟩ := memcpy_some b2
    (mini_pos_bytes ((ceil_log2 (sm.k + sm.max - 1) + 7) / 8) (usub block.mini_pos j))
    ((a.grow (record_size sm)).next_free + (sm.k - sm.m + 3) / 4 + sm.data_size)
    (by rw [mini_pos_bytes_length, hbl2, hbl1, g1]; omega)
  have hc : sm.k - sm.m - block.mini_pos + j < matrix.length := by omega
  refine ⟨{ kmer_buffer := b3, buffer_size := (a.grow (record_size sm)).buffer_size,
            next_free := (a.grow (record_size sm)).next_free + record_size sm }, ?_, ?_, ?_⟩
  · rw [hnf] at hb1 hb2 hb3
    simp only [add_kmer, e1, e2, e3, ← hrs, hnf, hb1, hb2, hb3, hc, ↓reduceIte]
  · simp only [hnf]
  · exact ⟨by rw [hbl3, hbl2, hbl1, g1], hroom, g3⟩

theorem add_kmers_ok (sm : Section) (block : Block) (hk : sm.k + block.nb_kmers < 2 ^ 32)
    (hm : sm.m < sm.k) (hp1 : block.nb_kmers ≤ block.mini_pos + 1)
    (hp2 : block.mini_pos ≤ sm.k - sm.m) (count : Nat) :
    ∀ (kmer_idx : Nat) (a : Arena) (matrix : List (List Nat)) (placed : List (Nat × Nat)),
      kmer_idx + count ≤ block.nb_kmers → matrix.length = sm.k - sm.m + 1 →
      a.Fits (record_size sm) → MatrixOf matrix placed →
      ∃ a' matrix', add_kmers sm block count kmer_idx (a, matrix) = some (a', matrix') ∧
        a'.next_free = a.next_free + count * record_size sm ∧ a'.Fits (record_size sm) ∧
        matrix'.length = sm.k - sm.m + 1 ∧
        MatrixOf matrix' (placed ++ (List.range' kmer_idx count).map (fun j =>
          (sm.k - sm.m - block.mini_pos + j, a.next_free + (j - kmer_idx) * record_size sm))) := by
  induction count with
  | zero =>
    intro kmer_idx a matrix placed _ hlen hfit hmat
    exact ⟨a, matrix, rfl, by simp, hfit, hlen, by simpa using hmat⟩
  | succ count ih =>
    intro kmer_idx a matrix placed hcount hlen hfit hmat
    obtain ⟨a1, h1, h2, h3⟩ := add_kmer_ok sm block a matrix kmer_idx hk hm (by omega)
      (by omega) hp2 hlen hfit
    have hc : sm.k - sm.m - block.mini_pos + kmer_idx < matrix.length := by omega
    obtain ⟨a', matrix', h4, h5, h6, h7, h8⟩ := ih (kmer_idx + 1) a1 _ _ (by omega)
      (by rw [List.length_set]; exact hlen) h3
      (hmat.add matrix placed _ a.next_free hc)
    refine ⟨a', matrix', ?_, ?_, h6, h7, ?_⟩
    · simp only [add_kmers, h1]
      exact h4
    · rw [h5, h2]
      ring
    · have e : (List.range' kmer_idx (count + 1)).map (fun j =>
          (sm.k - sm.m - block.mini_pos + j, a.next_free + (j - kmer_idx) * record_size sm)) =
          (sm.k - sm.m - block.mini_pos + kmer_idx, a.next_free) ::
          (List.range' (kmer_idx + 1) count).map (fun j =>
            (sm.k - sm.m - block.mini_pos + j,
              a1.next_free + (j - (kmer_idx + 1)) * record_size sm)) := by
        rw [List.range'_succ, List.map_cons]
        congr 1
        · simp
        · apply List.map_congr_left
          intro j hj
          have hj' := (List.mem_range'_1.mp hj).1
          rw [h2]
          congr 1
          have : j - kmer_idx = (j - (kmer_idx + 1)) + 1 := by omega
          rw [this]
          ring
      rw [e]
      simpa using h8

theorem add_blocks_ok (sm : Section) (hm : sm.m < sm.k) (blocks : List Block) :
    ∀ (a : Arena) (matrix : List (List Nat)) (placed : List (Nat × Nat)),
      (∀ block ∈ blocks, sm.k + block.nb_kmers < 2 ^ 32 ∧
        block.nb_kmers ≤ block.mini_pos + 1 ∧ block.mini_pos ≤ sm.k - sm.m) →
      matrix.length = sm.k - sm.m + 1 → a.Fits (record_size sm) → MatrixOf matrix placed →
      ∃ a' matrix', add_blocks sm blocks (a, matrix) = some (a', matrix') ∧
        matrix'.length = sm.k - sm.m + 1 ∧
        MatrixOf matrix' (placed ++ section_placements sm blocks a.next_free) := by
  induction blocks with
  | nil =>
    intro a matrix placed _ hlen _ hmat
    exact ⟨a, matrix, rfl, hlen, by simpa [section_placements] using hmat⟩
  | cons block rest ih =>
    intro a matrix placed hb hlen hfit hmat
    obtain ⟨hk, hp1, hp2⟩ := hb block (List.mem_cons_self _ _)
    obtain ⟨a1, matrix1, h1, h2, h3, h4, h5⟩ := add_kmers_ok sm block hk hm hp1 hp2
      block.nb_kmers 0 a matrix placed (by omega) hlen hfit hmat
    obtain ⟨a', matrix', h6, h7, h8⟩ := ih a1 matrix1 _
      (fun b hb' => hb b (List.mem_cons_of_mem _ hb')) h4 h3 h5
    refine ⟨a', matrix', ?_, h7, ?_⟩
    · simp only [add_blocks, h1]
      exact h6
    · rw [h2] at h8
      simpa [section_placements] using h8

theorem section_placements_length (sm : Section) (blocks : List Block) :
    ∀ ref, (section_placements sm blocks ref).length = (blocks.map Block.nb_kmers).sum := by
  induction blocks with
  | nil => intro _; rfl
  | cons block rest ih =>
    intro ref
    simp [section_placements, ih]

theorem section_placements_refs (sm : Section) (blocks : List Block) :
    ∀ ref, (section_placements sm blocks ref).map Prod.snd =
      (List.range (blocks.map Block.nb_kmers).sum).map (fun g => ref + g * record_size sm) := by
  induction blocks with
  | nil => intro _; rfl
  | cons block rest ih =>
    intro ref
    simp only [section_placements, List.map_append, List.map_map, ih, List.map_cons,
      List.sum_cons]
    rw [List.range_add, List.map_append, List.map_map, ← List.range_eq_range']
    congr 1
    apply List.map_congr_left
    intro g _
    simp only [Function.comp_apply]
    ring

/-- C10: for a well-formed section (`m < k`, every block with minimizer position `p` and
`n` k-mers satisfies `n - 1 <= p <= k - m`) loaded in an arena in which a record fits,
`prepare_kmer_matrix` returns `k - m + 1` columns; column `c` holds, in reading order, the
references of exactly the k-mers whose index `k - m - p + j` is `c`; no reference is in two
columns or twice in a column, and the number of references is the sum of the k-mer counts
of the blocks. -/
theorem prepare_kmer_matrix_columns (a : Arena) (sm : Section) (hk : sm.k < 2 ^ 32)
    (hm : sm.m < sm.k)
    (hb : ∀ block ∈ sm.blocks, sm.k + block.nb_kmers < 2 ^ 32 ∧
      block.nb_kmers ≤ block.mini_pos + 1 ∧ block.mini_pos ≤ sm.k - sm.m)
    (hfit : a.Fits (record_size sm)) :
    ∃ a' matrix, prepare_kmer_matrix a sm = some (a', matrix) ∧
      matrix.length = sm.k - sm.m + 1 ∧
      (∀ c, matrix.getD c [] =
        ((section_placements sm sm.blocks a.next_free).filter
          (fun e => decide (e.1 = c))).map Prod.snd) ∧
      matrix.flatten.Nodup ∧
      matrix.flatten.length = (sm.blocks.map Block.nb_kmers).sum := by
  have e1 : usub sm.k sm.m = sm.k - sm.m := usub_eq _ _ hk (by omega)
  have h0 : MatrixOf (List.replicate (sm.k - sm.m + 1) ([] : List Nat)) [] := by
    constructor
    · simp
    · intro c
      rw [List.getD_eq_getElem?_getD, List.getElem?_replicate]
      split <;> rfl
  obtain ⟨a', matrix, h1, h2, h3, h4⟩ := add_blocks_ok sm hm sm.blocks a _ [] hb
    (by simp) hfit h0
  simp only [List.nil_append] at h3 h4
  refine ⟨a', matrix, by simp only [prepare_kmer_matrix, e1]; exact h1, h2, h4, ?_, ?_⟩
  · rw [h3.nodup_iff, section_placements_refs]
    apply List.Nodup.map_on _ (List.nodup_range _)
    intro x _ y _ hxy
    have hr : 0 < record_size sm := by unfold record_size; omega
    have : x * record_size sm = y * record_size sm := by omega
    exact Nat.eq_of_mul_eq_mul_right hr this
  · rw [h3.length_eq, List.length_map, section_placements_length]

/-! ## The greedy tie-break -/

theorem choose_pred_eq_first_match (mem : List Nat) (nb : Nat) (h2 : 2 ≤ nb)
    (h32 : nb < 2 ^ 32) (avail : List Nat) (kmer : Nat) :
    choose_pred (subseq_to_uint mem) (sequence_compare mem) nb avail kmer =
      first_match mem nb avail kmer := by
  have e1 : usub nb 2 = nb - 2 := usub_eq nb 2 h32 h2
  have e2 : usub nb 1 = nb - 1 := usub_eq nb 1 h32 (by omega)
  unfold choose_pred first_match
  apply congrArg (fun p => List.find? p avail)
  funext c
  by_cases h : subrange mem c nb 1 (nb - 1) = subrange mem kmer nb 0 (nb - 2)
  · have hkey : suffix_key (subseq_to_uint mem) nb c = prefix_key (subseq_to_uint mem) nb kmer := by
      unfold suffix_key prefix_key subseq_to_uint
      rw [e1, e2, h]
    have hok : overlap_ok (sequence_compare mem) nb kmer c = true := by
      unfold overlap_ok sequence_compare
      rw [e1, e2, decide_eq_true_eq, lex_compare_eq_zero, h]
    rw [hkey, hok]
    simp [h]
  · have hok : overlap_ok (sequence_compare mem) nb kmer c = false := by
      unfold overlap_ok sequence_compare
      rw [e1, e2, decide_eq_false_iff_not, lex_compare_eq_zero]
      exact fun hc => h hc.symm
    rw [hok]
    simp [h]

theorem link_avail_eq_first_match (mem : List Nat) (nb : Nat) (h2 : 2 ≤ nb)
    (h32 : nb < 2 ^ 32) :
    link_avail (subseq_to_uint mem) (sequence_compare mem) nb = link_first_match mem nb := by
  funext st kmer
  simp only [link_avail, link_first_match, choose_pred_eq_first_match mem nb h2 h32]

theorem link_first_fold_seconds (mem : List Nat) (nb : Nat) (todo : List Nat) :
    ∀ (avail : List Nat) (asm : List Pair),
      ((todo.foldl (link_first_match mem nb) (avail, asm)).2).map Prod.snd =
        asm.map Prod.snd ++ todo := by
  induction todo with
  | nil => intro _ _; simp
  | cons x xs ih =>
    intro avail asm
    simp only [List.foldl_cons, link_first_match]
    cases first_match mem nb avail x with
    | none => simp only []; rw [ih]; simp
    | some c => simp only []; rw [ih]; simp

theorem first_match_columns_seconds (mem : List Nat) (nb : Nat) (kmers : List (List Nat))
    (n : Nat) :
    ((List.range n).foldl
      (fun asm i => ((kmers.getD (i + 1) []).foldl (link_first_match mem nb)
        (kmers.getD i [], asm)).2)
      ((kmers.getD 0 []).map (fun kmer => ((none : Option Nat), kmer)))).map Prod.snd =
      (kmers.take (n + 1)).flatten := by
  induction n with
  | zero =>
    rw [take_succ_flatten]
    simp [Function.comp_def]
  | succ n ih =>
    rw [List.range_succ, List.foldl_append, List.foldl_cons, List.foldl_nil,
      link_first_fold_seconds, ih, take_succ_flatten kmers (n + 1)]

/-- C7: with `k - m >= 2`, `greedy_assembly` returns the list of pairs of the assembler
without hash index: a k-mer of column `i+1` gets as predecessor the earliest, in the
iteration order of column `i`, of the not yet consumed k-mers of column `i` whose
`(k-m-1)`-nucleotide suffix is its prefix. Both sides are functions of the matrix, so two
runs give the same pairs and the same paths. -/
theorem greedy_tie_break (mem : List Nat) (k m : Nat) (kmers : List (List Nat))
    (hk : k < 2 ^ 32) (hm : m + 2 ≤ k) :
    greedy_assembly (subseq_to_uint mem) (sequence_compare mem) k m kmers =
      greedy_first_match mem k m kmers := by
  have hnb : usub k m = k - m := usub_eq k m hk (by omega)
  have hcol : link_column (subseq_to_uint mem) (sequence_compare mem) (k - m) kmers =
      fun asm i => ((kmers.getD (i + 1) []).foldl (link_first_match mem (k - m))
        (kmers.getD i [], asm)).2 := by
    funext asm i
    rw [link_column_eq, link_avail_eq_first_match mem (k - m) (by omega) (by omega)]
  have hs := first_match_columns_seconds mem (k - m) kmers (k - m)
  rw [take_succ_flatten] at hs
  obtain ⟨pre, sp, h1, -, h3⟩ := List.map_eq_append_iff.mp hs
  have := last_kmer_fold (kmers.getD (k - m) []) pre sp [] h3
  simp only [List.append_nil] at this
  simp only [greedy_assembly, greedy_first_match, hnb, hcol]
  rw [h1, this]

theorem greedy_tie_break_witness :
    greedy_assembly (subseq_to_uint [7, 39, 30]) (sequence_compare [7, 39, 30]) 5 2
        [[0, 1], [2], [], []] =
      greedy_first_match [7, 39, 30] 5 2 [[0, 1], [2], [], []] :=
  greedy_tie_break [7, 39, 30] 5 2 [[0, 1], [2], [], []] (by norm_num) (by norm_num)

/-! ## Concrete sections -/

set_option maxRecDepth 100000 in
/-- C8: `k = 5`, `m = 2`, `data_size = 1`, one block of two k-mers with windows ACG and CGT
and payloads 1 and 2, whatever the minimizer position `p` of the block: the pipeline
`prepare_kmer_matrix`, `greedy_assembly`, `pairs_to_paths` gives one path, whose two k-mers
are ACG then CGT, and `write_paths` makes one call with 4 nucleotides ACGT (zero padding),
payloads 1, 2 and minimizer offset `p`. -/
theorem scenario_acg_cgt : ∀ p ∈ [1, 2, 3],
    (section_paths Arena.init 5 2 (section_5_2 2 [block_acgt p])).map
        (fun r => r.2.map (List.map (fun kmer => (List.range 3).map (nucleotide r.1 kmer 3)))) =
      some [[[0, 1, 3], [1, 3, 2]]] ∧
    (compact_section Arena.init 5 2 1 4 (section_5_2 2 [block_acgt p])).map
        (List.map (fun s => (s.seq_size, (List.range s.seq_size).map
          (nucleotide s.seq 0 s.seq_size), s.seq.take 1, s.data.take 2, s.mini_pos))) =
      some [(4, [0, 1, 3, 2], [0x1E], [1, 2], p)] := by
  intro p hp
  simp only [List.mem_cons, List.mem_singleton, List.not_mem_nil, or_false] at hp
  rcases hp with rfl | rfl | rfl <;> exact ⟨by decide, by decide⟩

theorem scenario_acg_cgt_witness :
    (section_paths Arena.init 5 2 (section_5_2 2 [block_acgt 1])).map
        (fun r => r.2.map (List.map (fun kmer => (List.range 3).map (nucleotide r.1 kmer 3)))) =
      some [[[0, 1, 3], [1, 3, 2]]] ∧
    (compact_section Arena.init 5 2 1 4 (section_5_2 2 [block_acgt 1])).map
        (List.map (fun s => (s.seq_size, (List.range s.seq_size).map
          (nucleotide s.seq 0 s.seq_size), s.seq.take 1, s.data.take 2, s.mini_pos))) =
      some [(4, [0, 1, 3, 2], [0x1E], [1, 2], 1)] :=
  scenario_acg_cgt 1 (by decide)

set_option maxRecDepth 100000 in
/-- C6: with `k = 5`, `m = 2`, `max = 253` in the input and in the output, the offset
field is written on 2 bytes by `prepare_kmer_matrix` (width from `k + max - 1 = 257`) and
read on 1 byte by `write_paths` (width from `max + k - m = 256`): the record of the first
k-mer of the path stores the offset 3, and `write_paths` hands the offset 0 to the
writer. -/
theorem mini_pos_width_mismatch :
    (ceil_log2 (5 + 253 - 1) + 7) / 8 = 2 ∧ (ceil_log2 (253 + 5 - 2) + 7) / 8 = 1 ∧
    (section_paths Arena.init 5 2 (section_5_2 253 [block_acgt 3])).map
        (fun r => (r.2, read_mini_pos r.1 (0 + (5 - 2 + 3) / 4 + 1) 2)) =
      some ([[0, 4]], 3) ∧
    (compact_section Arena.init 5 2 1 253 (section_5_2 253 [block_acgt 3])).map
        (List.map Skmer.mini_pos) = some [0] :=
  ⟨by decide, by decide, by decide, by decide⟩

set_option maxRecDepth 100000 in
/-- C9: with `k = 5`, `m = 2`, `max = 253`, two blocks of one k-mer each, ACG and TTT,
which do not overlap: two paths of length 1, each emitted with its 3 nucleotides and its
payload, but with the minimizer offset 0 where the records store 2 and 1. -/
theorem singleton_offset_mismatch :
    (section_paths Arena.init 5 2 (section_5_2 253 [block_acg, block_ttt])).map
        (fun r => (r.2, r.2.map (List.map (fun kmer =>
          read_mini_pos r.1 (kmer + (5 - 2 + 3) / 4 + 1) 2)))) =
      some ([[0], [4]], [[2], [1]]) ∧
    (compact_section Arena.init 5 2 1 253 (section_5_2 253 [block_acg, block_ttt])).map
        (List.map (fun s => (s.seq_size, (List.range s.seq_size).map
          (nucleotide s.seq 0 s.seq_size), s.data.take 1, s.mini_pos))) =
      some [(3, [0, 1, 3], [1], 0), (3, [2, 2, 2], [2], 0)] :=
  ⟨by decide, by decide⟩

set_option maxRecDepth 100000 in
/-- The tie-break on a column with two candidates of suffix CG (ACG at 0, TCG at 1) for the
k-mer CGT: the earlier one, ACG, is linked. -/
theorem greedy_tie_break_example :
    greedy_assembly (subseq_to_uint [7, 39, 30]) (sequence_compare [7, 39, 30]) 5 2
        [[0, 1], [2], [], []] = [(none, 0), (none, 1), (some 0, 2)] := by
  decide

set_option maxRecDepth 100000 in
theorem prepare_kmer_matrix_columns_witness :
    ∃ a' matrix, prepare_kmer_matrix Arena.init (section_5_2 2 [block_acgt 1]) =
        some (a', matrix) ∧
      matrix.length = (section_5_2 2 [block_acgt 1]).k - (section_5_2 2 [block_acgt 1]).m + 1 ∧
      (∀ c, matrix.getD c [] =
        ((section_placements (section_5_2 2 [block_acgt 1])
          (section_5_2 2 [block_acgt 1]).blocks Arena.init.next_free).filter
          (fun e => decide (e.1 = c))).map Prod.snd) ∧
      matrix.flatten.Nodup ∧
      matrix.flatten.length =
        ((section_5_2 2 [block_acgt 1]).blocks.map Block.nb_kmers).sum :=
  prepare_kmer_matrix_columns Arena.init (section_5_2 2 [block_acgt 1]) (by decide)
    (by decide) (by decide) ⟨by decide, by decide, by decide⟩

/-! ## Sections without overlap -/

theorem link_avail_fold_none (h : Nat → Nat → Nat → Nat → Nat)
    (cmp : Nat → Nat → Nat → Nat → Nat → Nat → Nat → Nat → Int) (nb : Nat)
    (col todo : List Nat) :
    (∀ s ∈ todo, ∀ c ∈ col, overlap_ok cmp nb s c = false) →
    ∀ asm, todo.foldl (link_avail h cmp nb) (col, asm) =
      (col, asm ++ todo.map (fun s => ((none : Option Nat), s))) := by
  induction todo with
  | nil => intro _ asm; simp
  | cons x xs ih =>
    intro hno asm
    have hnone : choose_pred h cmp nb col x = none := by
      unfold choose_pred
      rw [List.find?_eq_none]
      intro c hc
      rw [hno x (List.mem_cons_self _ _) c hc]
      simp
    simp only [List.foldl_cons, link_avail, hnone]
    rw [ih (fun s hs => hno s (List.mem_cons_of_mem _ hs))]
    simp

theorem link_columns_none (h : Nat → Nat → Nat → Nat → Nat)
    (cmp : Nat → Nat → Nat → Nat → Nat → Nat → Nat → Nat → Int) (nb : Nat)
    (kmers : List (List Nat))
    (hno : ∀ i, ∀ c ∈ kmers.getD i [], ∀ s ∈ kmers.getD (i + 1) [],
      overlap_ok cmp nb s c = false) (n : Nat) :
    (List.range n).foldl (link_column h cmp nb kmers)
        ((kmers.getD 0 []).map (fun kmer => (none, kmer))) =
      ((kmers.take (n + 1)).flatten).map (fun s => ((none : Option Nat), s)) := by
  induction n with
  | zero =>
    rw [take_succ_flatten]
    simp
  | succ n ih =>
    rw [List.range_succ, List.foldl_append, List.foldl_cons, List.foldl_nil, ih,
      link_column_eq, link_avail_fold_none h cmp nb _ _ (fun s hs c hc => hno n c hc s hs),
      take_succ_flatten kmers (n + 1), List.map_append]

/-- Without overlap between adjacent columns every k-mer starts a chain. -/
theorem greedy_no_overlap (h : Nat → Nat → Nat → Nat → Nat)
    (cmp : Nat → Nat → Nat → Nat → Nat → Nat → Nat → Nat → Int) (k m : Nat)
    (kmers : List (List Nat))
    (hno : ∀ i, ∀ c ∈ kmers.getD i [], ∀ s ∈ kmers.getD (i + 1) [],
      overlap_ok cmp (usub k m) s c = false) :
    greedy_assembly h cmp k m kmers =
      ((kmers.take (usub k m + 1)).flatten).map (fun s => ((none : Option Nat), s)) := by
  have h1 := link_columns_none h cmp (usub k m) kmers hno (usub k m)
  have hs : ((kmers.take (usub k m + 1)).flatten.map
      (fun s => ((none : Option Nat), s))).map Prod.snd =
      (kmers.take (usub k m)).flatten ++ kmers.getD (usub k m) [] := by
    rw [List.map_map, ← take_succ_flatten]
    simp [Function.comp_def]
  obtain ⟨pre, sp, h2, -, h3⟩ := List.map_eq_append_iff.mp hs
  have := last_kmer_fold (kmers.getD (usub k m) []) pre sp [] h3
  simp only [List.append_nil] at this
  simp only [greedy_assembly, h1]
  rw [h2, this]

theorem pairs_loop_all_none (l : List Nat) : ∀ st : PathState,
    ∃ st', pairs_loop (l.map (fun s => ((none : Option Nat), s))) st = some st' ∧
      st'.paths = st.paths ++ l.map (fun s => [s]) := by
  induction l with
  | nil => intro st; exact ⟨st, rfl, by simp⟩
  | cons x xs ih =>
    intro st
    obtain ⟨st', h1, h2⟩ := ih (PathState.mk (st.paths ++ [[x]])
      (map_set st.path_registry x st.paths.length))
    refine ⟨st', ?_, ?_⟩
    · simp only [List.map_cons, pairs_loop, pairs_step]
      exact h1
    · rw [h2]
      simp

theorem pairs_to_paths_all_none (l : List Nat) :
    pairs_to_paths (l.map (fun s => ((none : Option Nat), s))) = some (l.map (fun s => [s])) := by
  obtain ⟨st', h1, h2⟩ := pairs_loop_all_none l (PathState.mk [] (fun _ => none))
  simp only [pairs_to_paths, h1, Option.map_some', h2, List.nil_append]

/-- The part of C9 that holds: in a matrix in which no k-mer of a column `i+1` passes the
overlap test against a k-mer of column `i`, the paths are the `N` k-mers as paths of length
1, in matrix order, and each one is handed to the writer with `k - m` nucleotides, those of
its window, and with its payload, when the size `(k - m + 1) * data_size` of the data buffer
is a `uint` value. The minimizer offset handed over is the value of the
bytes behind the payload read with the width of `write_paths`. -/
theorem no_overlap_singletons (mem : List Nat) (hmem : ∀ x ∈ mem, x < 256)
    (hash : Nat → Nat → Nat → Nat → Nat)
    (cmp : Nat → Nat → Nat → Nat → Nat → Nat → Nat → Nat → Int)
    (k m data_size max : Nat) (kmers : List (List Nat)) (hk : k < 2 ^ 30) (hm : m < k)
    (hds : (k - m + 1) * data_size < 2 ^ 32) (hlen : kmers.length = k - m + 1)
    (hno : ∀ i, ∀ c ∈ kmers.getD i [], ∀ s ∈ kmers.getD (i + 1) [],
      overlap_ok cmp (k - m) s c = false) :
    pairs_to_paths (greedy_assembly hash cmp k m kmers) =
        some (kmers.flatten.map (fun s => [s])) ∧
      ∀ r ∈ kmers.flatten, ∃ out, write_path mem k m data_size max [r] = some out ∧
        out.seq_size = k - m ∧
        (∀ i < k - m, nucleotide out.seq 0 (k - m) i = nucleotide mem r (k - m) i) ∧
        out.data.take data_size = read_bytes mem (r + (k - m + 3) / 4) data_size ∧
        out.mini_pos = read_mini_pos mem (r + (k - m + 3) / 4 + data_size)
          ((ceil_log2 (max + k - m) + 7) / 8) := by
  have hnb : usub k m = k - m := usub_eq k m (by omega) (le_of_lt hm)
  constructor
  · rw [greedy_no_overlap hash cmp k m kmers (by rw [hnb]; exact hno), hnb, ← hlen,
      List.take_length, pairs_to_paths_all_none]
  · intro r _
    obtain ⟨out, h1, h2, h3, -⟩ := write_path_nucleotides mem hmem k m data_size max [r] hk hm
      hds (by simp) (by simp)
    obtain ⟨out', h1', -, h4⟩ := write_path_entries mem hmem k m data_size max [r] hk
      (le_of_lt hm) hds (by simp) (by simp)
    obtain ⟨out'', h1'', -, h5, -⟩ := write_path_spec mem hmem k m data_size max r [] hk hm
      hds (by simp)
    rw [h1] at h1' h1''
    injection h1' with h1'
    injection h1'' with h1''
    subst h1' h1''
    have hsz : out.seq_size = k - m := by
      rw [h2]; simp only [List.length_singleton]; omega
    refine ⟨out, h1, hsz, ?_, ?_, h5⟩
    · intro i hi
      have := h3 i (by rw [hsz]; exact hi)
      rw [if_pos hi, hsz] at this
      simpa using this
    · have := h4 0 (by simp)
      simpa using this

/-! ## The width of the minimizer-offset field -/

theorem ceil_log2_spec (n : Nat) (hn : n ≤ 2 ^ 64) : n ≤ 2 ^ ceil_log2 n := by
  unfold ceil_log2
  cases h : (List.range 64).find? (fun b => decide (n ≤ 2 ^ b)) with
  | none => simpa using hn
  | some b =>
    have := List.find?_some h
    simpa using this

theorem ceil_log2_le (n : Nat) : ceil_log2 n ≤ 64 := by
  unfold ceil_log2
  cases h : (List.range 64).find? (fun b => decide (n ≤ 2 ^ b)) with
  | none => simp
  | some b =>
    have := List.mem_range.mp (List.mem_of_find?_eq_some h)
    simp only [Option.getD_some]
    omega

theorem ceil_log2_le_of_le (n b : Nat) (hb : b < 64) (hn : n ≤ 2 ^ b) : ceil_log2 n ≤ b := by
  unfold ceil_log2
  cases h : (List.range 64).find? (fun c => decide (n ≤ 2 ^ c)) with
  | none =>
    rw [List.find?_eq_none] at h
    have := h b (List.mem_range.mpr hb)
    simp only [decide_eq_true_eq] at this
    exact absurd hn this
  | some c =>
    simp only [Option.getD_some]
    obtain ⟨-, as, bs, hsplit, hbefore⟩ := List.find?_eq_some.mp h
    by_contra hc
    have hmem : b ∈ as := by
      have hb' : b ∈ List.range 64 := List.mem_range.mpr hb
      rw [hsplit] at hb'
      rcases List.mem_append.mp hb' with h1 | h1
      · exact h1
      · exfalso
        have hsorted : (as ++ c :: bs).Pairwise (· < ·) := by
          rw [← hsplit]; exact List.pairwise_lt_range 64
        rw [List.pairwise_append] at hsorted
        rcases List.mem_cons.mp h1 with h2 | h2
        · omega
        · have := (List.pairwise_cons.mp hsorted.2.1).1 b h2
          omega
    have := hbefore b hmem
    simp only [Bool.not_eq_true', decide_eq_false_iff_not] at this
    exact this hn

theorem width_holds (n value : Nat) (hn : n ≤ 2 ^ 64) (hv : value < n) :
    value < 256 ^ ((ceil_log2 n + 7) / 8) := by
  have h1 := ceil_log2_spec n hn
  have h2 : (2 : Nat) ^ ceil_log2 n ≤ 2 ^ (8 * ((ceil_log2 n + 7) / 8)) :=
    Nat.pow_le_pow_right (by norm_num) (by omega)
  have h3 : (256 : Nat) ^ ((ceil_log2 n + 7) / 8) = 2 ^ (8 * ((ceil_log2 n + 7) / 8)) := by
    rw [show (256 : Nat) = 2 ^ 8 by norm_num, ← Nat.pow_mul]
  omega

/-- C14: for `k >= m` (with `k - m + 1` in the range of `uint`), the `mini_pos_size`
that `compact_section` computes from `max_nucl = k - m + 1` holds every minimizer offset of
a k-mer: every `o <= k - m` is below `256 ^ mini_pos_size`; for `k = m` the size is 0 bytes
and the only offset, 0, is below `256 ^ 0`. -/
theorem mini_pos_size_holds (k m : Nat) (hm : m ≤ k) (hk : k < 2 ^ 32)
    (hnw : k - m + 1 < 2 ^ 32) :
    (∀ o, o ≤ k - m → o < 256 ^ mini_pos_size k m) ∧
      (k = m → mini_pos_size k m = 0) := by
  have e1 : usub k m = k - m := usub_eq k m hk hm
  have e2 : (k - m + 1) % 2 ^ 32 = k - m + 1 := Nat.mod_eq_of_lt hnw
  constructor
  · intro o ho
    unfold mini_pos_size
    rw [e1, e2]
    exact width_holds (k - m + 1) o (by omega) (by omega)
  · intro hkm
    unfold mini_pos_size
    rw [e1, e2, hkm, Nat.sub_self]
    have : ceil_log2 (0 + 1) ≤ 0 := ceil_log2_le_of_le 1 0 (by norm_num) (by norm_num)
    omega

theorem mini_pos_size_holds_witness :
    (∀ o, o ≤ 31 - 10 → o < 256 ^ mini_pos_size 31 10) ∧
      (31 = 10 → mini_pos_size 31 10 = 0) :=
  mini_pos_size_holds 31 10 (by decide) (by decide) (by decide)

theorem mini_pos_size_le_four (k m : Nat) : mini_pos_size k m ≤ 4 := by
  unfold mini_pos_size
  have h1 : (usub k m + 1) % 2 ^ 32 ≤ 2 ^ 32 := le_of_lt (Nat.mod_lt _ (by norm_num))
  have := ceil_log2_le_of_le _ 32 (by norm_num) h1
  omega

/-! ## Arena records -/

theorem read_mini_pos_upto (mem : List Nat) (ptr size v : Nat)
    (hb : ∀ b < size, mem.getD (ptr + b) 0 = v / 256 ^ (size - 1 - b) % 256)
    (hv : v < 256 ^ size) (h32 : v < 2 ^ 32) (n : Nat) (hn : n ≤ size) :
    (List.range n).foldl
      (fun mini_pos b => (mini_pos * 2 ^ 8 % 2 ^ 32 + mem.getD (ptr + b) 0) % 2 ^ 32) 0 =
      v / 256 ^ (size - n) := by
  induction n with
  | zero =>
    simp only [List.range_zero, List.foldl_nil, Nat.sub_zero]
    exact (Nat.div_eq_of_lt hv).symm
  | succ n ih =>
    rw [List.range_succ, List.foldl_append, List.foldl_cons, List.foldl_nil, ih (by omega),
      hb n (by omega)]
    have e1 : size - n = (size - 1 - n) + 1 := by omega
    have e2 : size - (n + 1) = size - 1 - n := by omega
    rw [e1, e2, Nat.pow_succ, ← Nat.div_div_eq_div_mul]
    have h1 := Nat.div_add_mod (v / 256 ^ (size - 1 - n)) 256
    have h2 : v / 256 ^ (size - 1 - n) ≤ v := Nat.div_le_self _ _
    omega

/-- Reading back a big-endian field of `size` bytes gives the value written, when the value
fits the field and the `uint` accumulator. -/
theorem read_mini_pos_eq (mem : List Nat) (ptr size v : Nat)
    (hb : ∀ b < size, mem.getD (ptr + b) 0 = v / 256 ^ (size - 1 - b) % 256)
    (hv : v < 256 ^ size) (h32 : v < 2 ^ 32) :
    read_mini_pos mem ptr size = v := by
  unfold read_mini_pos
  rw [read_mini_pos_upto mem ptr size v hb hv h32 size (le_refl _)]
  simp

theorem mini_pos_bytes_getD (size value b : Nat) (hb : b < size) :
    (mini_pos_bytes size value).getD b 0 = value / 256 ^ (size - 1 - b) % 256 := by
  rw [mini_pos_bytes, getD_map_range, if_pos hb]

theorem read_bytes_eq_of_getD (mem mem' : List Nat) (ptr ptr' len : Nat)
    (h : ∀ i < len, mem.getD (ptr + i) 0 = mem'.getD (ptr' + i) 0) :
    read_bytes mem ptr len = read_bytes mem' ptr' len := by
  unfold read_bytes
  apply List.map_congr_left
  intro i hi
  exact h i (List.mem_range.mp hi)

theorem getD_append_zeros (l : List Nat) (n q : Nat) :
    (l ++ List.replicate n 0).getD q 0 = l.getD q 0 := by
  simp only [List.getD_eq_getElem?_getD]
  by_cases h : q < l.length
  · rw [List.getElem?_append_left h]
  · rw [List.getElem?_append_right (by omega), List.getElem?_eq_none (show l.length ≤ q by omega),
      List.getElem?_replicate]
    split <;> rfl

theorem grow_getD (a : Arena) (size q : Nat) :
    (a.grow size).kmer_buffer.getD q 0 = a.kmer_buffer.getD q 0 := by
  unfold Arena.grow
  split
  · exact getD_append_zeros _ _ _
  · rfl

/-- The record that `add_kmer_to_buffer` writes: position, new `next_free`, the three
fields, and the offset read back by `mini_pos_from_buffer`. -/
theorem add_kmer_to_buffer_spec (bc ds mps : Nat) (a : Arena) (seq data : List Nat)
    (mini_pos : Nat) (hfit : a.Fits (bc + ds + mps)) (hmp : mini_pos < 256 ^ mps)
    (h32 : mini_pos < 2 ^ 32) :
    ∃ a', add_kmer_to_buffer bc ds mps a seq data mini_pos = some (a', a.next_free) ∧
      a'.next_free = a.next_free + (bc + ds + mps) ∧
      read_bytes a'.kmer_buffer a.next_free bc = read_bytes seq 0 bc ∧
      read_bytes a'.kmer_buffer (a.next_free + bc) ds = read_bytes data 0 ds ∧
      read_bytes a'.kmer_buffer (a.next_free + bc + ds) mps = mini_pos_bytes mps mini_pos ∧
      mini_pos_from_buffer bc ds mps a'.kmer_buffer a.next_free = mini_pos ∧
      (∀ q < a.next_free, a'.kmer_buffer.getD q 0 = a.kmer_buffer.getD q 0) := by
  obtain ⟨⟨g1, g2, g3⟩, hnf, hroom⟩ := grow_fits a (bc + ds + mps) hfit
  have e64 : mini_pos % 2 ^ 64 = mini_pos := Nat.mod_eq_of_lt (by omega)
  obtain ⟨b1, hb1, hbl1⟩ := memcpy_some (a.grow (bc + ds + mps)).kmer_buffer
    (read_bytes seq 0 bc) (a.grow (bc + ds + mps)).next_free
    (by rw [read_bytes_length, g1]; omega)
  obtain ⟨b2, hb2, hbl2⟩ := memcpy_some b1 (read_bytes data 0 ds)
    ((a.grow (bc + ds + mps)).next_free + bc) (by rw [read_bytes_length, hbl1, g1]; omega)
  obtain ⟨b3, hb3, hbl3⟩ := memcpy_some b2 (mini_pos_bytes mps mini_pos)
    ((a.grow (bc + ds + mps)).next_free + bc + ds)
    (by rw [mini_pos_bytes_length, hbl2, hbl1, g1]; omega)
  have hget : ∀ q, b3.getD q 0 =
      if a.next_free + bc + ds ≤ q ∧ q < a.next_free + bc + ds + mps then
        (mini_pos_bytes mps mini_pos).getD (q - (a.next_free + bc + ds)) 0
      else if a.next_free + bc ≤ q ∧ q < a.next_free + bc + ds then
        (read_bytes data 0 ds).getD (q - (a.next_free + bc)) 0
      else if a.next_free ≤ q ∧ q < a.next_free + bc then
        (read_bytes seq 0 bc).getD (q - a.next_free) 0
      else a.kmer_buffer.getD q 0 := by
    intro q
    rw [memcpy_getD _ _ _ _ q hb3, memcpy_getD _ _ _ _ q hb2, memcpy_getD _ _ _ _ q hb1,
      mini_pos_bytes_length, read_bytes_length, read_bytes_length, hnf, grow_getD]
  have hfield : ∀ b < mps, b3.getD (a.next_free + bc + ds + b) 0 =
      mini_pos / 256 ^ (mps - 1 - b) % 256 := by
    intro b hb
    rw [hget, if_pos (by omega), ← mini_pos_bytes_getD mps mini_pos _ (by omega)]
    congr 1
    omega
  refine ⟨{ kmer_buffer := b3, buffer_size := (a.grow (bc + ds + mps)).buffer_size,
            next_free := (a.grow (bc + ds + mps)).next_free + (bc + ds + mps) },
    ?_, ?_, ?_, ?_, ?_, ?_, ?_⟩
  · rw [hnf] at hb1 hb2 hb3
    simp only [add_kmer_to_buffer, e64, hnf, hb1, hb2, hb3]
  · simp only [hnf]
  · apply read_bytes_eq_of_getD
    intro i hi
    simp only
    rw [hget, if_neg (by omega), if_neg (by omega), if_pos (by omega), read_bytes_getD,
      if_pos (by omega)]
    congr 1
    omega
  · apply read_bytes_eq_of_getD
    intro i hi
    simp only
    rw [hget, if_neg (by omega), if_pos (by omega), read_bytes_getD, if_pos (by omega)]
    congr 1
    omega
  · apply List.ext_getElem
    · rw [read_bytes_length, mini_pos_bytes_length]
    · intro i h1 h2
      rw [read_bytes_length] at h1
      have := hfield i h1
      rw [← List.getD_eq_getElem _ 0 h2, mini_pos_bytes_getD _ _ _ h1, ← this,
        ← List.getD_eq_getElem _ 0 (by rw [read_bytes_length]; exact h1), read_bytes_getD,
        if_pos h1]
  · exact read_mini_pos_eq _ _ _ _ hfield hmp h32
  · intro q hq
    simp only
    rw [hget, if_neg (by omega), if_neg (by omega), if_neg (by omega)]

/-- C12: with the fields set by `compact_section` for `k`, `m`, `data_size`, in an arena in
which the record fits, `add_kmer_to_buffer seq data mini_pos` with
`mini_pos < 256 ^ mini_pos_size` returns the former `next_free`, advances `next_free` by
`bytes_compacted + data_size + mini_pos_size`, leaves at the returned offset the
`bytes_compacted` bytes of `seq`, then the `data_size` bytes of `data`, then `mini_pos` in
big-endian on `mini_pos_size` bytes, and `mini_pos_from_buffer` on that record returns
`mini_pos`. -/
theorem add_kmer_to_buffer_roundtrip (k m data_size : Nat) (a : Arena) (seq data : List Nat)
    (mini_pos : Nat)
    (hfit : a.Fits (bytes_compacted k m + data_size + mini_pos_size k m))
    (hmp : mini_pos < 256 ^ mini_pos_size k m) :
    ∃ a', add_kmer_to_buffer (bytes_compacted k m) data_size (mini_pos_size k m) a seq data
        mini_pos = some (a', a.next_free) ∧
      a'.next_free = a.next_free + (bytes_compacted k m + data_size + mini_pos_size k m) ∧
      read_bytes a'.kmer_buffer a.next_free (bytes_compacted k m) =
        read_bytes seq 0 (bytes_compacted k m) ∧
      read_bytes a'.kmer_buffer (a.next_free + bytes_compacted k m) data_size =
        read_bytes data 0 data_size ∧
      read_bytes a'.kmer_buffer (a.next_free + bytes_compacted k m + data_size)
        (mini_pos_size k m) = mini_pos_bytes (mini_pos_size k m) mini_pos ∧
      mini_pos_from_buffer (bytes_compacted k m) data_size (mini_pos_size k m)
        a'.kmer_buffer a.next_free = mini_pos := by
  have h4 := mini_pos_size_le_four k m
  have h32 : mini_pos < 2 ^ 32 := by
    have : (256 : Nat) ^ mini_pos_size k m ≤ 256 ^ 4 :=
      Nat.pow_le_pow_right (by norm_num) h4
    have e : (256 : Nat) ^ 4 = 2 ^ 32 := by norm_num
    omega
  obtain ⟨a', h1, h2, h3, h5, h6, h7, -⟩ := add_kmer_to_buffer_spec (bytes_compacted k m)
    data_size (mini_pos_size k m) a seq data mini_pos hfit hmp h32
  exact ⟨a', h1, h2, h3, h5, h6, h7⟩

set_option maxRecDepth 100000 in
theorem add_kmer_to_buffer_roundtrip_witness :
    ∃ a', add_kmer_to_buffer (bytes_compacted 5 2) 1 (mini_pos_size 5 2) Arena.init [7] [1]
        2 = some (a', Arena.init.next_free) ∧
      a'.next_free = Arena.init.next_free + (bytes_compacted 5 2 + 1 + mini_pos_size 5 2) ∧
      read_bytes a'.kmer_buffer Arena.init.next_free (bytes_compacted 5 2) =
        read_bytes [7] 0 (bytes_compacted 5 2) ∧
      read_bytes a'.kmer_buffer (Arena.init.next_free + bytes_compacted 5 2) 1 =
        read_bytes [1] 0 1 ∧
      read_bytes a'.kmer_buffer (Arena.init.next_free + bytes_compacted 5 2 + 1)
        (mini_pos_size 5 2) = mini_pos_bytes (mini_pos_size 5 2) 2 ∧
      mini_pos_from_buffer (bytes_compacted 5 2) 1 (mini_pos_size 5 2)
        a'.kmer_buffer Arena.init.next_free = 2 :=
  add_kmer_to_buffer_roundtrip 5 2 1 Arena.init [7] [1] 2
    ⟨by decide, by decide, by decide⟩ (by decide)

theorem memcpy_none (dst src : List Nat) (pos : Nat) (h : dst.length < pos + src.length) :
    memcpy dst pos src = none := by
  simp only [memcpy]
  rw [if_neg (by omega)]

/-- When the record does not fit after the growth step, a copy of `add_kmer_to_buffer`
leaves the buffer. -/
theorem add_kmer_to_buffer_overflow (bc ds mps : Nat) (a : Arena) (seq data : List Nat)
    (mini_pos : Nat) (hlen : a.kmer_buffer.length = a.buffer_size)
    (hover : (a.grow (bc + ds + mps)).buffer_size <
      (a.grow (bc + ds + mps)).next_free + (bc + ds + mps)) :
    add_kmer_to_buffer bc ds mps a seq data mini_pos = none := by
  have hg : (a.grow (bc + ds + mps)).kmer_buffer.length =
      (a.grow (bc + ds + mps)).buffer_size := by
    unfold Arena.grow
    split
    · simp only [List.length_append, List.length_replicate, hlen]; omega
    · exact hlen
  simp only [add_kmer_to_buffer]
  cases h1 : memcpy (a.grow (bc + ds + mps)).kmer_buffer (a.grow (bc + ds + mps)).next_free
      (read_bytes seq 0 bc) with
  | none => rfl
  | some b1 =>
    have l1 := memcpy_length _ _ _ _ h1
    simp only []
    cases h2 : memcpy b1 ((a.grow (bc + ds + mps)).next_free + bc) (read_bytes data 0 ds) with
    | none => rfl
    | some b2 =>
      have l2 := memcpy_length _ _ _ _ h2
      simp only []
      rw [memcpy_none b2 _ _ (by rw [mini_pos_bytes_length, l2, l1, hg]; omega)]

/-- When the record does not fit after the growth step, a copy of the loop body of
`prepare_kmer_matrix` leaves the buffer. -/
theorem add_kmer_overflow (sm : Section) (block : Block) (a : Arena)
    (matrix : List (List Nat)) (j : Nat) (hlen : a.kmer_buffer.length = a.buffer_size)
    (hover : (a.grow ((usub sm.k sm.m + 3) / 4 + sm.data_size +
        (ceil_log2 (sm.k + sm.max - 1) + 7) / 8)).buffer_size <
      (a.grow ((usub sm.k sm.m + 3) / 4 + sm.data_size +
        (ceil_log2 (sm.k + sm.max - 1) + 7) / 8)).next_free +
        ((usub sm.k sm.m + 3) / 4 + sm.data_size + (ceil_log2 (sm.k + sm.max - 1) + 7) / 8)) :
    add_kmer sm block (a, matrix) j = none := by
  have hg : (a.grow ((usub sm.k sm.m + 3) / 4 + sm.data_size +
      (ceil_log2 (sm.k + sm.max - 1) + 7) / 8)).kmer_buffer.length =
      (a.grow ((usub sm.k sm.m + 3) / 4 + sm.data_size +
        (ceil_log2 (sm.k + sm.max - 1) + 7) / 8)).buffer_size := by
    unfold Arena.grow
    split
    · simp only [List.length_append, List.length_replicate, hlen]; omega
    · exact hlen
  simp only [add_kmer]
  split
  · rfl
  · rename_i b1 h1
    have l1 := memcpy_length _ _ _ _ h1
    split
    · rfl
    · rename_i b2 h2
      have l2 := memcpy_length _ _ _ _ h2
      rw [memcpy_none b2 _ _ (by rw [mini_pos_bytes_length, l2, l1, hg]; omega)]

/-- When the record does not fit after the growth step, `prepare_kmer_matrix` on a
section whose first block holds a k-mer leaves the buffer. -/
theorem prepare_kmer_matrix_overflow (a : Arena) (sm : Section) (block : Block)
    (rest : List Block) (hb : sm.blocks = block :: rest) (hnb : block.nb_kmers ≠ 0)
    (hlen : a.kmer_buffer.length = a.buffer_size)
    (hover : (a.grow ((usub sm.k sm.m + 3) / 4 + sm.data_size +
        (ceil_log2 (sm.k + sm.max - 1) + 7) / 8)).buffer_size <
      (a.grow ((usub sm.k sm.m + 3) / 4 + sm.data_size +
        (ceil_log2 (sm.k + sm.max - 1) + 7) / 8)).next_free +
        ((usub sm.k sm.m + 3) / 4 + sm.data_size + (ceil_log2 (sm.k + sm.max - 1) + 7) / 8)) :
    prepare_kmer_matrix a sm = none := by
  obtain ⟨n, hn⟩ := Nat.exists_eq_succ_of_ne_zero hnb
  simp only [prepare_kmer_matrix, hb, add_blocks, hn, add_kmers]
  rw [add_kmer_overflow _ _ _ _ _ hlen hover]

set_option maxRecDepth 100000 in
/-- C13: with `k = 5`, `m = 2`, `data_size = 3000` the record has 3002 bytes; in the arena
of the constructor (1024 bytes, `next_free = 0`) the growth step doubles once, the free
space is 2048 bytes, below the record size, and a copy of the record leaves the buffer, in
`add_kmer_to_buffer` and in `prepare_kmer_matrix`. -/
theorem growth_insufficient :
    bytes_compacted 5 2 + 3000 + mini_pos_size 5 2 = 3002 ∧
    (Arena.init.grow 3002).buffer_size - (Arena.init.grow 3002).next_free = 2048 ∧
    (∀ seq data mini_pos, add_kmer_to_buffer (bytes_compacted 5 2) 3000 (mini_pos_size 5 2)
      Arena.init seq data mini_pos = none) ∧
    (∀ block, prepare_kmer_matrix Arena.init
      { k := 5, m := 2, max := 1, data_size := 3000,
        blocks := [{ seq := block, data := List.replicate 3000 1, mini_pos := 2,
                     nb_kmers := 1 }] } = none) := by
  have hlen : Arena.init.kmer_buffer.length = Arena.init.buffer_size := by decide
  refine ⟨by decide, by decide, ?_, ?_⟩
  · intro seq data mini_pos
    apply add_kmer_to_buffer_overflow _ _ _ _ _ _ _ hlen
    decide
  · intro block
    refine prepare_kmer_matrix_overflow _ _ _ [] rfl Nat.one_ne_zero hlen ?_
    show (Arena.init.grow ((usub 5 2 + 3) / 4 + 3000 +
        (ceil_log2 (5 + 1 - 1) + 7) / 8)).buffer_size <
      (Arena.init.grow ((usub 5 2 + 3) / 4 + 3000 + (ceil_log2 (5 + 1 - 1) + 7) / 8)).next_free +
        ((usub 5 2 + 3) / 4 + 3000 + (ceil_log2 (5 + 1 - 1) + 7) / 8)
    decide

/-! ## The offsets stored by `prepare_kmer_matrix` -/

theorem read_mini_pos_congr (mem mem' : List Nat) (ptr size : Nat)
    (h : ∀ b < size, mem.getD (ptr + b) 0 = mem'.getD (ptr + b) 0) :
    read_mini_pos mem ptr size = read_mini_pos mem' ptr size := by
  unfold read_mini_pos
  have key : ∀ n, n ≤ size →
      (List.range n).foldl
        (fun mini_pos b => (mini_pos * 2 ^ 8 % 2 ^ 32 + mem.getD (ptr + b) 0) % 2 ^ 32) 0 =
      (List.range n).foldl
        (fun mini_pos b => (mini_pos * 2 ^ 8 % 2 ^ 32 + mem'.getD (ptr + b) 0) % 2 ^ 32) 0 := by
    intro n
    induction n with
    | zero => intro _; rfl
    | succ n ih =>
      intro hn
      rw [List.range_succ, List.foldl_append, List.foldl_append, ih (by omega)]
      simp only [List.foldl_cons, List.foldl_nil]
      rw [h n (by omega)]
  exact key size (le_refl _)

theorem grow_next_free (a : Arena) (size : Nat) : (a.grow size).next_free = a.next_free := by
  unfold Arena.grow
  split <;> rfl

/-- What a successful run of the loop body of `prepare_kmer_matrix` leaves in the arena:
the bytes below the former `next_free` are unchanged and the offset field of the new
record holds `mini_pos - kmer_idx` in big-endian. -/
theorem add_kmer_result (sm : Section) (block : Block) (a a1 : Arena)
    (matrix m1 : List (List Nat)) (j : Nat)
    (h : add_kmer sm block (a, matrix) j = some (a1, m1)) :
    a1.next_free = a.next_free + ((usub sm.k sm.m + 3) / 4 + sm.data_size +
        (ceil_log2 (sm.k + sm.max - 1) + 7) / 8) ∧
      (∀ q < a.next_free, a1.kmer_buffer.getD q 0 = a.kmer_buffer.getD q 0) ∧
      (∀ b < (ceil_log2 (sm.k + sm.max - 1) + 7) / 8,
        a1.kmer_buffer.getD (a.next_free + (usub sm.k sm.m + 3) / 4 + sm.data_size + b) 0 =
          usub block.mini_pos j / 256 ^ ((ceil_log2 (sm.k + sm.max - 1) + 7) / 8 - 1 - b)
            % 256) := by
  simp only [add_kmer, grow_next_free] at h
  split at h
  · cases h
  · rename_i b1 hb1
    split at h
    · cases h
    · rename_i b2 hb2
      split at h
      · cases h
      · rename_i b3 hb3
        split at h
        · simp only [Option.some.injEq, Prod.mk.injEq] at h
          obtain ⟨h1, -⟩ := h
          subst h1
          refine ⟨rfl, ?_, ?_⟩
          · intro q hq
            simp only
            rw [memcpy_getD _ _ _ _ q hb3, memcpy_getD _ _ _ _ q hb2,
              memcpy_getD _ _ _ _ q hb1, if_neg (by omega), if_neg (by omega),
              if_neg (by omega), grow_getD]
          · intro b hb
            simp only
            rw [memcpy_getD _ _ _ _ _ hb3, mini_pos_bytes_length, if_pos (by omega),
              ← mini_pos_bytes_getD _ _ _ hb]
            congr 1
            omega
        · cases h

theorem StoredOffsets.add_record (sm : Section) (block : Block) (a a1 : Arena)
    (matrix m1 : List (List Nat)) (j : Nat) (placed : List (Nat × Nat))
    (hk : sm.k < 2 ^ 32) (hm : sm.m < sm.k) (hp1 : j ≤ block.mini_pos)
    (hp2 : block.mini_pos ≤ sm.k - sm.m)
    (hw : sm.k - sm.m < 256 ^ ((ceil_log2 (sm.k + sm.max - 1) + 7) / 8))
    (h : add_kmer sm block (a, matrix) j = some (a1, m1))
    (hs : StoredOffsets sm a.kmer_buffer a.next_free placed) :
    a1.next_free = a.next_free + record_size sm ∧
    StoredOffsets sm a1.kmer_buffer a1.next_free
      (placed ++ [(sm.k - sm.m - block.mini_pos + j, a.next_free)]) := by
  have e1 : usub sm.k sm.m = sm.k - sm.m := usub_eq _ _ hk (by omega)
  have e2 : usub block.mini_pos j = block.mini_pos - j := usub_eq _ _ (by omega) hp1
  obtain ⟨h1, h2, h3⟩ := add_kmer_result sm block a a1 matrix m1 j h
  rw [e1] at h1 h3
  rw [e2] at h3
  have hrs : record_size sm = (sm.k - sm.m + 3) / 4 + sm.data_size +
      (ceil_log2 (sm.k + sm.max - 1) + 7) / 8 := rfl
  refine ⟨by rw [h1, hrs], ?_⟩
  intro e he
  rcases List.mem_append.mp he with he | he
  · obtain ⟨h4, h5⟩ := hs e he
    refine ⟨by rw [h1, ← hrs]; omega, ?_⟩
    rw [← h5]
    apply read_mini_pos_congr
    intro b hb
    exact h2 _ (by rw [hrs] at h4; omega)
  · simp only [List.mem_singleton] at he
    subst he
    refine ⟨by rw [h1, ← hrs], ?_⟩
    simp only
    rw [read_mini_pos_eq _ _ _ (block.mini_pos - j) h3 (by omega) (by omega)]
    omega

theorem add_kmers_stored (sm : Section) (block : Block) (hk : sm.k < 2 ^ 32)
    (hm : sm.m < sm.k) (hp2 : block.mini_pos ≤ sm.k - sm.m)
    (hw : sm.k - sm.m < 256 ^ ((ceil_log2 (sm.k + sm.max - 1) + 7) / 8)) (count : Nat) :
    ∀ (kmer_idx : Nat) (a a' : Arena) (matrix matrix' : List (List Nat))
      (placed : List (Nat × Nat)),
      kmer_idx + count ≤ block.mini_pos + 1 →
      add_kmers sm block count kmer_idx (a, matrix) = some (a', matrix') →
      StoredOffsets sm a.kmer_buffer a.next_free placed →
      a'.next_free = a.next_free + count * record_size sm ∧
      StoredOffsets sm a'.kmer_buffer a'.next_free
        (placed ++ (List.range' kmer_idx count).map (fun j =>
          (sm.k - sm.m - block.mini_pos + j, a.next_free + (j - kmer_idx) * record_size sm))) := by
  induction count with
  | zero =>
    intro kmer_idx a a' matrix matrix' placed _ h hs
    simp only [add_kmers, Option.some.injEq, Prod.mk.injEq] at h
    obtain ⟨h1, -⟩ := h
    subst h1
    exact ⟨by simp, by simpa using hs⟩
  | succ count ih =>
    intro kmer_idx a a' matrix matrix' placed hcount h hs
    simp only [add_kmers] at h
    split at h
    · rename_i st1 hst
      obtain ⟨a1, m1⟩ := st1
      obtain ⟨h1, h2⟩ := StoredOffsets.add_record sm block a a1 matrix m1 kmer_idx placed hk hm
        (by omega) hp2 hw hst hs
      obtain ⟨h3, h4⟩ := ih (kmer_idx + 1) a1 a' m1 matrix' _ (by omega) h h2
      refine ⟨by rw [h3, h1]; ring, ?_⟩
      have e : (List.range' kmer_idx (count + 1)).map (fun j =>
          (sm.k - sm.m - block.mini_pos + j, a.next_free + (j - kmer_idx) * record_size sm)) =
          (sm.k - sm.m - block.mini_pos + kmer_idx, a.next_free) ::
          (List.range' (kmer_idx + 1) count).map (fun j =>
            (sm.k - sm.m - block.mini_pos + j,
              a1.next_free + (j - (kmer_idx + 1)) * record_size sm)) := by
        rw [List.range'_succ, List.map_cons]
        congr 1
        · simp
        · apply List.map_congr_left
          intro j hj
          have hj' := (List.mem_range'_1.mp hj).1
          rw [h1]
          congr 1
          have : j - kmer_idx = (j - (kmer_idx + 1)) + 1 := by omega
          rw [this]
          ring
      rw [e]
      simpa using h4
    · cases h

theorem add_blocks_stored (sm : Section) (hk : sm.k < 2 ^ 32) (hm : sm.m < sm.k)
    (hw : sm.k - sm.m < 256 ^ ((ceil_log2 (sm.k + sm.max - 1) + 7) / 8))
    (blocks : List Block) :
    ∀ (a a' : Arena) (matrix matrix' : List (List Nat)) (placed : List (Nat × Nat)),
      (∀ block ∈ blocks, block.nb_kmers ≤ block.mini_pos + 1 ∧
        block.mini_pos ≤ sm.k - sm.m) →
      add_blocks sm blocks (a, matrix) = some (a', matrix') →
      StoredOffsets sm a.kmer_buffer a.next_free placed →
      StoredOffsets sm a'.kmer_buffer a'.next_free
        (placed ++ section_placements sm blocks a.next_free) := by
  induction blocks with
  | nil =>
    intro a a' matrix matrix' placed _ h hs
    simp only [add_blocks, Option.some.injEq, Prod.mk.injEq] at h
    obtain ⟨h1, -⟩ := h
    subst h1
    simpa [section_placements] using hs
  | cons block rest ih =>
    intro a a' matrix matrix' placed hb h hs
    obtain ⟨hp1, hp2⟩ := hb block (List.mem_cons_self _ _)
    simp only [add_blocks] at h
    split at h
    · rename_i st1 hst
      obtain ⟨a1, m1⟩ := st1
      obtain ⟨h1, h2⟩ := add_kmers_stored sm block hk hm hp2 hw block.nb_kmers 0 a a1 matrix
        m1 placed (by omega) hst hs
      have h3 := ih a1 a' m1 matrix' _ (fun b hb' => hb b (List.mem_cons_of_mem _ hb')) h h2
      rw [h1] at h3
      simpa [section_placements] using h3
    · cases h

/-- C11, as amended: for a well-formed section (`1 <= m < k < 2^32`, `max >= 1`, every
block with minimizer position `p` and `n` k-mers satisfies `n - 1 <= p <= k - m`) loaded in
an arena in which a record fits, the minimizer-offset field stored in a record of column
`c` of the matrix built by `prepare_kmer_matrix` is `k - m - c`: the stored offset and the
column index add up to `k - m`. -/
theorem stored_offset_of_column (a : Arena) (sm : Section) (hk : sm.k < 2 ^ 32)
    (hm : sm.m < sm.k) (hm1 : 1 ≤ sm.m) (hmax : 1 ≤ sm.max) (hmax2 : sm.k + sm.max ≤ 2 ^ 64)
    (hb : ∀ block ∈ sm.blocks, sm.k + block.nb_kmers < 2 ^ 32 ∧
      block.nb_kmers ≤ block.mini_pos + 1 ∧ block.mini_pos ≤ sm.k - sm.m)
    (hfit : a.Fits (record_size sm)) :
    ∃ a' matrix, prepare_kmer_matrix a sm = some (a', matrix) ∧
      ∀ c, ∀ r ∈ matrix.getD c [],
        read_mini_pos a'.kmer_buffer (r + (sm.k - sm.m + 3) / 4 + sm.data_size)
          ((ceil_log2 (sm.k + sm.max - 1) + 7) / 8) + c = sm.k - sm.m := by
  have e1 : usub sm.k sm.m = sm.k - sm.m := usub_eq _ _ hk (by omega)
  have hw : sm.k - sm.m < 256 ^ ((ceil_log2 (sm.k + sm.max - 1) + 7) / 8) :=
    width_holds _ _ (by omega) (by omega)
  have h0 : MatrixOf (List.replicate (sm.k - sm.m + 1) ([] : List Nat)) [] := by
    constructor
    · simp
    · intro c
      rw [List.getD_eq_getElem?_getD, List.getElem?_replicate]
      split <;> rfl
  obtain ⟨a', matrix, h1, h2, -, h4⟩ := add_blocks_ok sm hm sm.blocks a _ [] hb
    (by simp) hfit h0
  have h5 := add_blocks_stored sm hk hm hw sm.blocks a a' _ matrix []
    (fun block hblock => (hb block hblock).2) h1 (by intro e he; cases he)
  simp only [List.nil_append] at h4 h5
  refine ⟨a', matrix, by simp only [prepare_kmer_matrix, e1]; exact h1, ?_⟩
  intro c r hr
  have hc : c < matrix.length := by
    by_contra hcon
    rw [List.getD_eq_getElem?_getD, List.getElem?_eq_none (by omega)] at hr
    simp at hr
  rw [h4 c] at hr
  obtain ⟨e, he, her⟩ := List.mem_map.mp hr
  obtain ⟨he1, he2⟩ := List.mem_filter.mp he
  simp only [decide_eq_true_eq] at he2
  have h6 := (h5 e he1).2
  rw [her, he2] at h6
  rw [h6]
  omega

set_option maxRecDepth 100000 in
theorem stored_offset_of_column_witness :
    ∃ a' matrix, prepare_kmer_matrix Arena.init (section_5_2 2 [block_acgt 3]) =
        some (a', matrix) ∧
      ∀ c, ∀ r ∈ matrix.getD c [],
        read_mini_pos a'.kmer_buffer (r + ((section_5_2 2 [block_acgt 3]).k -
            (section_5_2 2 [block_acgt 3]).m + 3) / 4 +
            (section_5_2 2 [block_acgt 3]).data_size)
          ((ceil_log2 ((section_5_2 2 [block_acgt 3]).k +
            (section_5_2 2 [block_acgt 3]).max - 1) + 7) / 8) + c =
        (section_5_2 2 [block_acgt 3]).k - (section_5_2 2 [block_acgt 3]).m :=
  stored_offset_of_column Arena.init (section_5_2 2 [block_acgt 3]) (by decide) (by decide)
    (by decide) (by decide) (by decide) (by decide) ⟨by decide, by decide, by decide⟩

set_option maxRecDepth 100000 in
/-- C11, counterexample: the section with `k = 5`, `m = 2` and the one block of two k-mers
with minimizer position 3. Column 0 of the matrix holds the record at offset 0, and the
minimizer-offset field of that record, read as `mini_pos_from_buffer` does with the fields
set by `compact_section`, is 3, not the column index 0. -/
theorem stored_offset_not_column :
    (prepare_kmer_matrix Arena.init (section_5_2 2 [block_acgt 3])).map
        (fun r => (r.2.getD 0 [], (r.2.getD 0 []).map
          (mini_pos_from_buffer (bytes_compacted 5 2) 1 (mini_pos_size 5 2)
            r.1.kmer_buffer))) = some ([0], [3]) := by
  decide

/-! ## `pairs_to_paths` as a fold -/

theorem pairs_loop_append (xs ys : List Pair) : ∀ st,
    pairs_loop (xs ++ ys) st = (pairs_loop xs st).bind (pairs_loop ys) := by
  induction xs with
  | nil => intro st; rfl
  | cons x xs ih =>
    intro st
    simp only [List.cons_append, pairs_loop]
    cases pairs_step st x with
    | none => rfl
    | some st1 => exact ih st1

theorem PathInv.mem_seconds {done : List Pair} {st : PathState} (inv : PathInv done st)
    (path : List Nat) (hp : path ∈ st.paths) (x : Nat) (hx : x ∈ path) :
    x ∈ done.map Prod.snd :=
  inv.perm.mem_iff.mp (List.mem_flatten.mpr ⟨path, hp, hx⟩)

theorem TailsRegistered.open_path {done : List Pair} {st : PathState}
    (inv : PathInv done st) (tr : TailsRegistered st) (s : Nat)
    (hs : s ∉ done.map Prod.snd) :
    TailsRegistered { paths := st.paths ++ [[s]],
                      path_registry := map_set st.path_registry s st.paths.length } := by
  intro idx path hp
  simp only at hp ⊢
  by_cases hidx : idx < st.paths.length
  · rw [List.getElem?_append_left hidx] at hp
    obtain ⟨r, hr1, hr2⟩ := tr idx path hp
    refine ⟨r, hr1, ?_⟩
    have hrs : r ≠ s := by
      intro e
      apply hs
      rw [← e]
      exact inv.mem_seconds path (List.mem_iff_getElem?.mpr ⟨_, hp⟩) r (List.mem_of_getLast?_eq_some hr1)
    simp only [map_set, if_neg hrs, hr2]
  · rw [List.getElem?_append_right (by omega)] at hp
    have hlen : idx = st.paths.length := by
      by_contra hne
      have : idx - st.paths.length = (idx - st.paths.length - 1) + 1 := by omega
      rw [this] at hp
      simp at hp
    subst hlen
    simp only [Nat.sub_self, List.getElem?_cons_zero, Option.some.injEq] at hp
    subst hp
    exact ⟨s, rfl, by simp [map_set]⟩

/-- A pair `(first, s)` whose predecessor is the last element of a path: that path is the
only one ending in `first`, the loop body appends `s` to it and changes no other path. -/
theorem TailsRegistered.extend_path {done : List Pair} {st : PathState}
    (inv : PathInv done st) (tr : TailsRegistered st) (first s : Nat)
    (hs : s ∉ done.map Prod.snd)
    (hf : ∃ path ∈ st.paths, path.getLast? = some first) :
    ∃ j path, st.paths[j]? = some path ∧ path.getLast? = some first ∧
      (∀ j2 path2, st.paths[j2]? = some path2 → path2.getLast? = some first → j2 = j) ∧
      pairs_step st (some first, s) =
        some { paths := st.paths.set j (path ++ [s]),
               path_registry := map_set (map_erase st.path_registry first) s j } ∧
      PathInv (done ++ [(some first, s)])
        { paths := st.paths.set j (path ++ [s]),
          path_registry := map_set (map_erase st.path_registry first) s j } ∧
      TailsRegistered
        { paths := st.paths.set j (path ++ [s]),
          path_registry := map_set (map_erase st.path_registry first) s j } := by
  obtain ⟨path, hp1, hp2⟩ := hf
  obtain ⟨j, hj⟩ := List.mem_iff_getElem?.mp hp1
  obtain ⟨r, hr1, hreg⟩ := tr j path hj
  rw [hp2] at hr1
  cases hr1
  have huniq : ∀ j2 path2, st.paths[j2]? = some path2 → path2.getLast? = some first →
      j2 = j := by
    intro j2 path2 h1 h2
    obtain ⟨r2, hr2, hreg2⟩ := tr j2 path2 h1
    rw [h2] at hr2
    cases hr2
    rw [hreg] at hreg2
    cases hreg2
    rfl
  obtain ⟨hlt, inv1⟩ := inv.step_some first s j hreg
  have hgetD : st.paths.getD j [] = path := by simp [List.getD, hj]
  rw [hgetD] at inv1
  have hfs : first ≠ s := by
    intro e
    apply hs
    rw [← e]
    exact inv.mem_seconds path hp1 first (List.mem_of_getLast?_eq_some hp2)
  refine ⟨j, path, hj, hp2, huniq, ?_, inv1, ?_⟩
  · simp only [pairs_step, hreg, Option.getD_some, if_pos hlt, hgetD]
  · intro idx path2 h2
    simp only at h2 ⊢
    by_cases hidx : j = idx
    · subst hidx
      rw [List.getElem?_set_self hlt] at h2
      cases h2
      exact ⟨s, List.getLast?_concat _, by simp [map_set]⟩
    · rw [List.getElem?_set_ne hidx] at h2
      obtain ⟨r2, hr2, hreg2⟩ := tr idx path2 h2
      refine ⟨r2, hr2, ?_⟩
      have h3 : r2 ≠ first := by
        intro e
        rw [e, hreg] at hreg2
        cases hreg2
        exact hidx rfl
      have h4 : r2 ≠ s := by
        intro e
        apply hs
        rw [← e]
        exact inv.mem_seconds path2 (List.mem_iff_getElem?.mpr ⟨_, h2⟩) r2
          (List.mem_of_getLast?_eq_some hr2)
      simp only [map_set, map_erase, if_neg h3, if_neg h4, hreg2]

theorem pairs_loop_snoc (xs : List Pair) (p : Pair) (st0 st : PathState)
    (h : pairs_loop xs st0 = some st) : pairs_loop (xs ++ [p]) st0 = pairs_step st p := by
  rw [pairs_loop_append, h]
  simp only [Option.some_bind, pairs_loop]
  cases pairs_step st p <;> rfl

theorem preds_are_tails_at (l : List Pair) (htails : preds_are_tails l = true) (i : Nat)
    (hi : i < l.length) (first s : Nat) (hp : l[i]? = some (some first, s))
    (paths : List (List Nat)) (hpaths : pairs_to_paths (l.take i) = some paths) :
    ∃ path ∈ paths, path.getLast? = some first := by
  unfold preds_are_tails at htails
  rw [List.all_eq_true] at htails
  have h := htails i (List.mem_range.mpr hi)
  have e : l.getD i (none, 0) = (some first, s) := by
    rw [List.getD_eq_getElem?_getD, hp]
    rfl
  simp only [e, hpaths, List.any_eq_true, beq_iff_eq] at h
  exact h

theorem take_fresh (l : List Pair) (hnodup : (l.map Prod.snd).Nodup) (i : Nat) (p : Pair)
    (hp : l[i]? = some p) : p.2 ∉ (l.take i).map Prod.snd := by
  have h1 : ((l.take (i + 1)).map Prod.snd).Nodup :=
    hnodup.sublist ((List.take_sublist _ _).map _)
  rw [List.take_succ, hp] at h1
  simp only [Option.toList_some, List.map_append, List.map_cons, List.map_nil] at h1
  have h2 := List.nodup_append.mp h1
  intro hmem
  exact h2.2.2 hmem (List.mem_singleton_self _)

/-- The loop of `pairs_to_paths` runs on every prefix of a list with distinct successors
whose predecessors are path tails, and keeps the invariants. -/
theorem pairs_prefix_inv (l : List Pair) (hnodup : (l.map Prod.snd).Nodup)
    (htails : preds_are_tails l = true) (i : Nat) : i ≤ l.length →
    ∃ st, pairs_loop (l.take i) { paths := [], path_registry := fun _ => none } = some st ∧
      PathInv (l.take i) st ∧ TailsRegistered st := by
  induction i with
  | zero =>
    intro _
    refine ⟨_, rfl, PathInv.init, ?_⟩
    intro idx path hp
    simp at hp
  | succ i ih =>
    intro hi
    obtain ⟨st, h1, inv, tr⟩ := ih (by omega)
    have hget : l[i]? = some (l[i]) := List.getElem?_eq_getElem (by omega)
    have hfresh := take_fresh l hnodup i _ hget
    rw [List.take_succ, hget, Option.toList_some, pairs_loop_snoc _ _ _ _ h1]
    rcases hpair : l[i] with ⟨first, s⟩
    rw [hpair] at hget hfresh
    cases first with
    | none =>
      exact ⟨_, rfl, inv.step_none s, tr.open_path inv s hfresh⟩
    | some first =>
      have hf := preds_are_tails_at l htails i (by omega) first s hget st.paths
        (by simp [pairs_to_paths, h1])
      obtain ⟨j, path, -, -, -, h5, h6, h7⟩ := tr.extend_path inv first s hfresh hf
      rw [h5]
      exact ⟨_, rfl, h6, h7⟩

/-- C17, as amended: for every list of pairs with pairwise distinct successors in which
each non-null predecessor is, when its pair is reached, the last element of an existing
path, `pairs_to_paths` folds the list in order: on every prefix it returns paths; a
`(null, s)` pair adds the path `[s]` after the existing paths; a `(first, s)` pair appends
`s` to the path whose last element is `first`, which is the only such path, and changes no
other path. The number of paths is the number of null pairs and the paths start with the
successors of the null pairs, in the order of these pairs. -/
theorem pairs_to_paths_fold (to_compact : List Pair)
    (hnodup : (to_compact.map Prod.snd).Nodup)
    (htails : preds_are_tails to_compact = true) :
    (∀ i < to_compact.length, ∃ paths, pairs_to_paths (to_compact.take i) = some paths ∧
      match to_compact.getD i (none, 0) with
      | (none, s) => pairs_to_paths (to_compact.take (i + 1)) = some (paths ++ [[s]])
      | (some first, s) =>
        ∃ j path, paths[j]? = some path ∧ path.getLast? = some first ∧
          (∀ j2 path2, paths[j2]? = some path2 → path2.getLast? = some first → j2 = j) ∧
          pairs_to_paths (to_compact.take (i + 1)) = some (paths.set j (path ++ [s]))) ∧
    ∃ paths, pairs_to_paths to_compact = some paths ∧
      paths.length = (to_compact.filter (fun p => p.1.isNone)).length ∧
      paths.map List.head? =
        (to_compact.filter (fun p => p.1.isNone)).map (fun p => some p.2) := by
  constructor
  · intro i hi
    obtain ⟨st, h1, inv, tr⟩ := pairs_prefix_inv to_compact hnodup htails i (by omega)
    have hget : to_compact[i]? = some (to_compact[i]) := List.getElem?_eq_getElem hi
    have hfresh := take_fresh to_compact hnodup i _ hget
    have hD : to_compact.getD i (none, 0) = to_compact[i] := by
      rw [List.getD_eq_getElem?_getD, hget]
      rfl
    refine ⟨st.paths, by simp [pairs_to_paths, h1], ?_⟩
    rw [hD]
    have hnext : pairs_to_paths (to_compact.take (i + 1)) =
        (pairs_step st to_compact[i]).map PathState.paths := by
      simp only [pairs_to_paths]
      rw [List.take_succ, hget, Option.toList_some, pairs_loop_snoc _ _ _ _ h1]
    rcases hpair : to_compact[i] with ⟨first, s⟩
    rw [hpair] at hget hfresh hnext
    cases first with
    | none =>
      simp only
      rw [hnext]
      rfl
    | some first =>
      have hf := preds_are_tails_at to_compact htails i hi first s hget st.paths
        (by simp [pairs_to_paths, h1])
      obtain ⟨j, path, h2, h3, h4, h5, -, -⟩ := tr.extend_path inv first s hfresh hf
      simp only
      refine ⟨j, path, h2, h3, h4, ?_⟩
      rw [hnext, h5]
      rfl
  · obtain ⟨st, h1, inv, -⟩ := pairs_prefix_inv to_compact hnodup htails to_compact.length
      (le_refl _)
    rw [List.take_length] at h1 inv
    refine ⟨st.paths, by simp [pairs_to_paths, h1], ?_, inv.heads⟩
    have := congrArg List.length inv.heads
    simpa using this

theorem pairs_to_paths_fold_witness :
    (∀ i < [((none : Option Nat), 1), (none, 2), (some 1, 3), (some 2, 4), (some 3, 5)].length,
      ∃ paths, pairs_to_paths
          ([((none : Option Nat), 1), (none, 2), (some 1, 3), (some 2, 4), (some 3, 5)].take i) =
          some paths ∧
      match [((none : Option Nat), 1), (none, 2), (some 1, 3), (some 2, 4),
          (some 3, 5)].getD i (none, 0) with
      | (none, s) => pairs_to_paths
          ([((none : Option Nat), 1), (none, 2), (some 1, 3), (some 2, 4), (some 3, 5)].take
            (i + 1)) = some (paths ++ [[s]])
      | (some first, s) =>
        ∃ j path, paths[j]? = some path ∧ path.getLast? = some first ∧
          (∀ j2 path2, paths[j2]? = some path2 → path2.getLast? = some first → j2 = j) ∧
          pairs_to_paths
            ([((none : Option Nat), 1), (none, 2), (some 1, 3), (some 2, 4), (some 3, 5)].take
              (i + 1)) = some (paths.set j (path ++ [s]))) ∧
    ∃ paths, pairs_to_paths
        [((none : Option Nat), 1), (none, 2), (some 1, 3), (some 2, 4), (some 3, 5)] =
        some paths ∧
      paths.length = ([((none : Option Nat), 1), (none, 2), (some 1, 3), (some 2, 4),
        (some 3, 5)].filter (fun p => p.1.isNone)).length ∧
      paths.map List.head? =
        ([((none : Option Nat), 1), (none, 2), (some 1, 3), (some 2, 4),
          (some 3, 5)].filter (fun p => p.1.isNone)).map (fun p => some p.2) :=
  pairs_to_paths_fold [(none, 1), (none, 2), (some 1, 3), (some 2, 4), (some 3, 5)]
    (by decide) (by decide)

/-- C17, counterexample: in the list `(null,1) (null,2) (null,2) (2,3) (2,4)` each non-null
predecessor is, when its pair is reached, the last element of an existing path: before
the last pair the paths are `[1] [2] [2,3]`, and 2 is the last element of the second one.
The last pair `(2,4)` appends 4 to the first path, whose last element is 1, and leaves the
path ending in 2 unchanged. -/
theorem pairs_to_paths_duplicate :
    preds_are_tails [(none, 1), (none, 2), (none, 2), (some 2, 3), (some 2, 4)] = true ∧
    pairs_to_paths [(none, 1), (none, 2), (none, 2), (some 2, 3)] =
      some [[1], [2], [2, 3]] ∧
    pairs_to_paths [(none, 1), (none, 2), (none, 2), (some 2, 3), (some 2, 4)] =
      some [[1, 4], [2], [2, 3]] := by
  decide

/-- C15: with `k = 5`, `m = 1` (4 nucleotides beside the minimizer, no payload, one byte of
minimizer offset) the records `AAAA` (byte `0x00`) and `CACA` (byte `0x44`), both with
minimizer offset 0, compare as `+1` in both orders: the suffix scan has no `break`, the
second differing nucleotide overwrites `first_suffix_divergence` with 1, and the
nucleotides compared at position 1 are equal. -/
theorem interleaved_compare_not_antisymmetric :
    mini_pos_from_buffer (bytes_compacted 5 1) 0 (mini_pos_size 5 1) [0x00, 0, 0x44, 0] 0 = 0 ∧
    mini_pos_from_buffer (bytes_compacted 5 1) 0 (mini_pos_size 5 1) [0x00, 0, 0x44, 0] 2 = 0 ∧
    interleaved_compare_kmers 5 1 (bytes_compacted 5 1) 0 (mini_pos_size 5 1)
      [0x00, 0, 0x44, 0] 0 2 = some 1 ∧
    interleaved_compare_kmers 5 1 (bytes_compacted 5 1) 0 (mini_pos_size 5 1)
      [0x00, 0, 0x44, 0] 2 0 = some 1 := by
  decide

/-! ## The comparison of `interleaved_compare_kmers` -/

set_option maxRecDepth 100000 in
theorem and_slot (a : Nat) (ha : a < 256) (i : Nat) (hi : i < 4) :
    a &&& (3 <<< (2 * i)) = a / 4 ^ i % 4 * 4 ^ i := by
  revert a i
  decide

theorem xor_slot (a b : Nat) (ha : a < 256) (hb : b < 256) (i : Nat) (hi : i < 4) :
    (a ^^^ b) &&& (3 <<< (2 * i)) ≠ 0 ↔ a / 4 ^ i % 4 ≠ b / 4 ^ i % 4 := by
  rw [Nat.and_xor_distrib_right, and_slot a ha i hi, and_slot b hb i hi]
  have h4 : 0 < 4 ^ i := by positivity
  constructor
  · intro h e
    apply h
    rw [e]
    exact Nat.xor_self _
  · intro h e
    apply h
    have := Nat.xor_eq_zero.mp e
    exact Nat.eq_of_mul_eq_mul_right h4 this

set_option maxRecDepth 100000 in
theorem start_mask_slot (x : Nat) (hx : x < 256) (offset : Nat) (ho : offset < 4) (i : Nat)
    (hi : i < 4) :
    (x &&& usub (1 <<< (8 - 2 * offset)) 1) % 256 / 4 ^ i % 4 =
      if i < 4 - offset then x / 4 ^ i % 4 else 0 := by
  revert x offset i
  decide

set_option maxRecDepth 100000 in
theorem stop_mask_slot (x : Nat) (hx : x < 256) (s : Nat) (hs : s < 4) (i : Nat)
    (hi : i < 4) :
    (x &&& (2 ^ 32 - 1 - usub (1 <<< (2 * s)) 1)) % 256 / 4 ^ i % 4 =
      if s ≤ i then x / 4 ^ i % 4 else 0 := by
  revert x s i
  decide

theorem masked_slot (x : Nat) (hx : x < 256) (offset s : Nat) (ho : offset < 4) (hs : s < 4)
    (first last : Prop) [Decidable first] [Decidable last] (i : Nat) (hi : i < 4) :
    (if last then
        ((if first then (x &&& usub (1 <<< (8 - 2 * offset)) 1) % 256 else x) &&&
          (2 ^ 32 - 1 - usub (1 <<< (2 * s)) 1)) % 256
      else (if first then (x &&& usub (1 <<< (8 - 2 * offset)) 1) % 256 else x))
      / 4 ^ i % 4 =
    if (first → i < 4 - offset) ∧ (last → s ≤ i) then x / 4 ^ i % 4 else 0 := by
  have h256 : (x &&& usub (1 <<< (8 - 2 * offset)) 1) % 256 < 256 := Nat.mod_lt _ (by norm_num)
  by_cases hf : first <;> by_cases hl : last
  · rw [if_pos hl, if_pos hf, stop_mask_slot _ h256 s hs i hi,
      start_mask_slot x hx offset ho i hi]
    by_cases h1 : i < 4 - offset <;> by_cases h2 : s ≤ i <;> simp [hf, hl, h1, h2]
  · rw [if_neg hl, if_pos hf, start_mask_slot x hx offset ho i hi]
    by_cases h1 : i < 4 - offset <;> simp [hf, hl, h1]
  · rw [if_pos hl, if_neg hf, stop_mask_slot x hx s hs i hi]
    by_cases h2 : s ≤ i <;> simp [hf, hl, h2]
  · rw [if_neg hl, if_neg hf]
    simp [hf, hl]

theorem masked_lt (x : Nat) (hx : x < 256) (a b : Nat) (first last : Prop)
    [Decidable first] [Decidable last] :
    (if last then ((if first then (x &&& a) % 256 else x) &&& b) % 256
      else (if first then (x &&& a) % 256 else x)) < 256 := by
  split_ifs
  · exact Nat.mod_lt _ (by norm_num)
  · exact Nat.mod_lt _ (by norm_num)
  · exact Nat.mod_lt _ (by norm_num)
  · exact hx

/-- The two bits `i` of `result` in the prefix loop differ from zero exactly when the
nucleotides differ and neither mask covers them. -/
theorem prefix_result_slot (mem : List Nat) (kmer1 kmer2 offset suff pref_bytes b i : Nat)
    (ho : offset < 4) (hi : i < 4)
    (hx : mem.getD (kmer1 + b) 0 < 256) (hy : mem.getD (kmer2 + b) 0 < 256) :
    prefix_result mem kmer1 kmer2 offset suff pref_bytes b &&& (3 <<< (2 * i)) ≠ 0 ↔
      ((b = 0 → i < 4 - offset) ∧ ((b == usub pref_bytes 1) = true → suff % 4 ≤ i)) ∧
        mem.getD (kmer1 + b) 0 / 4 ^ i % 4 ≠ mem.getD (kmer2 + b) 0 / 4 ^ i % 4 := by
  have hs : suff % 4 < 4 := Nat.mod_lt _ (by norm_num)
  unfold prefix_result
  simp only []
  rw [xor_slot _ _ (masked_lt _ hx _ _ _ _) (masked_lt _ hy _ _ _ _) i hi,
    masked_slot _ hx offset _ ho hs _ _ i hi, masked_slot _ hy offset _ ho hs _ _ i hi]
  split_ifs with h
  · exact ⟨fun hne => ⟨h, hne⟩, fun hne => hne.2⟩
  · exact ⟨fun hne => absurd rfl hne, fun hne => absurd hne.1 h⟩

theorem prefix_pred_iff (mem : List Nat) (kmer1 kmer2 offset suff pref_bytes p b i : Nat)
    (ho : offset < 4) (hi : i < 4) (hpb : 4 * pref_bytes = offset + p + suff % 4)
    (hpb2 : pref_bytes < 2 ^ 32) (hb : b < pref_bytes)
    (hx : mem.getD (kmer1 + b) 0 < 256) (hy : mem.getD (kmer2 + b) 0 < 256) :
    ((!(b == usub pref_bytes 1) || decide (suff % 4 ≤ i)) &&
      decide (prefix_result mem kmer1 kmer2 offset suff pref_bytes b &&&
        (3 <<< (2 * i)) ≠ 0)) = true ↔
    offset ≤ 4 * b + 3 - i ∧ 4 * b + 3 - i < offset + p ∧
      record_nucl mem kmer1 (4 * b + 3 - i) ≠ record_nucl mem kmer2 (4 * b + 3 - i) := by
  have e1 : (4 * b + 3 - i) / 4 = b := by omega
  have e2 : 3 - (4 * b + 3 - i) % 4 = i := by omega
  have hu : usub pref_bytes 1 = pref_bytes - 1 := usub_eq _ _ hpb2 (by omega)
  have hs : suff % 4 < 4 := Nat.mod_lt _ (by norm_num)
  unfold record_nucl
  rw [e1, e2]
  simp only [Bool.and_eq_true, Bool.or_eq_true, Bool.not_eq_true', decide_eq_true_eq,
    beq_eq_false_iff_ne, beq_iff_eq]
  rw [prefix_result_slot mem kmer1 kmer2 offset suff pref_bytes b i ho hi hx hy, hu]
  simp only [beq_iff_eq]
  constructor
  · rintro ⟨h1, ⟨h2, h3⟩, h4⟩
    refine ⟨?_, ?_, h4⟩
    · by_cases hb0 : b = 0
      · have := h2 hb0
        omega
      · omega
    · by_cases hbe : b = pref_bytes - 1
      · have := h3 hbe
        omega
      · omega
  · rintro ⟨h1, h2, h4⟩
    refine ⟨?_, ⟨?_, ?_⟩, h4⟩
    · by_cases hbe : b = pref_bytes - 1
      · right; omega
      · left; exact hbe
    · intro hb0; omega
    · intro hbe; omega

/-- One byte of the prefix loop: either no examined nucleotide of the byte differs and
`last_prefix_divergence` is kept, or one differs and the new value is not `-1`. -/
theorem prefix_byte_spec (mem : List Nat) (kmer1 kmer2 offset suff pref_bytes p b : Nat)
    (last : Int)
    (ho : offset < 4) (hpb : 4 * pref_bytes = offset + p + suff % 4)
    (hpb2 : pref_bytes < 2 ^ 28) (hb : b < pref_bytes)
    (hx : mem.getD (kmer1 + b) 0 < 256) (hy : mem.getD (kmer2 + b) 0 < 256) :
    (prefix_byte mem kmer1 kmer2 offset suff pref_bytes last b = last ∧
      ∀ q, 4 * b ≤ q → q < 4 * b + 4 → offset ≤ q → q < offset + p →
        record_nucl mem kmer1 q = record_nucl mem kmer2 q) ∨
    (prefix_byte mem kmer1 kmer2 offset suff pref_bytes last b ≠ -1 ∧
      ∃ q, q < 4 * b + 4 ∧ offset ≤ q ∧ q < offset + p ∧
        record_nucl mem kmer1 q ≠ record_nucl mem kmer2 q) := by
  unfold prefix_byte
  cases hfind : (List.range 4).find? (fun i =>
      (!(b == usub pref_bytes 1) || decide (suff % 4 ≤ i)) &&
      decide (prefix_result mem kmer1 kmer2 offset suff pref_bytes b &&&
        (3 <<< (2 * i)) ≠ 0)) with
  | none =>
    left
    refine ⟨rfl, ?_⟩
    intro q h1 h2 h3 h4
    rw [List.find?_eq_none] at hfind
    have h5 := hfind (4 * b + 3 - q) (List.mem_range.mpr (by omega))
    rw [prefix_pred_iff mem kmer1 kmer2 offset suff pref_bytes p b _ ho (by omega) hpb
      (by omega) hb hx hy] at h5
    have e : 4 * b + 3 - (4 * b + 3 - q) = q := by omega
    rw [e] at h5
    by_contra hne
    exact h5 ⟨h3, h4, hne⟩
  | some i =>
    right
    have hi := List.mem_range.mp (List.mem_of_find?_eq_some hfind)
    have h5 := List.find?_some hfind
    rw [prefix_pred_iff mem kmer1 kmer2 offset suff pref_bytes p b i ho hi hpb
      (by omega) hb hx hy] at h5
    obtain ⟨h6, h7, h8⟩ := h5
    refine ⟨?_, 4 * b + 3 - i, by omega, h6, h7, h8⟩
    simp only
    have e1 : usub (b * 4 + 3) i = b * 4 + 3 - i := usub_eq _ _ (by omega) (by omega)
    have e2 : usub (b * 4 + 3 - i) offset = b * 4 + 3 - i - offset :=
      usub_eq _ _ (by omega) (by omega)
    rw [e1, e2]
    unfold to_int
    have e3 : (b * 4 + 3 - i - offset) % 2 ^ 32 = b * 4 + 3 - i - offset :=
      Nat.mod_eq_of_lt (by omega)
    rw [e3, if_pos (by omega)]
    omega

/-- The prefix loop ends with `last_prefix_divergence = -1` exactly when the nucleotides
before the minimizer are the same in the two records. -/
theorem prefix_fold_spec (mem : List Nat) (kmer1 kmer2 offset suff pref_bytes p : Nat)
    (ho : offset < 4) (hpb : 4 * pref_bytes = offset + p + suff % 4)
    (hpb2 : pref_bytes < 2 ^ 28)
    (hx : ∀ b < pref_bytes, mem.getD (kmer1 + b) 0 < 256)
    (hy : ∀ b < pref_bytes, mem.getD (kmer2 + b) 0 < 256) (n : Nat) : n ≤ pref_bytes →
    ((List.range n).foldl (prefix_byte mem kmer1 kmer2 offset suff pref_bytes) (-1) = -1 ↔
      ∀ q, q < 4 * n → offset ≤ q → q < offset + p →
        record_nucl mem kmer1 q = record_nucl mem kmer2 q) := by
  induction n with
  | zero =>
    intro _
    simp
  | succ n ih =>
    intro hn
    rw [List.range_succ, List.foldl_append, List.foldl_cons, List.foldl_nil]
    have ih1 := ih (by omega)
    rcases prefix_byte_spec mem kmer1 kmer2 offset suff pref_bytes p n
      ((List.range n).foldl (prefix_byte mem kmer1 kmer2 offset suff pref_bytes) (-1))
      ho hpb hpb2 (by omega) (hx n (by omega)) (hy n (by omega)) with ⟨h1, h2⟩ | ⟨h1, h2⟩
    · rw [h1, ih1]
      constructor
      · intro h q hq h3 h4
        by_cases hq2 : q < 4 * n
        · exact h q hq2 h3 h4
        · exact h2 q (by omega) (by omega) h3 h4
      · intro h q hq h3 h4
        exact h q (by omega) h3 h4
    · obtain ⟨q, h3, h4, h5, h6⟩ := h2
      constructor
      · intro h
        exact absurd h h1
      · intro h
        exact absurd (h q (by omega) h4 h5) h6

theorem suffix_slot_spec (mem : List Nat) (kmer1 kmer2 base : Nat) (suff : Int) (n : Nat)
    (st : Int × Int) (sb i : Nat) (hi1 : 1 ≤ i) (hi4 : i ≤ 4)
    (hpos : base + n + i = 4 * sb + 4)
    (hx : mem.getD (kmer1 + sb) 0 < 256) (hy : mem.getD (kmer2 + sb) 0 < 256)
    (inv : ScanInv mem kmer1 kmer2 base suff n st) :
    ScanInv mem kmer1 kmer2 base suff (n + 1)
      (suffix_slot (mem.getD (kmer1 + sb) 0 ^^^ mem.getD (kmer2 + sb) 0) st i) := by
  have hflag : (mem.getD (kmer1 + sb) 0 ^^^ mem.getD (kmer2 + sb) 0) &&&
      (3 <<< (2 * (i - 1))) ≠ 0 ↔
      record_nucl mem kmer1 (base + n) ≠ record_nucl mem kmer2 (base + n) := by
    rw [xor_slot _ _ hx hy (i - 1) (by omega)]
    unfold record_nucl
    have e1 : (base + n) / 4 = sb := by omega
    have e2 : 3 - (base + n) % 4 = i - 1 := by omega
    rw [e1, e2]
  obtain ⟨inv1, inv2⟩ := inv
  have hst2 : 0 ≤ st.2 ∧ st.2 ≤ (n : Int) := by
    by_cases hc : ∀ j < n, record_nucl mem kmer1 (base + j) = record_nucl mem kmer2 (base + j)
    · rw [inv1 hc]
      simp
    · have := inv2 hc
      omega
  unfold suffix_slot
  by_cases hd : (mem.getD (kmer1 + sb) 0 ^^^ mem.getD (kmer2 + sb) 0) &&&
      (3 <<< (2 * (i - 1))) ≠ 0
  · rw [if_pos hd]
    have hne := hflag.mp hd
    constructor
    · intro hc
      exact absurd (hc n (by omega)) hne
    · intro _
      simp only [Nat.cast_add, Nat.cast_one]
      omega
  · rw [if_neg hd]
    have heq : record_nucl mem kmer1 (base + n) = record_nucl mem kmer2 (base + n) := by
      by_contra hne
      exact hd (hflag.mpr hne)
    constructor
    · intro hc
      have hc1 : ∀ j < n, record_nucl mem kmer1 (base + j) =
          record_nucl mem kmer2 (base + j) := fun j hj => hc j (by omega)
      rw [inv1 hc1]
      simp
    · intro hc
      have hc1 : ¬ ∀ j < n, record_nucl mem kmer1 (base + j) =
          record_nucl mem kmer2 (base + j) := by
        intro h
        apply hc
        intro j hj
        by_cases hjn : j = n
        · rw [hjn]
          exact heq
        · exact h j (by omega)
      have := inv2 hc1
      simp only [Nat.cast_add, Nat.cast_one]
      omega

theorem ScanInv.skip {mem : List Nat} {kmer1 kmer2 base : Nat} {suff : Int} {n : Nat}
    {st : Int × Int} (inv : ScanInv mem kmer1 kmer2 base suff n st) (hne : st.1 ≠ suff)
    (t : Nat) : ScanInv mem kmer1 kmer2 base suff (n + t) st := by
  obtain ⟨inv1, inv2⟩ := inv
  have hc : ¬ ∀ j < n, record_nucl mem kmer1 (base + j) = record_nucl mem kmer2 (base + j) := by
    intro h
    apply hne
    rw [inv1 h]
  have := inv2 hc
  constructor
  · intro h
    exact absurd (fun j hj => h j (by omega)) hc
  · intro _
    simp only [Nat.cast_add]
    omega

theorem suffix_slots_full (first_byte : Bool) (suff result : Nat) (st : Int × Int)
    (h : first_byte = false ∨ usub suff 1 % 4 = 3) :
    suffix_slots first_byte suff result 4 4 st =
      suffix_slot result (suffix_slot result (suffix_slot result
        (suffix_slot result st 4) 3) 2) 1 := by
  rcases h with h | h
  · subst h
    simp [suffix_slots]
  · cases first_byte <;> simp [suffix_slots, h]

theorem suffix_slots_three (suff result : Nat) (st : Int × Int)
    (h : usub suff 1 % 4 = 2) :
    suffix_slots true suff result 4 4 st =
      suffix_slot result (suffix_slot result (suffix_slot result st 3) 2) 1 := by
  simp [suffix_slots, h]

theorem suffix_slots_two (suff result : Nat) (st : Int × Int)
    (h : usub suff 1 % 4 = 1) :
    suffix_slots true suff result 4 4 st =
      suffix_slot result (suffix_slot result st 2) 1 := by
  simp [suffix_slots, h]

theorem suffix_slots_one (suff result : Nat) (st : Int × Int)
    (h : usub suff 1 % 4 = 0) :
    suffix_slots true suff result 4 4 st = suffix_slot result st 1 := by
  simp [suffix_slots, h]

theorem ScanInv.start (mem : List Nat) (kmer1 kmer2 base : Nat) (suff : Int) :
    ScanInv mem kmer1 kmer2 base suff 0 (suff, 0) := by
  constructor
  · intro _
    simp
  · intro h
    exact absurd (fun j hj => absurd hj (Nat.not_lt_zero j)) h

theorem suffix_byte_spec (mem : List Nat) (kmer1 kmer2 base suff sfb sb n : Nat)
    (st : Int × Int) (hsb : sb ≠ sfb) (hpos : base + n = 4 * sb)
    (hx : mem.getD (kmer1 + sb) 0 < 256) (hy : mem.getD (kmer2 + sb) 0 < 256)
    (inv : ScanInv mem kmer1 kmer2 base (to_int suff) n st) :
    ScanInv mem kmer1 kmer2 base (to_int suff) (n + 4)
      (suffix_byte mem kmer1 kmer2 suff sfb st sb) := by
  unfold suffix_byte
  split
  · have hfb : (sb == sfb) = false := by simpa using hsb
    rw [suffix_slots_full _ _ _ _ (Or.inl hfb)]
    have i1 := suffix_slot_spec mem kmer1 kmer2 base (to_int suff) n st sb 4 (by omega)
      (by omega) (by omega) hx hy inv
    have i2 := suffix_slot_spec mem kmer1 kmer2 base (to_int suff) (n + 1) _ sb 3 (by omega)
      (by omega) (by omega) hx hy i1
    have i3 := suffix_slot_spec mem kmer1 kmer2 base (to_int suff) (n + 1 + 1) _ sb 2
      (by omega) (by omega) (by omega) hx hy i2
    exact suffix_slot_spec mem kmer1 kmer2 base (to_int suff) (n + 1 + 1 + 1) _ sb 1
      (by omega) (by omega) (by omega) hx hy i3
  · rename_i hne
    exact inv.skip hne 4

theorem suffix_first_byte_spec (mem : List Nat) (kmer1 kmer2 base suff sfb : Nat)
    (hs1 : 1 ≤ suff) (hs2 : suff < 2 ^ 32)
    (hpos : base + (suff - 1) % 4 + 1 = 4 * sfb + 4)
    (hx : mem.getD (kmer1 + sfb) 0 < 256) (hy : mem.getD (kmer2 + sfb) 0 < 256) :
    ScanInv mem kmer1 kmer2 base (to_int suff) ((suff - 1) % 4 + 1)
      (suffix_byte mem kmer1 kmer2 suff sfb (to_int suff, 0) sfb) := by
  have hu : usub suff 1 = suff - 1 := usub_eq _ _ hs2 hs1
  have inv := ScanInv.start mem kmer1 kmer2 base (to_int suff)
  unfold suffix_byte
  rw [if_pos rfl]
  have hfb : (sfb == sfb) = true := by simp
  rw [hfb]
  have hc : (suff - 1) % 4 = 0 ∨ (suff - 1) % 4 = 1 ∨ (suff - 1) % 4 = 2 ∨
      (suff - 1) % 4 = 3 := by omega
  rcases hc with hc | hc | hc | hc
  · rw [suffix_slots_one _ _ _ (by rw [hu]; exact hc), hc]
    exact suffix_slot_spec mem kmer1 kmer2 base (to_int suff) 0 _ sfb 1 (by omega)
      (by omega) (by omega) hx hy inv
  · rw [suffix_slots_two _ _ _ (by rw [hu]; exact hc), hc]
    have i1 := suffix_slot_spec mem kmer1 kmer2 base (to_int suff) 0 _ sfb 2 (by omega)
      (by omega) (by omega) hx hy inv
    exact suffix_slot_spec mem kmer1 kmer2 base (to_int suff) (0 + 1) _ sfb 1 (by omega)
      (by omega) (by omega) hx hy i1
  · rw [suffix_slots_three _ _ _ (by rw [hu]; exact hc), hc]
    have i1 := suffix_slot_spec mem kmer1 kmer2 base (to_int suff) 0 _ sfb 3 (by omega)
      (by omega) (by omega) hx hy inv
    have i2 := suffix_slot_spec mem kmer1 kmer2 base (to_int suff) (0 + 1) _ sfb 2
      (by omega) (by omega) (by omega) hx hy i1
    exact suffix_slot_spec mem kmer1 kmer2 base (to_int suff) (0 + 1 + 1) _ sfb 1
      (by omega) (by omega) (by omega) hx hy i2
  · rw [suffix_slots_full _ _ _ _ (Or.inr (by rw [hu]; exact hc)), hc]
    have i1 := suffix_slot_spec mem kmer1 kmer2 base (to_int suff) 0 _ sfb 4 (by omega)
      (by omega) (by omega) hx hy inv
    have i2 := suffix_slot_spec mem kmer1 kmer2 base (to_int suff) (0 + 1) _ sfb 3
      (by omega) (by omega) (by omega) hx hy i1
    have i3 := suffix_slot_spec mem kmer1 kmer2 base (to_int suff) (0 + 1 + 1) _ sfb 2
      (by omega) (by omega) (by omega) hx hy i2
    exact suffix_slot_spec mem kmer1 kmer2 base (to_int suff) (0 + 1 + 1 + 1) _ sfb 1
      (by omega) (by omega) (by omega) hx hy i3

theorem suffix_rest_spec (mem : List Nat) (kmer1 kmer2 base suff sfb : Nat) (t : Nat) :
    ∀ (sb n : Nat) (st : Int × Int), sfb < sb → base + n = 4 * sb →
      (∀ b, sb ≤ b → b < sb + t →
        mem.getD (kmer1 + b) 0 < 256 ∧ mem.getD (kmer2 + b) 0 < 256) →
      ScanInv mem kmer1 kmer2 base (to_int suff) n st →
      ScanInv mem kmer1 kmer2 base (to_int suff) (n + 4 * t)
        ((List.range' sb t).foldl (suffix_byte mem kmer1 kmer2 suff sfb) st) := by
  induction t with
  | zero =>
    intro sb n st _ _ _ inv
    simpa using inv
  | succ t ih =>
    intro sb n st hsb hpos hbytes inv
    rw [List.range'_succ, List.foldl_cons]
    have hb := hbytes sb (le_refl _) (by omega)
    have i1 := suffix_byte_spec mem kmer1 kmer2 base suff sfb sb n st (by omega) hpos
      hb.1 hb.2 inv
    have i2 := ih (sb + 1) (n + 4) _ (by omega) (by omega)
      (fun b h1 h2 => hbytes b (by omega) (by omega)) i1
    have e : n + 4 * (t + 1) = n + 4 + 4 * t := by ring
    rw [e]
    exact i2

theorem to_int_eq (x : Nat) (hx : x < 2 ^ 31) : to_int x = (x : Int) := by
  unfold to_int
  have e : x % 2 ^ 32 = x := Nat.mod_eq_of_lt (by omega)
  rw [e, if_pos hx]

/-- The suffix loop ends with `first_suffix_divergence = suff_nucl` exactly when the
nucleotides after the minimizer are the same in the two records. -/
theorem suffix_fold_spec (mem : List Nat) (kmer1 kmer2 base suff total sfb : Nat)
    (hs : suff < 2 ^ 31) (htotal : 4 * total = base + suff)
    (hsfb : sfb = total - (suff + 3) / 4)
    (hbytes : ∀ b < total, mem.getD (kmer1 + b) 0 < 256 ∧ mem.getD (kmer2 + b) 0 < 256) :
    ((List.range' sfb (total - sfb)).foldl (suffix_byte mem kmer1 kmer2 suff sfb)
        (to_int suff, 0)).1 = to_int suff ↔
      ∀ j < suff, record_nucl mem kmer1 (base + j) = record_nucl mem kmer2 (base + j) := by
  by_cases h0 : suff = 0
  · have e : total - sfb = 0 := by omega
    rw [e]
    simp [h0]
  · obtain ⟨t, ht⟩ : ∃ t, total - sfb = t + 1 := ⟨total - sfb - 1, by omega⟩
    rw [ht, List.range'_succ, List.foldl_cons]
    have hb := hbytes sfb (by omega)
    have i1 := suffix_first_byte_spec mem kmer1 kmer2 base suff sfb (by omega) (by omega)
      (by omega) hb.1 hb.2
    have i2 := suffix_rest_spec mem kmer1 kmer2 base suff sfb t (sfb + 1) _ _ (by omega)
      (by omega) (fun b h1 h2 => hbytes b (by omega)) i1
    have e : (suff - 1) % 4 + 1 + 4 * t = suff := by omega
    rw [e] at i2
    obtain ⟨j1, j2⟩ := i2
    constructor
    · intro h
      by_contra hc
      have := j2 hc
      have h2 := h.trans (to_int_eq suff hs)
      omega
    · intro hc
      rw [j1 hc]

/-- The two loops of `interleaved_compare_kmers` find no divergence exactly when the
`k - m` nucleotides of the two records are the same. -/
theorem no_divergence_iff (mem : List Nat) (kmer1 kmer2 used p : Nat) (hu : used < 2 ^ 29)
    (hp : p ≤ used)
    (hbytes : ∀ b < (used + 3) / 4,
      mem.getD (kmer1 + b) 0 < 256 ∧ mem.getD (kmer2 + b) 0 < 256) :
    ((List.range (((4 - used % 4) % 4 + p + 3) / 4)).foldl
        (prefix_byte mem kmer1 kmer2 ((4 - used % 4) % 4) (used - p)
          (((4 - used % 4) % 4 + p + 3) / 4)) (-1) = -1 ∧
      ((List.range' ((used + 3) / 4 - (used - p + 3) / 4)
          ((used + 3) / 4 - ((used + 3) / 4 - (used - p + 3) / 4))).foldl
        (suffix_byte mem kmer1 kmer2 (used - p) ((used + 3) / 4 - (used - p + 3) / 4))
        (to_int (used - p), 0)).1 = to_int (used - p)) ↔
    ∀ i < used, nucleotide mem kmer1 used i = nucleotide mem kmer2 used i := by
  have h1 := prefix_fold_spec mem kmer1 kmer2 ((4 - used % 4) % 4) (used - p)
    (((4 - used % 4) % 4 + p + 3) / 4) p (by omega) (by omega) (by omega)
    (fun b hb => (hbytes b (by omega)).1) (fun b hb => (hbytes b (by omega)).2)
    (((4 - used % 4) % 4 + p + 3) / 4) (le_refl _)
  have h2 := suffix_fold_spec mem kmer1 kmer2 ((4 - used % 4) % 4 + p) (used - p)
    ((used + 3) / 4) ((used + 3) / 4 - (used - p + 3) / 4) (by omega) (by omega) rfl hbytes
  rw [h1, h2]
  have hn : ∀ kmer i, nucleotide mem kmer used i =
      record_nucl mem kmer ((4 - used % 4) % 4 + i) := fun _ _ => rfl
  constructor
  · rintro ⟨h3, h4⟩ i hi
    rw [hn, hn]
    by_cases hip : i < p
    · exact h3 _ (by omega) (by omega) (by omega)
    · have := h4 (i - p) (by omega)
      have e : (4 - used % 4) % 4 + p + (i - p) = (4 - used % 4) % 4 + i := by omega
      rw [e] at this
      exact this
  · intro h
    constructor
    · intro q h3 h4 h5
      have := h (q - (4 - used % 4) % 4) (by omega)
      rw [hn, hn] at this
      have e : (4 - used % 4) % 4 + (q - (4 - used % 4) % 4) = q := by omega
      rw [e] at this
      exact this
    · intro j hj
      have := h (p + j) (by omega)
      rw [hn, hn] at this
      have e : (4 - used % 4) % 4 + (p + j) = (4 - used % 4) % 4 + p + j := by omega
      rw [e] at this
      exact this

/-- C16: for two records of `k - m` nucleotides, `k < 2^29`, whose bytes are below 256 and whose
stored minimizer offsets, read by `mini_pos_from_buffer`, are the same value
`p <= k - m`, `interleaved_compare_kmers` returns a result; the result is 0 exactly when
the `k - m` nucleotides of the two records are the same, the padding bits of the first
byte not being looked at, and it is -1 or +1 otherwise. -/
theorem interleaved_compare_zero_iff (k m bytes_compacted data_size mini_pos_size : Nat)
    (mem : List Nat) (kmer1 kmer2 p : Nat) (hm : m ≤ k) (hk : k < 2 ^ 29)
    (hp1 : mini_pos_from_buffer bytes_compacted data_size mini_pos_size mem kmer1 = p)
    (hp2 : mini_pos_from_buffer bytes_compacted data_size mini_pos_size mem kmer2 = p)
    (hp : p ≤ k - m)
    (hbytes : ∀ b < (k - m + 3) / 4,
      mem.getD (kmer1 + b) 0 < 256 ∧ mem.getD (kmer2 + b) 0 < 256) :
    ∃ r, interleaved_compare_kmers k m bytes_compacted data_size mini_pos_size mem
        kmer1 kmer2 = some r ∧
      (r = 0 ↔ ∀ i < k - m, nucleotide mem kmer1 (k - m) i = nucleotide mem kmer2 (k - m) i) ∧
      (r = 0 ∨ r = -1 ∨ r = 1) := by
  have e1 : usub k m = k - m := usub_eq _ _ (by omega) hm
  have e2 : usub (k - m) p = k - m - p := usub_eq _ _ (by omega) hp
  have e3 : ((4 - (k - m) % 4) % 4 + p + 3) % 2 ^ 32 = (4 - (k - m) % 4) % 4 + p + 3 :=
    Nat.mod_eq_of_lt (by omega)
  have e4 : (k - m - p + 3) % 2 ^ 32 = k - m - p + 3 := Nat.mod_eq_of_lt (by omega)
  have e5 : (k - m + 3) % 2 ^ 32 = k - m + 3 := Nat.mod_eq_of_lt (by omega)
  have e6 : usub ((k - m + 3) / 4) ((k - m - p + 3) / 4) =
      (k - m + 3) / 4 - (k - m - p + 3) / 4 := usub_eq _ _ (by omega) (by omega)
  have key := no_divergence_iff mem kmer1 kmer2 (k - m) p (by omega) hp hbytes
  unfold interleaved_compare_kmers
  simp only [hp1, hp2, ne_eq, not_true_eq_false, if_false, e1, e2, e3, e4, e5, e6]
  have aux : ∀ (c : Prop) [Decidable c], (if c then (-1 : Int) else 1) ≠ 0 ∧
      ((if c then (-1 : Int) else 1) = -1 ∨ (if c then (-1 : Int) else 1) = 1) := by
    intro c _
    split_ifs <;> simp
  split
  · rename_i h
    exact ⟨0, rfl, ⟨fun _ => key.mp h, fun _ => rfl⟩, Or.inl rfl⟩
  · rename_i h
    refine ⟨_, rfl, ?_, ?_⟩
    · constructor
      · intro h0
        exact absurd h0 (aux _).1
      · intro hall
        exact absurd (key.mpr hall) h
    · exact Or.inr (aux _).2

theorem interleaved_compare_zero_iff_witness :
    ∃ r, interleaved_compare_kmers 5 2 (bytes_compacted 5 2) 0 (mini_pos_size 5 2)
        [0x1B, 1, 0xDB, 1] 0 2 = some r ∧
      (r = 0 ↔ ∀ i < 5 - 2, nucleotide [0x1B, 1, 0xDB, 1] 0 (5 - 2) i =
        nucleotide [0x1B, 1, 0xDB, 1] 2 (5 - 2) i) ∧
      (r = 0 ∨ r = -1 ∨ r = 1) :=
  interleaved_compare_zero_iff 5 2 (bytes_compacted 5 2) 0 (mini_pos_size 5 2)
    [0x1B, 1, 0xDB, 1] 0 2 1 (by decide) (by decide) (by decide) (by decide) (by decide)
    (by decide)

/-! ## The variables of the output file -/

theorem lookup_append (vars more : Vars) (name : String) :
    (vars ++ more).lookup name =
      match vars.lookup name with
      | some v => some v
      | none => more.lookup name := by
  induction vars with
  | nil => rfl
  | cons p rest ih =>
    obtain ⟨key, value⟩ := p
    simp only [List.cons_append, List.lookup_cons]
    cases name == key
    · exact ih
    · rfl

theorem lookup_map_set (vars : Vars) (name : String) (value : Nat) (other : String) :
    (vars.map (fun p => if p.1 = name then (name, value) else p)).lookup other =
      if other = name then (vars.lookup name).map (fun _ => value) else vars.lookup other := by
  induction vars with
  | nil => simp
  | cons p rest ih =>
    obtain ⟨key, v⟩ := p
    rw [List.map_cons]
    by_cases hk : key = name
    · subst hk
      rw [if_pos rfl, List.lookup_cons, List.lookup_cons, List.lookup_cons, ih]
      by_cases ho : other = key
      · subst ho
        simp
      · have hb : (other == key) = false := by simpa using ho
        simp [hb, ho]
    · rw [if_neg hk, List.lookup_cons, List.lookup_cons, List.lookup_cons, ih]
      have hb2 : (name == key) = false := by
        simp only [beq_eq_false_iff_ne, ne_eq]
        exact fun e => hk e.symm
      by_cases ho : other = name
      · subst ho
        simp [hb2]
      · simp only [if_neg ho, hb2]

theorem lookup_vars_set (vars : Vars) (name : String) (value : Nat) (other : String) :
    (vars_set vars name value).lookup other =
      if other = name then some value else vars.lookup other := by
  unfold vars_set
  cases h : vars.lookup name with
  | none =>
    simp only [Option.isSome_none, Bool.false_eq_true, if_false, lookup_append]
    by_cases ho : other = name
    · subst ho
      simp [h, List.lookup_cons]
    · rw [if_neg ho]
      have hb : (other == name) = false := by simpa using ho
      cases vars.lookup other <;> simp [List.lookup_cons, hb]
  | some v =>
    simp only [Option.isSome_some, if_true]
    rw [lookup_map_set, h]
    rfl

theorem lookup_vars_touch (vars : Vars) (name other : String) :
    vars_get (vars_touch vars name) other = vars_get vars other := by
  unfold vars_get vars_touch
  cases h : vars.lookup name with
  | some v => simp
  | none =>
    simp only [Option.isSome_none, Bool.false_eq_true, if_false, lookup_append]
    by_cases ho : other = name
    · subst ho
      simp [h, List.lookup_cons]
    · have hb : (other == name) = false := by simpa using ho
      cases vars.lookup other <;> simp [List.lookup_cons, hb]

theorem lookup_none_iff (vars : Vars) (name : String) :
    vars.lookup name = none ↔ name ∉ vars.map Prod.fst := by
  induction vars with
  | nil => simp
  | cons p rest ih =>
    obtain ⟨key, v⟩ := p
    simp only [List.lookup_cons, List.map_cons, List.mem_cons, not_or]
    by_cases hk : name = key
    · subst hk
      simp
    · have hb : (name == key) = false := by simpa using hk
      simp only [hb, ih]
      exact ⟨fun h => ⟨hk, h⟩, fun h => h.2⟩

theorem lookup_of_mem (vars : Vars) (hnodup : (vars.map Prod.fst).Nodup) (p : String × Nat)
    (hp : p ∈ vars) : vars.lookup p.1 = some p.2 := by
  induction vars with
  | nil => cases hp
  | cons q rest ih =>
    obtain ⟨key, v⟩ := q
    simp only [List.map_cons, List.nodup_cons] at hnodup
    simp only [List.lookup_cons]
    rcases List.mem_cons.mp hp with h | h
    · subst h
      simp
    · have hne : p.1 ≠ key := by
        intro e
        apply hnodup.1
        rw [← e]
        exact List.mem_map_of_mem _ h
      have hb : (p.1 == key) = false := by simpa using hne
      simp only [hb]
      exact ih hnodup.2 h

theorem vars_touch_nodup (vars : Vars) (name : String)
    (hnodup : (vars.map Prod.fst).Nodup) : ((vars_touch vars name).map Prod.fst).Nodup := by
  unfold vars_touch
  cases h : vars.lookup name with
  | some v => simpa using hnodup
  | none =>
    simp only [Option.isSome_none, Bool.false_eq_true, if_false, List.map_append,
      List.map_cons, List.map_nil]
    rw [List.nodup_append]
    refine ⟨hnodup, List.nodup_singleton _, ?_⟩
    intro x hx hx2
    rw [List.mem_singleton] at hx2
    subst hx2
    exact (lookup_none_iff vars x).mp h hx

theorem vars_touch_lookup_some (vars : Vars) (name other : String) (v : Nat)
    (h : vars.lookup other = some v) : (vars_touch vars name).lookup other = some v := by
  unfold vars_touch
  split
  · exact h
  · rw [lookup_append, h]

theorem vars_touch_lookup_get (vars : Vars) (name other : String) (v : Nat)
    (h : (vars_touch vars name).lookup other = some v) : vars_get vars other = v := by
  have := lookup_vars_touch vars name other
  unfold vars_get at this
  rw [h] at this
  simpa [vars_get] using this.symm

/-- The loop of lines 109-111 of `exec`: the variables of `values` other than `max` are
written in the section; the variables of the file keep their values. -/
theorem write_vars_fold (values : Vars) (l : Vars)
    (hl : ∀ p ∈ l, values.lookup p.1 = some p.2) :
    ∀ sgv : Section_GV, (∀ n, sgv.file.global_vars.lookup n = values.lookup n) →
      (∀ n, (l.foldl (fun sgv p => if p.1 ≠ "max" then sgv.write_var p.1 p.2 else sgv)
        sgv).file.global_vars.lookup n = values.lookup n) ∧
      (l.foldl (fun sgv p => if p.1 ≠ "max" then sgv.write_var p.1 p.2 else sgv)
        sgv).file.sections = sgv.file.sections ∧
      (∀ n, (l.foldl (fun sgv p => if p.1 ≠ "max" then sgv.write_var p.1 p.2 else sgv)
        sgv).vars.lookup n =
          if n ≠ "max" ∧ n ∈ l.map Prod.fst then values.lookup n else sgv.vars.lookup n) := by
  induction l with
  | nil =>
    intro sgv h
    exact ⟨h, rfl, fun n => by simp⟩
  | cons p rest ih =>
    intro sgv h
    have hp := hl p (List.mem_cons_self _ _)
    have hrest : ∀ q ∈ rest, values.lookup q.1 = some q.2 :=
      fun q hq => hl q (List.mem_cons_of_mem _ hq)
    rw [List.foldl_cons]
    by_cases hmax : p.1 = "max"
    · have hstep : (if p.1 ≠ "max" then sgv.write_var p.1 p.2 else sgv) = sgv := by
        rw [if_neg (by simpa using hmax)]
      rw [hstep]
      obtain ⟨h1, h2, h3⟩ := ih hrest sgv h
      refine ⟨h1, h2, ?_⟩
      intro n
      rw [h3 n, List.map_cons]
      apply if_congr _ rfl rfl
      constructor
      · rintro ⟨hn, hmem⟩
        exact ⟨hn, List.mem_cons_of_mem _ hmem⟩
      · rintro ⟨hn, hmem⟩
        refine ⟨hn, ?_⟩
        rcases List.mem_cons.mp hmem with e | e
        · exact absurd (e.trans hmax) hn
        · exact e
    · have hstep : (if p.1 ≠ "max" then sgv.write_var p.1 p.2 else sgv) =
          sgv.write_var p.1 p.2 := by
        rw [if_pos hmax]
      rw [hstep]
      have h0 : ∀ n, (sgv.write_var p.1 p.2).file.global_vars.lookup n = values.lookup n := by
        intro n
        simp only [Section_GV.write_var]
        rw [lookup_vars_set]
        split_ifs with hn
        · rw [hn, hp]
        · exact h n
      obtain ⟨h1, h2, h3⟩ := ih hrest (sgv.write_var p.1 p.2) h0
      refine ⟨h1, h2, ?_⟩
      intro n
      rw [h3 n, List.map_cons]
      have hw : (sgv.write_var p.1 p.2).vars.lookup n =
          if n = p.1 then some p.2 else sgv.vars.lookup n := by
        simp only [Section_GV.write_var]
        rw [lookup_vars_set]
      rw [hw]
      by_cases hmem : n ≠ "max" ∧ n ∈ rest.map Prod.fst
      · rw [if_pos hmem, if_pos ⟨hmem.1, List.mem_cons_of_mem _ hmem.2⟩]
      · rw [if_neg hmem]
        by_cases hnp : n = p.1
        · rw [if_pos hnp, if_pos ⟨by rw [hnp]; exact hmax, by rw [hnp]; exact List.mem_cons_self _ _⟩,
            hnp, hp]
        · rw [if_neg hnp, if_neg]
          rintro ⟨hn, hmem2⟩
          rcases List.mem_cons.mp hmem2 with e | e
          · exact hnp e
          · exact hmem ⟨hn, e⟩

/-- The value `k - m + 1` of line 106 of `exec`, in `uint` arithmetic, from the variables
of the output file. -/
theorem rewrite_max_lookup (outfile : Kff_file)
    (hnodup : (outfile.global_vars.map Prod.fst).Nodup) :
    (vars_get outfile.global_vars "max" <
        (usub (vars_get outfile.global_vars "k" % 2 ^ 32)
          (vars_get outfile.global_vars "m" % 2 ^ 32) + 1) % 2 ^ 32 →
      ∃ vars, (rewrite_max outfile).sections = outfile.sections ++ [OutSection.gv vars] ∧
        (∀ n, vars.lookup n = if n = "max" then
            some ((usub (vars_get outfile.global_vars "k" % 2 ^ 32)
              (vars_get outfile.global_vars "m" % 2 ^ 32) + 1) % 2 ^ 32)
          else (vars_touch (vars_touch (vars_touch outfile.global_vars "k") "m")
            "max").lookup n) ∧
        (∀ n, (rewrite_max outfile).global_vars.lookup n = if n = "max" then
            some ((usub (vars_get outfile.global_vars "k" % 2 ^ 32)
              (vars_get outfile.global_vars "m" % 2 ^ 32) + 1) % 2 ^ 32)
          else (vars_touch (vars_touch (vars_touch outfile.global_vars "k") "m")
            "max").lookup n)) ∧
    (¬ vars_get outfile.global_vars "max" <
        (usub (vars_get outfile.global_vars "k" % 2 ^ 32)
          (vars_get outfile.global_vars "m" % 2 ^ 32) + 1) % 2 ^ 32 →
      (rewrite_max outfile).sections = outfile.sections ∧
      (rewrite_max outfile).global_vars =
        vars_touch (vars_touch (vars_touch outfile.global_vars "k") "m") "max") := by
  have hk : vars_get (vars_touch (vars_touch outfile.global_vars "k") "m") "k" =
      vars_get outfile.global_vars "k" := by
    rw [lookup_vars_touch, lookup_vars_touch]
  have hm : vars_get (vars_touch (vars_touch outfile.global_vars "k") "m") "m" =
      vars_get outfile.global_vars "m" := by
    rw [lookup_vars_touch, lookup_vars_touch]
  have hmax : vars_get (vars_touch (vars_touch (vars_touch outfile.global_vars "k") "m")
      "max") "max" = vars_get outfile.global_vars "max" := by
    rw [lookup_vars_touch, lookup_vars_touch, lookup_vars_touch]
  have hnd := vars_touch_nodup _ "max" (vars_touch_nodup _ "m"
    (vars_touch_nodup _ "k" hnodup))
  constructor
  · intro hlt
    unfold rewrite_max
    simp only [hk, hm, hmax, if_pos hlt]
    obtain ⟨h1, h2, h3⟩ := write_vars_fold
      (vars_touch (vars_touch (vars_touch outfile.global_vars "k") "m") "max")
      (vars_touch (vars_touch (vars_touch outfile.global_vars "k") "m") "max")
      (fun p hp => lookup_of_mem _ hnd p hp)
      (Section_GV.mk (Kff_file.mk
        (vars_touch (vars_touch (vars_touch outfile.global_vars "k") "m") "max")
        outfile.sections) []) (fun n => rfl)
    generalize List.foldl (fun sgv p => if p.1 ≠ "max" then sgv.write_var p.1 p.2 else sgv)
      (Section_GV.mk (Kff_file.mk
        (vars_touch (vars_touch (vars_touch outfile.global_vars "k") "m") "max")
        outfile.sections) [])
      (vars_touch (vars_touch (vars_touch outfile.global_vars "k") "m") "max") = sgvF
      at h1 h2 h3 ⊢
    refine ⟨(sgvF.write_var "max" ((usub (vars_get outfile.global_vars "k" % 2 ^ 32)
      (vars_get outfile.global_vars "m" % 2 ^ 32) + 1) % 2 ^ 32)).vars, ?_, ?_, ?_⟩
    · simp only [Section_GV.close, Section_GV.write_var]
      rw [h2]
    · intro n
      simp only [Section_GV.write_var]
      rw [lookup_vars_set, h3 n]
      by_cases hn : n = "max"
      · simp [hn]
      · simp only [if_neg hn]
        by_cases hmem : n ∈ (vars_touch (vars_touch (vars_touch outfile.global_vars "k") "m")
            "max").map Prod.fst
        · rw [if_pos ⟨hn, hmem⟩]
        · rw [if_neg (fun h => hmem h.2)]
          exact ((lookup_none_iff _ n).mpr hmem).symm
    · intro n
      simp only [Section_GV.close, Section_GV.write_var]
      rw [lookup_vars_set, h1 n]
  · intro hge
    unfold rewrite_max
    simp only [hk, hm, hmax, if_neg hge]
    exact ⟨trivial, trivial⟩

/-- C18: for an output file whose variables have distinct names, lines 103-117 of `exec`
(`rewrite_max`, run when an `m` section is reached and before it is compacted) do the
following. When `max` is below `k - m + 1` one variable section is written; it holds `max`
with the value `k - m + 1`, every other variable of the output file with its current
value, and no variable with another value; afterwards `max` is `k - m + 1` and every other
variable of the file has its former value. When `max` is not below `k - m + 1` no section
is written and no variable changes. In both cases `max >= k - m + 1` afterwards. -/
theorem rewrite_max_spec (outfile : Kff_file)
    (hnodup : (outfile.global_vars.map Prod.fst).Nodup) :
    (vars_get outfile.global_vars "max" < max_needed outfile.global_vars →
      ∃ vars, (rewrite_max outfile).sections = outfile.sections ++ [OutSection.gv vars] ∧
        vars.lookup "max" = some (max_needed outfile.global_vars) ∧
        (∀ name v, name ≠ "max" → outfile.global_vars.lookup name = some v →
          vars.lookup name = some v) ∧
        (∀ name v, name ≠ "max" → vars.lookup name = some v →
          vars_get outfile.global_vars name = v) ∧
        vars_get (rewrite_max outfile).global_vars "max" = max_needed outfile.global_vars ∧
        (∀ name, name ≠ "max" → vars_get (rewrite_max outfile).global_vars name =
          vars_get outfile.global_vars name)) ∧
    (¬ vars_get outfile.global_vars "max" < max_needed outfile.global_vars →
      (rewrite_max outfile).sections = outfile.sections ∧
      ∀ name, vars_get (rewrite_max outfile).global_vars name =
        vars_get outfile.global_vars name) ∧
    max_needed (rewrite_max outfile).global_vars ≤
      vars_get (rewrite_max outfile).global_vars "max" := by
  obtain ⟨h1, h2⟩ := rewrite_max_lookup outfile hnodup
  have hget : ∀ name, vars_get (vars_touch (vars_touch (vars_touch outfile.global_vars "k")
      "m") "max") name = vars_get outfile.global_vars name := by
    intro name
    rw [lookup_vars_touch, lookup_vars_touch, lookup_vars_touch]
  have part1 : vars_get outfile.global_vars "max" < max_needed outfile.global_vars →
      vars_get (rewrite_max outfile).global_vars "max" = max_needed outfile.global_vars ∧
      (∀ name, name ≠ "max" → vars_get (rewrite_max outfile).global_vars name =
        vars_get outfile.global_vars name) := by
    intro hlt
    obtain ⟨vars, -, -, h5⟩ := h1 hlt
    constructor
    · unfold vars_get
      rw [h5 "max", if_pos rfl]
      rfl
    · intro name hname
      rw [← hget name]
      unfold vars_get
      rw [h5 name, if_neg hname]
  have part2 : ¬ vars_get outfile.global_vars "max" < max_needed outfile.global_vars →
      ∀ name, vars_get (rewrite_max outfile).global_vars name =
        vars_get outfile.global_vars name := by
    intro hge name
    rw [(h2 hge).2, hget name]
  have hneed : max_needed (rewrite_max outfile).global_vars =
      max_needed outfile.global_vars := by
    by_cases hlt : vars_get outfile.global_vars "max" < max_needed outfile.global_vars
    · unfold max_needed
      rw [(part1 hlt).2 "k" (by decide), (part1 hlt).2 "m" (by decide)]
    · unfold max_needed
      rw [part2 hlt "k", part2 hlt "m"]
  refine ⟨?_, ?_, ?_⟩
  · intro hlt
    obtain ⟨vars, h3, h4, h5⟩ := h1 hlt
    refine ⟨vars, h3, ?_, ?_, ?_, (part1 hlt).1, (part1 hlt).2⟩
    · rw [h4 "max", if_pos rfl]
      rfl
    · intro name v hname hv
      rw [h4 name, if_neg hname]
      exact vars_touch_lookup_some _ _ _ _ (vars_touch_lookup_some _ _ _ _
        (vars_touch_lookup_some _ _ _ _ hv))
    · intro name v hname hv
      rw [h4 name, if_neg hname] at hv
      rw [← hget name]
      unfold vars_get
      rw [hv]
      rfl
  · intro hge
    exact ⟨(h2 hge).1, part2 hge⟩
  · rw [hneed]
    by_cases hlt : vars_get outfile.global_vars "max" < max_needed outfile.global_vars
    · rw [(part1 hlt).1]
    · rw [part2 hlt "max"]
      omega

theorem rewrite_max_spec_witness :
    (vars_get [("k", 5), ("m", 2), ("data_size", 1), ("max", 1)] "max" <
        max_needed [("k", 5), ("m", 2), ("data_size", 1), ("max", 1)] →
      ∃ vars, (rewrite_max ⟨[("k", 5), ("m", 2), ("data_size", 1), ("max", 1)], []⟩).sections =
          ([] : List OutSection) ++ [OutSection.gv vars] ∧
        vars.lookup "max" = some (max_needed [("k", 5), ("m", 2), ("data_size", 1), ("max", 1)]) ∧
        (∀ name v, name ≠ "max" →
          List.lookup name [("k", 5), ("m", 2), ("data_size", 1), ("max", 1)] = some v →
          vars.lookup name = some v) ∧
        (∀ name v, name ≠ "max" → vars.lookup name = some v →
          vars_get [("k", 5), ("m", 2), ("data_size", 1), ("max", 1)] name = v) ∧
        vars_get (rewrite_max ⟨[("k", 5), ("m", 2), ("data_size", 1), ("max", 1)],
          []⟩).global_vars "max" =
          max_needed [("k", 5), ("m", 2), ("data_size", 1), ("max", 1)] ∧
        (∀ name, name ≠ "max" →
          vars_get (rewrite_max ⟨[("k", 5), ("m", 2), ("data_size", 1), ("max", 1)],
            []⟩).global_vars name =
          vars_get [("k", 5), ("m", 2), ("data_size", 1), ("max", 1)] name)) ∧
    (¬ vars_get [("k", 5), ("m", 2), ("data_size", 1), ("max", 1)] "max" <
        max_needed [("k", 5), ("m", 2), ("data_size", 1), ("max", 1)] →
      (rewrite_max ⟨[("k", 5), ("m", 2), ("data_size", 1), ("max", 1)], []⟩).sections = [] ∧
      ∀ name, vars_get (rewrite_max ⟨[("k", 5), ("m", 2), ("data_size", 1), ("max", 1)],
          []⟩).global_vars name =
        vars_get [("k", 5), ("m", 2), ("data_size", 1), ("max", 1)] name) ∧
    max_needed (rewrite_max ⟨[("k", 5), ("m", 2), ("data_size", 1), ("max", 1)],
        []⟩).global_vars ≤
      vars_get (rewrite_max ⟨[("k", 5), ("m", 2), ("data_size", 1), ("max", 1)],
        []⟩).global_vars "max" :=
  rewrite_max_spec ⟨[("k", 5), ("m", 2), ("data_size", 1), ("max", 1)], []⟩ (by decide)

/-! ## The sections that `exec` omits -/

theorem write_var_fold_sections (f : Section_GV → String × Nat → Section_GV)
    (hf : ∀ sgv p, (f sgv p).file.sections = sgv.file.sections) (l : Vars) :
    ∀ sgv : Section_GV, (l.foldl f sgv).file.sections = sgv.file.sections := by
  induction l with
  | nil => intro sgv; rfl
  | cons p rest ih =>
    intro sgv
    rw [List.foldl_cons, ih, hf]

theorem write_var_sections (sgv : Section_GV) (name : String) (value : Nat) :
    (sgv.write_var name value).file.sections = sgv.file.sections := rfl

theorem rewrite_max_sections (outfile : Kff_file) :
    (rewrite_max outfile).sections = outfile.sections ∨
      ∃ vars, (rewrite_max outfile).sections = outfile.sections ++ [OutSection.gv vars] := by
  unfold rewrite_max
  simp only []
  split
  · right
    simp only [Section_GV.close]
    rw [write_var_sections, write_var_fold_sections (fun sgv p =>
      if p.1 ≠ "max" then sgv.write_var p.1 p.2 else sgv)
      (fun sgv p => by dsimp only; split <;> rfl)]
    exact ⟨_, rfl⟩
  · left
    rfl

theorem compact_section_file_sections (sorted : Bool) (a a1 : Arena)
    (outfile outfile1 : Kff_file) (sm : Section)
    (h : compact_section_file sorted a outfile sm = Except.ok (a1, outfile1)) :
    ∃ skmers, outfile1.sections = outfile.sections ++ [OutSection.minimizer skmers] := by
  unfold compact_section_file at h
  simp only [] at h
  split at h
  · cases h
  · split at h
    · split at h <;> cases h
    · split at h
      · cases h
      · rename_i skmers _
        cases h
        exact ⟨skmers, rfl⟩

theorem all_append_gv (l : List OutSection) (s : OutSection)
    (hl : ∀ x ∈ l, is_gv_or_minimizer x = true) (hs : is_gv_or_minimizer s = true) :
    ∀ x ∈ l ++ [s], is_gv_or_minimizer x = true := by
  intro x hx
  rcases List.mem_append.mp hx with h | h
  · exact hl x h
  · rw [List.mem_singleton] at h
    rw [h]
    exact hs

/-- One step of `exec` writes variable and minimizer sections only. -/
theorem exec_step_sections (sorted : Bool) (st st1 : ExecState) (sec : InSection)
    (hst : ∀ s ∈ st.outfile.sections, is_gv_or_minimizer s = true)
    (h : exec_step sorted st sec = Except.ok st1) :
    ∀ s ∈ st1.outfile.sections, is_gv_or_minimizer s = true := by
  cases sec with
  | gv vars =>
    simp only [exec_step] at h
    split at h
    · cases h
      simp only [Section_GV.close]
      refine all_append_gv _ _ ?_ rfl
      rw [write_var_fold_sections (fun osgv p => osgv.write_var p.1 p.2) (fun sgv p => rfl)]
      exact hst
    · cases h
      exact hst
  | index content =>
    simp only [exec_step] at h
    cases h
    exact hst
  | raw content =>
    simp only [exec_step] at h
    cases h
    exact hst
  | minimizer sm =>
    simp only [exec_step] at h
    split at h
    · cases h
    · rename_i a1 outfile1 hc
      cases h
      obtain ⟨skmers, hs⟩ := compact_section_file_sections _ _ _ _ _ _ hc
      simp only
      rw [hs]
      refine all_append_gv _ _ ?_ rfl
      rcases rewrite_max_sections st.outfile with e | ⟨vars, e⟩
      · rw [e]
        exact hst
      · rw [e]
        exact all_append_gv _ _ hst rfl

theorem exec_loop_sections (sorted : Bool) (input : List InSection) :
    ∀ (st st1 : ExecState), (∀ s ∈ st.outfile.sections, is_gv_or_minimizer s = true) →
      exec_loop sorted input st = Except.ok st1 →
      ∀ s ∈ st1.outfile.sections, is_gv_or_minimizer s = true := by
  induction input with
  | nil =>
    intro st st1 hst h
    simp only [exec_loop] at h
    cases h
    exact hst
  | cons sec rest ih =>
    intro st st1 hst h
    simp only [exec_loop] at h
    split at h
    · cases h
    · rename_i st2 h2
      exact ih st2 st1 (exec_step_sections sorted st st2 sec hst h2) h

/-- A step of `exec` on a section that is not raw does not read `first_warning`. -/
theorem exec_step_warning (sorted : Bool) (outfile : Kff_file) (a : Arena) (b1 b2 : Bool)
    (sec : InSection) (hsec : is_raw_or_index sec = false) :
    (match exec_step sorted ⟨outfile, a, b1⟩ sec with
      | Except.ok st => Except.ok (st.outfile, st.arena)
      | Except.error e => Except.error e : Except Fatal (Kff_file × Arena)) =
    (match exec_step sorted ⟨outfile, a, b2⟩ sec with
      | Except.ok st => Except.ok (st.outfile, st.arena)
      | Except.error e => Except.error e) := by
  cases sec with
  | gv vars =>
    simp only [exec_step]
    split_ifs <;> rfl
  | index content => cases hsec
  | raw content => cases hsec
  | minimizer sm =>
    simp only [exec_step]
    cases compact_section_file sorted a (rewrite_max outfile) sm with
    | error e => rfl
    | ok r => rfl

theorem exec_loop_filter (sorted : Bool) (input : List InSection) :
    ∀ (outfile : Kff_file) (a : Arena) (b1 b2 : Bool),
      (match exec_loop sorted input ⟨outfile, a, b1⟩ with
        | Except.ok st => Except.ok (st.outfile, st.arena)
        | Except.error e => Except.error e : Except Fatal (Kff_file × Arena)) =
      (match exec_loop sorted (input.filter (fun sec => !is_raw_or_index sec))
          ⟨outfile, a, b2⟩ with
        | Except.ok st => Except.ok (st.outfile, st.arena)
        | Except.error e => Except.error e) := by
  induction input with
  | nil =>
    intro outfile a b1 b2
    rfl
  | cons sec rest ih =>
    intro outfile a b1 b2
    cases hsec : is_raw_or_index sec with
    | true =>
      rw [List.filter_cons_of_neg (by simp [hsec])]
      cases sec with
      | gv vars => cases hsec
      | minimizer sm => cases hsec
      | index content =>
        simp only [exec_loop, exec_step]
        exact ih outfile a b1 b2
      | raw content =>
        simp only [exec_loop, exec_step]
        exact ih outfile a false b2
    | false =>
      rw [List.filter_cons_of_pos (by simp [hsec])]
      have hw := exec_step_warning sorted outfile a b1 b2 sec hsec
      simp only [exec_loop]
      cases h1 : exec_step sorted ⟨outfile, a, b1⟩ sec with
      | error e1 =>
        cases h2 : exec_step sorted ⟨outfile, a, b2⟩ sec with
        | error e2 =>
          rw [h1, h2] at hw
          simp only [Except.error.injEq] at hw
          simp only [hw]
        | ok st2 =>
          rw [h1, h2] at hw
          cases hw
      | ok st1 =>
        cases h2 : exec_step sorted ⟨outfile, a, b2⟩ sec with
        | error e2 =>
          rw [h1, h2] at hw
          cases hw
        | ok st2 =>
          rw [h1, h2] at hw
          simp only [Except.ok.injEq, Prod.mk.injEq] at hw
          obtain ⟨o1, a1, w1⟩ := st1
          obtain ⟨o2, a2, w2⟩ := st2
          simp only at hw
          obtain ⟨e1, e2⟩ := hw
          subst e1
          subst e2
          exact ih o1 a1 w1 w2

/-- C19, as amended: `exec` reads every raw and every index section of the input and
writes nothing for it. The output file of an input is the output file of the same input
without its raw and index sections, and it holds variable and minimizer sections only. -/
theorem exec_omits_raw_and_index (sorted : Bool) (input : List InSection) :
    exec_output sorted input =
      exec_output sorted (input.filter (fun sec => !is_raw_or_index sec)) ∧
    ∀ outfile, exec_output sorted input = Except.ok outfile →
      ∀ s ∈ outfile.sections, is_gv_or_minimizer s = true := by
  constructor
  · have h := exec_loop_filter sorted input ⟨[], []⟩ Arena.init true true
    unfold exec_output exec
    cases h1 : exec_loop sorted input ⟨⟨[], []⟩, Arena.init, true⟩ with
    | error e1 =>
      cases h2 : exec_loop sorted (input.filter (fun sec => !is_raw_or_index sec))
          ⟨⟨[], []⟩, Arena.init, true⟩ with
      | error e2 =>
        rw [h1, h2] at h
        simp only [Except.error.injEq] at h
        simp only [h]
      | ok st2 =>
        rw [h1, h2] at h
        cases h
    | ok st1 =>
      cases h2 : exec_loop sorted (input.filter (fun sec => !is_raw_or_index sec))
          ⟨⟨[], []⟩, Arena.init, true⟩ with
      | error e2 =>
        rw [h1, h2] at h
        cases h
      | ok st2 =>
        rw [h1, h2] at h
        simp only [Except.ok.injEq, Prod.mk.injEq] at h
        simp only [h.1]
  · intro outfile h
    unfold exec_output exec at h
    split at h
    · rename_i st hst
      cases h
      exact exec_loop_sections sorted input _ st (by intro s hs; cases hs) hst
    · cases h

/-- C19, counterexample: the input made of one raw section and one index section. `exec`
ends normally and the output file holds no section: neither section is passed through. -/
theorem exec_drops_raw_and_index :
    exec_output false [InSection.raw [1, 2, 3], InSection.index [4, 5]] =
      Except.ok { global_vars := [], sections := [] } := by
  rfl

/-! ## The sorted mode -/

theorem interleaved_compare_isSome (k m bytes_compacted data_size mini_pos_size : Nat)
    (mem : List Nat) (kmer1 kmer2 : Nat)
    (h : mini_pos_from_buffer bytes_compacted data_size mini_pos_size mem kmer1 =
      mini_pos_from_buffer bytes_compacted data_size mini_pos_size mem kmer2) :
    (interleaved_compare_kmers k m bytes_compacted data_size mini_pos_size mem
      kmer1 kmer2).isSome = true := by
  unfold interleaved_compare_kmers
  simp only [h, ne_eq, not_true_eq_false, if_false]
  split <;> rfl

theorem insert_kmer_some (compare : Nat → Nat → Option Int) (kmer : Nat) (l : List Nat)
    (h : ∀ x ∈ l, (compare kmer x).isSome = true) :
    ∃ r, insert_kmer compare kmer l = some r ∧ ∀ z, z ∈ r ↔ z = kmer ∨ z ∈ l := by
  induction l with
  | nil => exact ⟨[kmer], rfl, by simp⟩
  | cons x rest ih =>
    obtain ⟨r, hr1, hr2⟩ := ih (fun y hy => h y (List.mem_cons_of_mem _ hy))
    have hx := h x (List.mem_cons_self _ _)
    obtain ⟨c, hc⟩ := Option.isSome_iff_exists.mp hx
    simp only [insert_kmer, comp_function, hc, Option.map_some']
    by_cases hlt : c < 0
    · simp only [hlt, decide_True]
      exact ⟨_, rfl, by simp⟩
    · simp only [hlt, decide_False, hr1, Option.map_some']
      refine ⟨_, rfl, ?_⟩
      intro z
      simp only [List.mem_cons, hr2]
      tauto

theorem sort_column_some (compare : Nat → Nat → Option Int) (l : List Nat)
    (h : ∀ x ∈ l, ∀ y ∈ l, (compare x y).isSome = true) :
    ∃ r, sort_column compare l = some r ∧ ∀ z, z ∈ r ↔ z ∈ l := by
  induction l with
  | nil => exact ⟨[], rfl, by simp⟩
  | cons x rest ih =>
    obtain ⟨r, hr1, hr2⟩ := ih (fun a ha b hb =>
      h a (List.mem_cons_of_mem _ ha) b (List.mem_cons_of_mem _ hb))
    obtain ⟨r2, hr3, hr4⟩ := insert_kmer_some compare x r (fun y hy =>
      h x (List.mem_cons_self _ _) y (List.mem_cons_of_mem _ ((hr2 y).mp hy)))
    simp only [sort_column, hr1, hr3]
    refine ⟨r2, rfl, ?_⟩
    intro z
    rw [hr4, hr2, List.mem_cons]

theorem sort_matrix_some (compare : Nat → Nat → Option Int) (kmers : List (List Nat))
    (h : ∀ column ∈ kmers, ∀ x ∈ column, ∀ y ∈ column, (compare x y).isSome = true) :
    ∃ sorted, sort_matrix compare kmers = some sorted := by
  induction kmers with
  | nil => exact ⟨[], rfl⟩
  | cons column rest ih =>
    obtain ⟨r, hr⟩ := ih (fun c hc => h c (List.mem_cons_of_mem _ hc))
    obtain ⟨s, hs, -⟩ := sort_column_some compare column (h column (List.mem_cons_self _ _))
    simp only [sort_matrix, hs, hr, Option.map_some']
    exact ⟨_, rfl⟩

theorem sorted_assembly_error (compare : Nat → Nat → Option Int)
    (subseq_to_uint : Nat → Nat → Nat → Nat → Nat)
    (sequence_compare : Nat → Nat → Nat → Nat → Nat → Nat → Nat → Nat → Int) (k m : Nat)
    (kmers : List (List Nat)) :
    sorted_assembly compare subseq_to_uint sequence_compare k m kmers =
      match sort_matrix compare kmers with
      | none => Except.error Fatal.assertion
      | some _ => Except.error (Fatal.exit 1) := by
  unfold sorted_assembly
  cases sort_matrix compare kmers <;> rfl

/-- C20: in sorted mode the compaction produces no output. For every matrix whose columns
hold records with the same stored minimizer offset (what the assertion of the comparison
function asks for), `sorted_assembly` returns no paths and ends in the `exit(1)` of
`polish_sort`; `colinear_chaining` returns the empty selection for every input; for every
matrix and comparison `sorted_assembly` ends in a fatal error; and `compact_section` with
`sorted` set ends in a fatal error before the output section is written, for every arena,
output file and input section. -/
theorem sorted_mode_not_implemented (k m bytes_compacted data_size mini_pos_size : Nat)
    (mem : List Nat) (subseq_to_uint : Nat → Nat → Nat → Nat → Nat)
    (sequence_compare : Nat → Nat → Nat → Nat → Nat → Nat → Nat → Nat → Int)
    (kmers : List (List Nat))
    (huniform : ∀ column ∈ kmers, ∀ x ∈ column, ∀ y ∈ column,
      mini_pos_from_buffer bytes_compacted data_size mini_pos_size mem x =
        mini_pos_from_buffer bytes_compacted data_size mini_pos_size mem y) :
    sorted_assembly
        (interleaved_compare_kmers k m bytes_compacted data_size mini_pos_size mem)
        subseq_to_uint sequence_compare k m kmers = Except.error (Fatal.exit 1) ∧
    (∀ candidates, colinear_chaining candidates = []) ∧
    (∀ compare matrix, ∃ e, sorted_assembly compare subseq_to_uint sequence_compare k m
      matrix = Except.error e) ∧
    (∀ a outfile sm, ∃ e, compact_section_file true a outfile sm = Except.error e) := by
  refine ⟨?_, fun _ => rfl, ?_, ?_⟩
  · obtain ⟨sorted, hs⟩ := sort_matrix_some
      (interleaved_compare_kmers k m bytes_compacted data_size mini_pos_size mem) kmers
      (fun column hc x hx y hy => interleaved_compare_isSome _ _ _ _ _ _ _ _
        (huniform column hc x hx y hy))
    rw [sorted_assembly_error, hs]
  · intro compare matrix
    rw [sorted_assembly_error]
    cases sort_matrix compare matrix with
    | none => exact ⟨_, rfl⟩
    | some _ => exact ⟨_, rfl⟩
  · intro a outfile sm
    unfold compact_section_file
    simp only [if_true]
    cases prepare_kmer_matrix a sm with
    | none => exact ⟨_, rfl⟩
    | some r =>
      obtain ⟨a1, kmers_per_index⟩ := r
      simp only
      split
      · exact ⟨_, rfl⟩
      · exact ⟨_, rfl⟩

theorem sorted_mode_not_implemented_witness :
    sorted_assembly
        (interleaved_compare_kmers 5 2 (bytes_compacted 5 2) 0 (mini_pos_size 5 2)
          [0x1B, 1, 0xDB, 1])
        (subseq_to_uint [0x1B, 1, 0xDB, 1]) (sequence_compare [0x1B, 1, 0xDB, 1]) 5 2
        [[], [], [0, 2], []] = Except.error (Fatal.exit 1) ∧
    (∀ candidates, colinear_chaining candidates = []) ∧
    (∀ compare matrix, ∃ e, sorted_assembly compare (subseq_to_uint [0x1B, 1, 0xDB, 1])
      (sequence_compare [0x1B, 1, 0xDB, 1]) 5 2 matrix = Except.error e) ∧
    (∀ a outfile sm, ∃ e, compact_section_file true a outfile sm = Except.error e) :=
  sorted_mode_not_implemented 5 2 (bytes_compacted 5 2) 0 (mini_pos_size 5 2)
    [0x1B, 1, 0xDB, 1] (subseq_to_uint [0x1B, 1, 0xDB, 1])
    (sequence_compare [0x1B, 1, 0xDB, 1]) [[], [], [0, 2], []] (by decide)

/-! ## The pairs of `greedy_assembly` -/

theorem Linked.firsts_nodup (pairs : List Pair) (hl : Linked pairs) :
    (pairs.filterMap Prod.fst).Nodup := by
  induction pairs using List.reverseRecOn with
  | nil => simp
  | append_singleton l p ih =>
    obtain ⟨q, s⟩ := p
    have ih1 := ih hl.snoc_inv
    rw [List.filterMap_append]
    cases q with
    | none => simpa using ih1
    | some c =>
      have hc := (Linked.last hl).2
      simp only [List.filterMap_cons, List.filterMap_nil]
      rw [List.nodup_append]
      refine ⟨ih1, List.nodup_singleton _, ?_⟩
      intro x hx hx2
      rw [List.mem_singleton] at hx2
      subst hx2
      apply hc
      obtain ⟨e, he1, he2⟩ := List.mem_filterMap.mp hx
      exact List.mem_map.mpr ⟨e, he1, he2⟩

theorem Linked.take_inv (pairs : List Pair) (hl : Linked pairs) (n : Nat) :
    Linked (pairs.take n) := by
  intro pre post p s hp
  apply hl pre (post ++ pairs.drop n) p s
  rw [← List.cons_append, ← List.append_assoc, ← hp, List.take_append_drop]

theorem split_at_index (pairs : List Pair) (n : Nat) (p : Pair) (h : pairs[n]? = some p) :
    pairs = pairs.take n ++ p :: pairs.drop (n + 1) := by
  have hn : n < pairs.length := by
    by_contra hc
    rw [List.getElem?_eq_none (by omega)] at h
    cases h
  rw [List.getElem?_eq_getElem hn] at h
  cases h
  rw [← List.drop_eq_getElem_cons hn, List.take_append_drop]

/-- C22: for a matrix of distinct references, no k-mer reference is the first component
(the matched candidate) of two pairs of the list returned by `greedy_assembly`: the
non-null first components, in list order, are pairwise distinct. -/
theorem greedy_links_once (subseq_to_uint : Nat → Nat → Nat → Nat → Nat)
    (sequence_compare : Nat → Nat → Nat → Nat → Nat → Nat → Nat → Nat → Int) (k m : Nat)
    (kmers : List (List Nat)) (hd : kmers.flatten.Nodup) :
    ((greedy_assembly subseq_to_uint sequence_compare k m kmers).filterMap Prod.fst).Nodup ∧
    ∀ (i j p s t : Nat), i < j →
      (greedy_assembly subseq_to_uint sequence_compare k m kmers)[i]? = some (some p, s) →
      (greedy_assembly subseq_to_uint sequence_compare k m kmers)[j]? ≠ some (some p, t) := by
  have inv := greedy_assembly_inv subseq_to_uint sequence_compare k m kmers hd
  refine ⟨Linked.firsts_nodup _ inv.linked, ?_⟩
  intro i j p s t hij hi hj
  have hsplit := split_at_index _ j _ hj
  have h2 := (inv.linked _ _ p t hsplit).2
  apply h2
  rw [List.mem_map]
  refine ⟨(some p, s), ?_, rfl⟩
  rw [List.mem_iff_getElem?]
  refine ⟨i, ?_⟩
  rw [List.getElem?_take_of_lt hij]
  exact hi

theorem greedy_links_once_witness :
    ((greedy_assembly (fun kmer _ _ _ => kmer % 2)
        (fun kmer _ _ _ candidate _ _ _ => (kmer : Int) / 10 - candidate % 10) 3 1
        [[12, 23], [31, 20, 14], [43, 40]]).filterMap Prod.fst).Nodup ∧
    ∀ (i j p s t : Nat), i < j →
      (greedy_assembly (fun kmer _ _ _ => kmer % 2)
        (fun kmer _ _ _ candidate _ _ _ => (kmer : Int) / 10 - candidate % 10) 3 1
        [[12, 23], [31, 20, 14], [43, 40]])[i]? = some (some p, s) →
      (greedy_assembly (fun kmer _ _ _ => kmer % 2)
        (fun kmer _ _ _ candidate _ _ _ => (kmer : Int) / 10 - candidate % 10) 3 1
        [[12, 23], [31, 20, 14], [43, 40]])[j]? ≠ some (some p, t) :=
  greedy_links_once _ _ 3 1 [[12, 23], [31, 20, 14], [43, 40]] (by decide)

/-- C23: for a matrix of `k - m + 1` columns (`k >= m`) of distinct references, the second
components of the list returned by `greedy_assembly` are the references of the matrix,
column after column: every reference is the second component of exactly one pair and the
list has as many pairs as the matrix has references. The final pass over the last column
(lines 569-578) appends nothing: the list returned is the list built by the loop over the
columns, in which every k-mer of the last column already is. -/
theorem greedy_seconds_once (subseq_to_uint : Nat → Nat → Nat → Nat → Nat)
    (sequence_compare : Nat → Nat → Nat → Nat → Nat → Nat → Nat → Nat → Int) (k m : Nat)
    (kmers : List (List Nat)) (hk : k < 2 ^ 32) (hm : m ≤ k)
    (hlen : kmers.length = k - m + 1) (hd : kmers.flatten.Nodup) :
    (greedy_assembly subseq_to_uint sequence_compare k m kmers).map Prod.snd =
      kmers.flatten ∧
    (∀ r ∈ kmers.flatten,
      ((greedy_assembly subseq_to_uint sequence_compare k m kmers).map Prod.snd).count r = 1) ∧
    (greedy_assembly subseq_to_uint sequence_compare k m kmers).length =
      kmers.flatten.length ∧
    greedy_assembly subseq_to_uint sequence_compare k m kmers =
      (List.range (usub k m)).foldl
        (link_column subseq_to_uint sequence_compare (usub k m) kmers)
        ((kmers.getD 0 []).map (fun kmer => (none, kmer))) := by
  have inv := greedy_assembly_inv subseq_to_uint sequence_compare k m kmers hd
  have hs : (greedy_assembly subseq_to_uint sequence_compare k m kmers).map Prod.snd =
      kmers.flatten := by
    have := inv.seconds
    rw [usub_eq k m hk hm, ← hlen, List.take_length] at this
    exact this
  refine ⟨hs, ?_, ?_, ?_⟩
  · intro r hr
    rw [hs]
    exact List.count_eq_one_of_mem hd hr
  · have := congrArg List.length hs
    simpa using this
  · have inv1 := link_columns_inv subseq_to_uint sequence_compare (usub k m) kmers hd
      (usub k m)
    have hs1 := inv1.seconds
    rw [take_succ_flatten] at hs1
    obtain ⟨pre, sp, h1, -, h3⟩ := List.map_eq_append_iff.mp hs1
    have := last_kmer_fold (kmers.getD (usub k m) []) pre sp [] h3
    simp only [List.append_nil] at this
    simp only [greedy_assembly]
    rw [h1, this]

theorem greedy_seconds_once_witness :
    (greedy_assembly (fun kmer _ _ _ => kmer % 2)
        (fun kmer _ _ _ candidate _ _ _ => (kmer : Int) / 10 - candidate % 10) 3 1
        [[12, 23], [31, 20, 14], [43, 40]]).map Prod.snd =
      [[12, 23], [31, 20, 14], [43, 40]].flatten ∧
    (∀ r ∈ [[12, 23], [31, 20, 14], [43, 40]].flatten,
      ((greedy_assembly (fun kmer _ _ _ => kmer % 2)
        (fun kmer _ _ _ candidate _ _ _ => (kmer : Int) / 10 - candidate % 10) 3 1
        [[12, 23], [31, 20, 14], [43, 40]]).map Prod.snd).count r = 1) ∧
    (greedy_assembly (fun kmer _ _ _ => kmer % 2)
        (fun kmer _ _ _ candidate _ _ _ => (kmer : Int) / 10 - candidate % 10) 3 1
        [[12, 23], [31, 20, 14], [43, 40]]).length =
      [[12, 23], [31, 20, 14], [43, 40]].flatten.length ∧
    greedy_assembly (fun kmer _ _ _ => kmer % 2)
        (fun kmer _ _ _ candidate _ _ _ => (kmer : Int) / 10 - candidate % 10) 3 1
        [[12, 23], [31, 20, 14], [43, 40]] =
      (List.range (usub 3 1)).foldl
        (link_column (fun kmer _ _ _ => kmer % 2)
          (fun kmer _ _ _ candidate _ _ _ => (kmer : Int) / 10 - candidate % 10) (usub 3 1)
          [[12, 23], [31, 20, 14], [43, 40]])
        (([[12, 23], [31, 20, 14], [43, 40]].getD 0 []).map (fun kmer => (none, kmer))) :=
  greedy_seconds_once _ _ 3 1 [[12, 23], [31, 20, 14], [43, 40]] (by decide) (by decide)
    (by decide) (by decide)

/-- C26: for a matrix of distinct references, `pairs_to_paths` runs to its end on the list
of `greedy_assembly`, and for every pair `(p, s)` of the list with a non-null predecessor:
the pair whose successor is `p` comes earlier in the list, and in the state reached when
`(p, s)` is processed `p` is a key of the registry, registered under the index of an
existing path whose last element is `p`. -/
theorem registry_lookup_succeeds (subseq_to_uint : Nat → Nat → Nat → Nat → Nat)
    (sequence_compare : Nat → Nat → Nat → Nat → Nat → Nat → Nat → Nat → Int) (k m : Nat)
    (kmers : List (List Nat)) (hd : kmers.flatten.Nodup) :
    (∃ paths, pairs_to_paths (greedy_assembly subseq_to_uint sequence_compare k m kmers) =
      some paths) ∧
    ∀ (n p s : Nat), (greedy_assembly subseq_to_uint sequence_compare k m kmers)[n]? =
        some (some p, s) →
      (∃ n2 q, n2 < n ∧
        (greedy_assembly subseq_to_uint sequence_compare k m kmers)[n2]? = some (q, p)) ∧
      ∃ st idx path,
        pairs_loop ((greedy_assembly subseq_to_uint sequence_compare k m kmers).take n)
          { paths := [], path_registry := fun _ => none } = some st ∧
        st.path_registry p = some idx ∧ idx < st.paths.length ∧
        st.paths[idx]? = some path ∧ path.getLast? = some p := by
  have inv := greedy_assembly_inv subseq_to_uint sequence_compare k m kmers hd
  constructor
  · obtain ⟨st, -, h2, -⟩ := pairs_to_paths_inv _ inv.linked
    exact ⟨st.paths, h2⟩
  · intro n p s hn
    have hsplit := split_at_index _ n _ hn
    obtain ⟨h1, h2⟩ := inv.linked _ _ p s hsplit
    obtain ⟨st, h3, -, h4⟩ := pairs_to_paths_inv _ (Linked.take_inv _ inv.linked n)
    constructor
    · obtain ⟨e, he1, he2⟩ := List.mem_map.mp h1
      obtain ⟨n2, hn2⟩ := List.mem_iff_getElem?.mp he1
      have hlt : n2 < n := by
        by_contra hc
        rw [List.getElem?_take_eq_none (by omega)] at hn2
        cases hn2
      rw [List.getElem?_take_of_lt hlt] at hn2
      refine ⟨n2, e.1, hlt, ?_⟩
      rw [hn2, ← he2]
    · obtain ⟨idx, hidx⟩ := Option.isSome_iff_exists.mp (h4.reg_live p h1 h2)
      obtain ⟨path, hp1, hp2⟩ := h4.reg_tail p idx hidx
      refine ⟨st, idx, path, h3, hidx, ?_, hp1, hp2⟩
      by_contra hc
      rw [List.getElem?_eq_none (by omega)] at hp1
      cases hp1

theorem registry_lookup_succeeds_witness :
    (∃ paths, pairs_to_paths (greedy_assembly (fun kmer _ _ _ => kmer % 2)
        (fun kmer _ _ _ candidate _ _ _ => (kmer : Int) / 10 - candidate % 10) 3 1
        [[12, 23], [31, 20, 14], [43, 40]]) = some paths) ∧
    ∀ (n p s : Nat), (greedy_assembly (fun kmer _ _ _ => kmer % 2)
        (fun kmer _ _ _ candidate _ _ _ => (kmer : Int) / 10 - candidate % 10) 3 1
        [[12, 23], [31, 20, 14], [43, 40]])[n]? = some (some p, s) →
      (∃ n2 q, n2 < n ∧
        (greedy_assembly (fun kmer _ _ _ => kmer % 2)
          (fun kmer _ _ _ candidate _ _ _ => (kmer : Int) / 10 - candidate % 10) 3 1
          [[12, 23], [31, 20, 14], [43, 40]])[n2]? = some (q, p)) ∧
      ∃ st idx path,
        pairs_loop ((greedy_assembly (fun kmer _ _ _ => kmer % 2)
          (fun kmer _ _ _ candidate _ _ _ => (kmer : Int) / 10 - candidate % 10) 3 1
          [[12, 23], [31, 20, 14], [43, 40]]).take n)
          { paths := [], path_registry := fun _ => none } = some st ∧
        st.path_registry p = some idx ∧ idx < st.paths.length ∧
        st.paths[idx]? = some path ∧ path.getLast? = some p :=
  registry_lookup_succeeds _ _ 3 1 [[12, 23], [31, 20, 14], [43, 40]] (by decide)

/-- C29: for a block with `n` k-mers and minimizer position `p`, `n - 1 <= p <= k - m`
(`m <= k < 2^31`), the column index of line 211, computed in unsigned arithmetic, is
`k - m - p + j` for every k-mer index `j < n`; it is at most `k - m`, so it is an index of
the `k - m + 1` columns of `pos_matrix`, and the column of k-mer `j + 1` is the column just
after the column of k-mer `j`. -/
theorem kmer_column_in_range (k m p n : Nat) (hk : k < 2 ^ 31) (hm : m ≤ k)
    (hp1 : n ≤ p + 1) (hp2 : p ≤ k - m) :
    ∀ j < n, kmer_column k m p j = k - m - p + j ∧
      kmer_column k m p j < (List.replicate (usub k m + 1) ([] : List Nat)).length ∧
      (j + 1 < n → kmer_column k m p (j + 1) = kmer_column k m p j + 1) := by
  intro j hj
  have e1 := kmer_column_eq k m p j (by omega) hp2 hm
  have e2 := kmer_column_eq k m p (j + 1) (by omega) hp2 hm
  have e3 : usub k m = k - m := usub_eq k m (by omega) hm
  refine ⟨e1, ?_, ?_⟩
  · rw [List.length_replicate, e1, e3]
    omega
  · intro _
    rw [e1, e2]
    omega

theorem kmer_column_in_range_witness :
    kmer_column 5 2 3 0 = 5 - 2 - 3 + 0 ∧
      kmer_column 5 2 3 0 < (List.replicate (usub 5 2 + 1) ([] : List Nat)).length ∧
      (0 + 1 < 2 → kmer_column 5 2 3 (0 + 1) = kmer_column 5 2 3 0 + 1) :=
  kmer_column_in_range 5 2 3 2 (by decide) (by decide) (by decide) (by decide) 0 (by decide)

/-! ## The buffers of `write_paths` -/

/-- C28: for `m < k < 2^30`, an arena of bytes, every `data_size` for which the size
`(k - m + 1) * data_size` of `data_buffer` is a `uint` value, and every path of `L` k-mers,
`1 <= L <= k - m + 1`, `write_paths` stays inside its buffers: the shifts work on
`kmer_bytes` and `kmer_bytes + 1` bytes, at most the `max_skmer_bytes + 1` bytes of
`skmer_buffer`; every `compact_byte` is below `max_skmer_bytes + 1`; every payload slot
ends at or before `(k - m + 1) * data_size`, the size of `data_buffer`; and the model, in
which a write outside a buffer has no result, returns the call for the writer with buffers
of these sizes. -/
theorem write_path_in_bounds (mem : List Nat) (hmem : ∀ x ∈ mem, x < 256)
    (k m data_size max first : Nat) (others : List Nat) (hk : k < 2 ^ 30) (hm : m < k)
    (hds : (k - m + 1) * data_size < 2 ^ 32) (hL : others.length ≤ k - m) :
    kmer_bytes k m + 1 ≤ max_skmer_bytes k m + 1 ∧
    (∀ kmer_idx, 1 ≤ kmer_idx → kmer_idx < (first :: others).length →
      compact_byte k m (first :: others).length kmer_idx < max_skmer_bytes k m + 1) ∧
    (∀ kmer_idx, kmer_idx < (first :: others).length →
      (kmer_idx + 1) * data_size ≤ data_bytes k m data_size) ∧
    ∃ out, write_path mem k m data_size max (first :: others) = some out ∧
      out.seq.length = max_skmer_bytes k m + 1 ∧
      out.data.length = data_bytes k m data_size := by
  have e1 : usub k m = k - m := usub_eq k m (by omega) (by omega)
  have e2 : usub (k - m) 1 = k - m - 1 := usub_eq _ _ (by omega) (by omega)
  refine ⟨?_, ?_, ?_, ?_⟩
  · unfold kmer_bytes max_skmer_bytes
    rw [e1]
    omega
  · intro kmer_idx h1 h2
    simp only [List.length_cons] at h2
    unfold compact_byte skmer_offset max_skmer_bytes
    simp only [List.length_cons]
    rw [e1, e2]
    have e3 : (k - m - 1 + (others.length + 1)) % 2 ^ 32 = k - m - 1 + (others.length + 1) :=
      Nat.mod_eq_of_lt (by omega)
    rw [e3]
    have e4 : ((4 - (k - m - 1 + (others.length + 1)) % 4) % 4 + (k - m - 1) + kmer_idx)
        % 2 ^ 32 = (4 - (k - m - 1 + (others.length + 1)) % 4) % 4 + (k - m - 1) + kmer_idx :=
      Nat.mod_eq_of_lt (by omega)
    rw [e4]
    omega
  · intro kmer_idx h2
    simp only [List.length_cons] at h2
    unfold data_bytes
    rw [e1, Nat.mod_eq_of_lt hds]
    exact Nat.mul_le_mul_right _ (by omega)
  · obtain ⟨out, h1, -, -, h4, h5, -⟩ := write_path_spec mem hmem k m data_size max first
      others hk hm hds hL
    refine ⟨out, h1, ?_, ?_⟩
    · rw [h4]
      unfold max_skmer_bytes
      rw [e1]
    · rw [h5]
      unfold data_bytes
      rw [e1, Nat.mod_eq_of_lt hds]

theorem write_path_in_bounds_witness :
    kmer_bytes 5 2 + 1 ≤ max_skmer_bytes 5 2 + 1 ∧
    (∀ kmer_idx, 1 ≤ kmer_idx → kmer_idx < [0, 3].length →
      compact_byte 5 2 [0, 3].length kmer_idx < max_skmer_bytes 5 2 + 1) ∧
    (∀ kmer_idx, kmer_idx < [0, 3].length →
      (kmer_idx + 1) * 1 ≤ data_bytes 5 2 1) ∧
    ∃ out, write_path [0x07, 1, 3, 0x1E, 2, 2] 5 2 1 2 [0, 3] = some out ∧
      out.seq.length = max_skmer_bytes 5 2 + 1 ∧
      out.data.length = data_bytes 5 2 1 :=
  write_path_in_bounds [0x07, 1, 3, 0x1E, 2, 2] (by decide) 5 2 1 2 0 [3] (by decide)
    (by decide) (by decide) (by decide)

/-! ## The columns of the k-mers of a path -/

theorem column_unique (kmers : List (List Nat)) (hd : kmers.flatten.Nodup) (i j c : Nat)
    (hi : c ∈ kmers.getD i []) (hj : c ∈ kmers.getD j []) : i = j := by
  rcases Nat.lt_trichotomy i j with h | h | h
  · exact absurd (column_disjoint kmers hd i j c h hi hj) id
  · exact h
  · exact absurd (column_disjoint kmers hd j i c h hj hi) id

/-- A chain whose consecutive elements are linked from a column to the next one and whose
first element is in column `c0`: element `i` is in column `c0 + i`, and the chain ends at
the last column `nb` at the latest. -/
theorem chain_columns (kmers : List (List Nat)) (hd : kmers.flatten.Nodup) (nb : Nat)
    (path : List Nat) :
    ∀ c0 first rest, path = first :: rest → c0 ≤ nb → first ∈ kmers.getD c0 [] →
      (∀ a b u v, path = u ++ a :: b :: v →
        ∃ j, j < nb ∧ a ∈ kmers.getD j [] ∧ b ∈ kmers.getD (j + 1) []) →
      c0 + path.length ≤ nb + 1 ∧
        ∀ i < path.length, path.getD i 0 ∈ kmers.getD (c0 + i) [] := by
  induction path with
  | nil => intro c0 first rest h; cases h
  | cons x tail ih =>
    intro c0 first rest hp hc0 hfirst hlinks
    cases hp
    cases tail with
    | nil =>
      refine ⟨by simp only [List.length_singleton]; omega, ?_⟩
      intro i hi
      simp only [List.length_singleton, Nat.lt_one_iff] at hi
      subst hi
      simpa using hfirst
    | cons y rest2 =>
      obtain ⟨j, hj, ha, hb⟩ := hlinks x y [] rest2 rfl
      have e := column_unique kmers hd j c0 x ha hfirst
      subst e
      obtain ⟨h1, h2⟩ := ih (j + 1) y rest2 rfl (by omega) hb
        (fun a b u v huv => hlinks a b (x :: u) v (by rw [huv]; rfl))
      refine ⟨by simp only [List.length_cons] at h1 ⊢; omega, ?_⟩
      intro i hi
      cases i with
      | zero => simpa using hfirst
      | succ i =>
        have := h2 i (by simp only [List.length_cons] at hi ⊢; omega)
        have e2 : j + (i + 1) = j + 1 + i := by omega
        rw [e2]
        simpa using this

/-- The paths built from a matrix of distinct references: every path starts in a column
`c0`, its element `i` is in column `c0 + i`, and it ends at column `k - m` at the latest. -/
theorem paths_columns (h : Nat → Nat → Nat → Nat → Nat)
    (cmp : Nat → Nat → Nat → Nat → Nat → Nat → Nat → Nat → Int) (k m : Nat)
    (kmers : List (List Nat)) (hd : kmers.flatten.Nodup) :
    ∃ paths, pairs_to_paths (greedy_assembly h cmp k m kmers) = some paths ∧
      ∀ path ∈ paths, 1 ≤ path.length ∧ ∃ c0, c0 + path.length ≤ usub k m + 1 ∧
        ∀ i < path.length, path.getD i 0 ∈ kmers.getD (c0 + i) [] := by
  obtain ⟨st, h1, h2, h3⟩ := greedy_paths_inv h cmp k m kmers hd
  refine ⟨st.paths, h1, ?_⟩
  intro path hp
  have hne := h2.nonempty path hp
  obtain ⟨first, rest, hfr⟩ := List.exists_cons_of_ne_nil hne
  have hmem : first ∈ (kmers.take (usub k m + 1)).flatten := by
    rw [← h3.seconds]
    apply h2.perm.mem_iff.mp
    exact List.mem_flatten.mpr ⟨path, hp, by rw [hfr]; exact List.mem_cons_self _ _⟩
  obtain ⟨col, hcol, hfc⟩ := List.mem_flatten.mp hmem
  obtain ⟨c0, hc0⟩ := List.mem_iff_getElem?.mp hcol
  have hc0lt : c0 < usub k m + 1 := by
    by_contra hc
    rw [List.getElem?_take_eq_none (by omega)] at hc0
    cases hc0
  rw [List.getElem?_take_of_lt hc0lt] at hc0
  have hfirst : first ∈ kmers.getD c0 [] := by
    rw [List.getD_eq_getElem?_getD, hc0]
    exact hfc
  have hlinks : ∀ a b u v, path = u ++ a :: b :: v →
      ∃ j, j < usub k m ∧ a ∈ kmers.getD j [] ∧ b ∈ kmers.getD (j + 1) [] := by
    intro a b u v huv
    obtain ⟨j, hj, ha, hb, -⟩ := h3.pairs a b (h2.links a b path u v hp huv)
    exact ⟨j, hj, ha, hb⟩
  obtain ⟨h4, h5⟩ := chain_columns kmers hd (usub k m) path c0 first rest hfr (by omega)
    hfirst hlinks
  refine ⟨?_, c0, h4, h5⟩
  rw [hfr]
  simp

/-- C25: for a matrix of distinct references and `m < k < 2^30`, every path returned by
`pairs_to_paths (greedy_assembly matrix)` has at least 1 and at most `k - m + 1` k-mers,
hence no more k-mers than a `max >= k - m + 1`; and the super-k-mer that `write_paths`
emits for it from an arena of bytes, for a `data_size` for which the size
`(k - m + 1) * data_size` of `data_buffer` is a `uint` value, has `k - m - 1 + L`
nucleotides, at most `2 (k - m)`. -/
theorem path_length_bound (subseq_to_uint : Nat → Nat → Nat → Nat → Nat)
    (sequence_compare : Nat → Nat → Nat → Nat → Nat → Nat → Nat → Nat → Int) (k m : Nat)
    (kmers : List (List Nat)) (hk : k < 2 ^ 30) (hm : m < k) (hd : kmers.flatten.Nodup) :
    ∃ paths, pairs_to_paths (greedy_assembly subseq_to_uint sequence_compare k m kmers) =
        some paths ∧
      ∀ path ∈ paths, 1 ≤ path.length ∧ path.length ≤ k - m + 1 ∧
        (∀ max, k - m + 1 ≤ max → path.length ≤ max) ∧
        ∀ mem, (∀ x ∈ mem, x < 256) → ∀ data_size max,
          (k - m + 1) * data_size < 2 ^ 32 →
          ∃ out, write_path mem k m data_size max path = some out ∧
            out.seq_size = k - m - 1 + path.length ∧ out.seq_size ≤ 2 * (k - m) := by
  obtain ⟨paths, h1, h2⟩ := paths_columns subseq_to_uint sequence_compare k m kmers hd
  have e1 : usub k m = k - m := usub_eq k m (by omega) (by omega)
  refine ⟨paths, h1, ?_⟩
  intro path hp
  obtain ⟨h3, c0, h4, -⟩ := h2 path hp
  rw [e1] at h4
  refine ⟨h3, by omega, fun max hmax => by omega, ?_⟩
  intro mem hmem data_size max hds
  obtain ⟨first, rest, hfr⟩ := List.exists_cons_of_ne_nil
    (List.ne_nil_of_length_pos (by omega) : path ≠ [])
  subst hfr
  simp only [List.length_cons] at h4 ⊢
  obtain ⟨out, h5, h6, -⟩ := write_path_spec mem hmem k m data_size max first rest hk hm
    hds (by omega)
  exact ⟨out, h5, by omega, by omega⟩

theorem path_length_bound_witness :
    ∃ paths, pairs_to_paths (greedy_assembly (fun kmer _ _ _ => kmer % 2)
        (fun kmer _ _ _ candidate _ _ _ => (kmer : Int) / 10 - candidate % 10) 3 1
        [[12, 23], [31, 20, 14], [43, 40]]) = some paths ∧
      ∀ path ∈ paths, 1 ≤ path.length ∧ path.length ≤ 3 - 1 + 1 ∧
        (∀ max, 3 - 1 + 1 ≤ max → path.length ≤ max) ∧
        ∀ mem, (∀ x ∈ mem, x < 256) → ∀ data_size max,
          (3 - 1 + 1) * data_size < 2 ^ 32 →
          ∃ out, write_path mem 3 1 data_size max path = some out ∧
            out.seq_size = 3 - 1 - 1 + path.length ∧ out.seq_size ≤ 2 * (3 - 1) :=
  path_length_bound _ _ 3 1 [[12, 23], [31, 20, 14], [43, 40]] (by decide) (by decide)
    (by decide)

/-! ## The stored offsets along a path -/

/-- The matrix of `prepare_kmer_matrix` for a well-formed section: `k - m + 1` columns of
distinct references, and a record of column `c` stores the offset `k - m - c`. -/
theorem prepare_stored (a : Arena) (sm : Section) (hk : sm.k < 2 ^ 32)
    (hm : sm.m < sm.k) (hm1 : 1 ≤ sm.m) (hmax : 1 ≤ sm.max) (hmax2 : sm.k + sm.max ≤ 2 ^ 64)
    (hb : ∀ block ∈ sm.blocks, sm.k + block.nb_kmers < 2 ^ 32 ∧
      block.nb_kmers ≤ block.mini_pos + 1 ∧ block.mini_pos ≤ sm.k - sm.m)
    (hfit : a.Fits (record_size sm)) :
    ∃ a' matrix, prepare_kmer_matrix a sm = some (a', matrix) ∧
      matrix.length = sm.k - sm.m + 1 ∧ matrix.flatten.Nodup ∧
      ∀ c, ∀ r ∈ matrix.getD c [],
        read_mini_pos a'.kmer_buffer (r + (sm.k - sm.m + 3) / 4 + sm.data_size)
          ((ceil_log2 (sm.k + sm.max - 1) + 7) / 8) + c = sm.k - sm.m := by
  have e1 : usub sm.k sm.m = sm.k - sm.m := usub_eq _ _ hk (by omega)
  have hw : sm.k - sm.m < 256 ^ ((ceil_log2 (sm.k + sm.max - 1) + 7) / 8) :=
    width_holds _ _ (by omega) (by omega)
  have h0 : MatrixOf (List.replicate (sm.k - sm.m + 1) ([] : List Nat)) [] := by
    constructor
    · simp
    · intro c
      rw [List.getD_eq_getElem?_getD, List.getElem?_replicate]
      split <;> rfl
  obtain ⟨a', matrix, h1, h2, h3, h4⟩ := add_blocks_ok sm hm sm.blocks a _ [] hb
    (by simp) hfit h0
  have h5 := add_blocks_stored sm hk hm hw sm.blocks a a' _ matrix []
    (fun block hblock => (hb block hblock).2) h1 (by intro e he; cases he)
  simp only [List.nil_append] at h3 h4 h5
  refine ⟨a', matrix, by simp only [prepare_kmer_matrix, e1]; exact h1, h2, ?_, ?_⟩
  · rw [h3.nodup_iff, section_placements_refs]
    apply List.Nodup.map_on _ (List.nodup_range _)
    intro x _ y _ hxy
    have hr : 0 < record_size sm := by unfold record_size; omega
    have : x * record_size sm = y * record_size sm := by omega
    exact Nat.eq_of_mul_eq_mul_right hr this
  · intro c r hr
    have hc : c < matrix.length := by
      by_contra hcon
      rw [List.getD_eq_getElem?_getD, List.getElem?_eq_none (by omega)] at hr
      simp at hr
    rw [h4 c] at hr
    obtain ⟨e, he, her⟩ := List.mem_map.mp hr
    obtain ⟨he1, he2⟩ := List.mem_filter.mp he
    simp only [decide_eq_true_eq] at he2
    have h6 := (h5 e he1).2
    rw [her, he2] at h6
    rw [h6]
    omega

theorem getD_of_split (path u v : List Nat) (a b : Nat) (h : path = u ++ a :: b :: v) :
    path.getD u.length 0 = a ∧ path.getD (u.length + 1) 0 = b ∧ u.length + 1 < path.length := by
  subst h
  refine ⟨?_, ?_, ?_⟩
  · rw [List.getD_eq_getElem?_getD, List.getElem?_append_right (le_refl _)]
    simp
  · rw [List.getD_eq_getElem?_getD, List.getElem?_append_right (by omega)]
    simp
  · simp

/-- C27: for a well-formed section loaded in an arena in which a record fits, and the
paths built from the matrix of `prepare_kmer_matrix`: for every two consecutive k-mers
`(A, B)` of a path, `B` is in the column just after the column of `A` and the minimizer
offset stored in the record of `B` is the one stored in the record of `A` minus 1; the
offset stored in the record of the `i`-th k-mer of a path is the offset stored for the
first k-mer of the path minus `i`. -/
theorem path_offsets_descend (subseq_to_uint : Nat → Nat → Nat → Nat → Nat)
    (sequence_compare : Nat → Nat → Nat → Nat → Nat → Nat → Nat → Nat → Int)
    (a : Arena) (sm : Section) (hk : sm.k < 2 ^ 32)
    (hm : sm.m < sm.k) (hm1 : 1 ≤ sm.m) (hmax : 1 ≤ sm.max) (hmax2 : sm.k + sm.max ≤ 2 ^ 64)
    (hb : ∀ block ∈ sm.blocks, sm.k + block.nb_kmers < 2 ^ 32 ∧
      block.nb_kmers ≤ block.mini_pos + 1 ∧ block.mini_pos ≤ sm.k - sm.m)
    (hfit : a.Fits (record_size sm)) :
    ∃ a' matrix paths, prepare_kmer_matrix a sm = some (a', matrix) ∧
      pairs_to_paths (greedy_assembly subseq_to_uint sequence_compare sm.k sm.m matrix) =
        some paths ∧
      ∀ path ∈ paths,
        (∀ u A B v, path = u ++ A :: B :: v →
          (∃ c, A ∈ matrix.getD c [] ∧ B ∈ matrix.getD (c + 1) []) ∧
          read_mini_pos a'.kmer_buffer (B + (sm.k - sm.m + 3) / 4 + sm.data_size)
              ((ceil_log2 (sm.k + sm.max - 1) + 7) / 8) + 1 =
            read_mini_pos a'.kmer_buffer (A + (sm.k - sm.m + 3) / 4 + sm.data_size)
              ((ceil_log2 (sm.k + sm.max - 1) + 7) / 8)) ∧
        ∀ i < path.length,
          read_mini_pos a'.kmer_buffer
              (path.getD i 0 + (sm.k - sm.m + 3) / 4 + sm.data_size)
              ((ceil_log2 (sm.k + sm.max - 1) + 7) / 8) + i =
            read_mini_pos a'.kmer_buffer
              (path.getD 0 0 + (sm.k - sm.m + 3) / 4 + sm.data_size)
              ((ceil_log2 (sm.k + sm.max - 1) + 7) / 8) := by
  obtain ⟨a', matrix, h1, -, h3, h4⟩ := prepare_stored a sm hk hm hm1 hmax hmax2 hb hfit
  obtain ⟨paths, h5, h6⟩ := paths_columns subseq_to_uint sequence_compare sm.k sm.m matrix h3
  have e1 : usub sm.k sm.m = sm.k - sm.m := usub_eq _ _ hk (by omega)
  refine ⟨a', matrix, paths, h1, h5, ?_⟩
  intro path hp
  obtain ⟨h7, c0, h8, h9⟩ := h6 path hp
  rw [e1] at h8
  constructor
  · intro u A B v huv
    obtain ⟨g1, g2, g3⟩ := getD_of_split path u v A B huv
    have hA := h9 u.length (by omega)
    have hB := h9 (u.length + 1) g3
    rw [g1] at hA
    rw [g2] at hB
    have sA := h4 _ A hA
    have sB := h4 _ B hB
    exact ⟨⟨c0 + u.length, hA, hB⟩, by omega⟩
  · intro i hi
    have hi0 := h9 0 (by omega)
    have hii := h9 i hi
    have s0 := h4 _ _ hi0
    have si := h4 _ _ hii
    omega

set_option maxRecDepth 100000 in
theorem path_offsets_descend_witness :
    (section_paths Arena.init 5 2 (section_5_2 2 [block_acgt 3])).map
        (fun r => (r.2, r.2.map (List.map (fun kmer =>
          read_mini_pos r.1 (kmer + (5 - 2 + 3) / 4 + 1) 1)))) =
      some ([[0, 3]], [[3, 2]]) ∧
    ∃ a' matrix paths, prepare_kmer_matrix Arena.init (section_5_2 2 [block_acgt 3]) =
        some (a', matrix) ∧
      pairs_to_paths (greedy_assembly
        (subseq_to_uint (prepared_buffer Arena.init (section_5_2 2 [block_acgt 3])))
        (sequence_compare (prepared_buffer Arena.init (section_5_2 2 [block_acgt 3])))
        (section_5_2 2 [block_acgt 3]).k (section_5_2 2 [block_acgt 3]).m matrix) =
        some paths ∧
      ∀ path ∈ paths,
        (∀ u A B v, path = u ++ A :: B :: v →
          (∃ c, A ∈ matrix.getD c [] ∧ B ∈ matrix.getD (c + 1) []) ∧
          read_mini_pos a'.kmer_buffer (B + ((section_5_2 2 [block_acgt 3]).k -
                (section_5_2 2 [block_acgt 3]).m + 3) / 4 +
                (section_5_2 2 [block_acgt 3]).data_size)
              ((ceil_log2 ((section_5_2 2 [block_acgt 3]).k +
                (section_5_2 2 [block_acgt 3]).max - 1) + 7) / 8) + 1 =
            read_mini_pos a'.kmer_buffer (A + ((section_5_2 2 [block_acgt 3]).k -
                (section_5_2 2 [block_acgt 3]).m + 3) / 4 +
                (section_5_2 2 [block_acgt 3]).data_size)
              ((ceil_log2 ((section_5_2 2 [block_acgt 3]).k +
                (section_5_2 2 [block_acgt 3]).max - 1) + 7) / 8)) ∧
        ∀ i < path.length,
          read_mini_pos a'.kmer_buffer
              (path.getD i 0 + ((section_5_2 2 [block_acgt 3]).k -
                (section_5_2 2 [block_acgt 3]).m + 3) / 4 +
                (section_5_2 2 [block_acgt 3]).data_size)
              ((ceil_log2 ((section_5_2 2 [block_acgt 3]).k +
                (section_5_2 2 [block_acgt 3]).max - 1) + 7) / 8) + i =
            read_mini_pos a'.kmer_buffer
              (path.getD 0 0 + ((section_5_2 2 [block_acgt 3]).k -
                (section_5_2 2 [block_acgt 3]).m + 3) / 4 +
                (section_5_2 2 [block_acgt 3]).data_size)
              ((ceil_log2 ((section_5_2 2 [block_acgt 3]).k +
                (section_5_2 2 [block_acgt 3]).max - 1) + 7) / 8) :=
  ⟨by decide,
    path_offsets_descend _ _ Arena.init (section_5_2 2 [block_acgt 3]) (by decide) (by decide)
      (by decide) (by decide) (by decide) (by decide) ⟨by decide, by decide, by decide⟩⟩
/-! ## Chain starts of `greedy_assembly` -/

theorem NullsJustified.snoc (cmp : Nat → Nat → Nat → Nat → Nat → Nat → Nat → Nat → Int)
    (nb : Nat) (kmers : List (List Nat)) (asm : List Pair) (p : Pair)
    (hn : NullsJustified cmp nb kmers asm)
    (hp : ∀ s, p = (none, s) → ∀ j, s ∈ kmers.getD (j + 1) [] →
      ∀ c ∈ kmers.getD j [], overlap_ok cmp nb s c = true → some c ∈ asm.map Prod.fst) :
    NullsJustified cmp nb kmers (asm ++ [p]) := by
  intro n s hns j hj c hc hov
  rcases Nat.lt_trichotomy n asm.length with hlt | heq | hgt
  · rw [List.getElem?_append_left hlt] at hns
    rw [List.take_append_of_le_length (by omega)]
    exact hn n s hns j hj c hc hov
  · subst heq
    rw [List.getElem?_append_right (le_refl _)] at hns
    simp only [Nat.sub_self, List.getElem?_cons_zero, Option.some.injEq] at hns
    rw [List.take_left]
    exact hp s hns j hj c hc hov
  · rw [List.getElem?_eq_none (by simp only [List.length_append, List.length_singleton]; omega)]
      at hns
    cases hns

/-- One k-mer of column `i + 1` is linked: the chain starts stay justified, and every k-mer
of column `i` that is no longer available is the first component of a pair. -/
theorem link_avail_nulls (h : Nat → Nat → Nat → Nat → Nat)
    (cmp : Nat → Nat → Nat → Nat → Nat → Nat → Nat → Nat → Int) (nb : Nat)
    (kmers : List (List Nat)) (hd : kmers.flatten.Nodup)
    (hkey : ∀ s c, overlap_ok cmp nb s c = true → suffix_key h nb c = prefix_key h nb s)
    (i : Nat) (avail : List Nat) (asm : List Pair) (kmer : Nat)
    (hk : kmer ∈ kmers.getD (i + 1) [])
    (hn : NullsJustified cmp nb kmers asm)
    (hcons : ∀ c ∈ kmers.getD i [], c ∉ avail → some c ∈ asm.map Prod.fst) :
    NullsJustified cmp nb kmers (link_avail h cmp nb (avail, asm) kmer).2 ∧
    ∀ c ∈ kmers.getD i [], c ∉ (link_avail h cmp nb (avail, asm) kmer).1 →
      some c ∈ (link_avail h cmp nb (avail, asm) kmer).2.map Prod.fst := by
  simp only [link_avail]
  cases hc : choose_pred h cmp nb avail kmer with
  | none =>
    simp only
    unfold choose_pred at hc
    rw [List.find?_eq_none] at hc
    constructor
    · apply NullsJustified.snoc cmp nb kmers asm _ hn
      intro s hs j hj c hcj hov
      cases hs
      have e : j + 1 = i + 1 := column_unique kmers hd _ _ kmer hj hk
      have e2 : j = i := by omega
      subst e2
      apply hcons c hcj
      intro hav
      have := hc c hav
      simp only [Bool.and_eq_true, decide_eq_true_eq, not_and, Bool.not_eq_true] at this
      rw [this (hkey kmer c hov)] at hov
      cases hov
    · intro c hcol hav
      rw [List.map_append]
      exact List.mem_append_left _ (hcons c hcol hav)
  | some c0 =>
    simp only
    constructor
    · apply NullsJustified.snoc cmp nb kmers asm _ hn
      intro s hs
      cases hs
    · intro c hcol hav
      rw [List.map_append, List.mem_append]
      by_cases hcc : c = c0
      · right
        subst hcc
        simp
      · left
        apply hcons c hcol
        intro hin
        exact hav ((List.mem_erase_of_ne hcc).mpr hin)

theorem link_avail_fold_nulls (h : Nat → Nat → Nat → Nat → Nat)
    (cmp : Nat → Nat → Nat → Nat → Nat → Nat → Nat → Nat → Int) (nb : Nat)
    (kmers : List (List Nat)) (hd : kmers.flatten.Nodup)
    (hkey : ∀ s c, overlap_ok cmp nb s c = true → suffix_key h nb c = prefix_key h nb s)
    (i : Nat) (todo : List Nat) :
    ∀ (avail : List Nat) (asm : List Pair),
      (∀ s ∈ todo, s ∈ kmers.getD (i + 1) []) →
      NullsJustified cmp nb kmers asm →
      (∀ c ∈ kmers.getD i [], c ∉ avail → some c ∈ asm.map Prod.fst) →
      NullsJustified cmp nb kmers (todo.foldl (link_avail h cmp nb) (avail, asm)).2 := by
  induction todo with
  | nil => intro avail asm _ hn _; exact hn
  | cons x xs ih =>
    intro avail asm hs hn hcons
    obtain ⟨h1, h2⟩ := link_avail_nulls h cmp nb kmers hd hkey i avail asm x
      (hs x (List.mem_cons_self _ _)) hn hcons
    rw [List.foldl_cons]
    exact ih _ _ (fun s hs' => hs s (List.mem_cons_of_mem _ hs')) h1 h2

theorem link_columns_nulls (h : Nat → Nat → Nat → Nat → Nat)
    (cmp : Nat → Nat → Nat → Nat → Nat → Nat → Nat → Nat → Int) (nb : Nat)
    (kmers : List (List Nat)) (hd : kmers.flatten.Nodup)
    (hkey : ∀ s c, overlap_ok cmp nb s c = true → suffix_key h nb c = prefix_key h nb s)
    (n : Nat) :
    NullsJustified cmp nb kmers ((List.range n).foldl (link_column h cmp nb kmers)
      ((kmers.getD 0 []).map (fun kmer => (none, kmer)))) := by
  induction n with
  | zero =>
    intro n s hns j hj c _ _
    have hs : s ∈ kmers.getD 0 [] := by
      have hmem := List.getElem?_mem hns
      simp only [List.foldl_nil, List.range_zero, List.mem_map, Prod.mk.injEq,
        true_and] at hmem
      obtain ⟨x, hx, hxs⟩ := hmem
      rw [← hxs]
      exact hx
    have := column_unique kmers hd _ _ s hs hj
    omega
  | succ n ih =>
    rw [List.range_succ, List.foldl_append, List.foldl_cons, List.foldl_nil, link_column_eq]
    exact link_avail_fold_nulls h cmp nb kmers hd hkey n _ _ _ (fun s hs => hs) ih
      (fun c hc hav => absurd hc hav)

theorem greedy_assembly_eq_fold (h : Nat → Nat → Nat → Nat → Nat)
    (cmp : Nat → Nat → Nat → Nat → Nat → Nat → Nat → Nat → Int) (k m : Nat)
    (kmers : List (List Nat)) (hd : kmers.flatten.Nodup) :
    greedy_assembly h cmp k m kmers =
      (List.range (usub k m)).foldl (link_column h cmp (usub k m) kmers)
        ((kmers.getD 0 []).map (fun kmer => (none, kmer))) := by
  have inv1 := link_columns_inv h cmp (usub k m) kmers hd (usub k m)
  have hs1 := inv1.seconds
  rw [take_succ_flatten] at hs1
  obtain ⟨pre, sp, h1, -, h3⟩ := List.map_eq_append_iff.mp hs1
  have := last_kmer_fold (kmers.getD (usub k m) []) pre sp [] h3
  simp only [List.append_nil] at this
  simp only [greedy_assembly]
  rw [h1, this]

/-- C24: for a matrix of distinct references and helpers such that two sub-sequences the
exact comparison finds equal have the same key. A pair `(null, s)` of the list of
`greedy_assembly`, `s` in column `i + 1`, is recorded only when every k-mer of column `i`
whose suffix is the prefix of `s` is already consumed, that is the first component of an
earlier pair; and whenever a k-mer of column `i` with that overlap is not consumed when
the pair of `s` is recorded, `s` is linked to a k-mer of column `i` with that overlap. -/
theorem null_only_without_candidate (subseq_to_uint : Nat → Nat → Nat → Nat → Nat)
    (sequence_compare : Nat → Nat → Nat → Nat → Nat → Nat → Nat → Nat → Int) (k m : Nat)
    (kmers : List (List Nat)) (hd : kmers.flatten.Nodup)
    (hkey : ∀ s c, overlap_ok sequence_compare (usub k m) s c = true →
      suffix_key subseq_to_uint (usub k m) c = prefix_key subseq_to_uint (usub k m) s) :
    (∀ (n s : Nat), (greedy_assembly subseq_to_uint sequence_compare k m kmers)[n]? =
        some (none, s) →
      ∀ i, s ∈ kmers.getD (i + 1) [] → ∀ c ∈ kmers.getD i [],
        overlap_ok sequence_compare (usub k m) s c = true →
        ∃ n2 t, n2 < n ∧
          (greedy_assembly subseq_to_uint sequence_compare k m kmers)[n2]? =
            some (some c, t)) ∧
    (∀ (n s : Nat) (q : Option Nat),
      (greedy_assembly subseq_to_uint sequence_compare k m kmers)[n]? = some (q, s) →
      ∀ i, s ∈ kmers.getD (i + 1) [] → ∀ c ∈ kmers.getD i [],
        overlap_ok sequence_compare (usub k m) s c = true →
        (∀ n2 t, n2 < n →
          (greedy_assembly subseq_to_uint sequence_compare k m kmers)[n2]? ≠
            some (some c, t)) →
        ∃ c2, q = some c2 ∧ c2 ∈ kmers.getD i [] ∧
          overlap_ok sequence_compare (usub k m) s c2 = true) := by
  have hnull := link_columns_nulls subseq_to_uint sequence_compare (usub k m) kmers hd hkey
    (usub k m)
  rw [← greedy_assembly_eq_fold subseq_to_uint sequence_compare k m kmers hd] at hnull
  have inv := greedy_assembly_inv subseq_to_uint sequence_compare k m kmers hd
  have part1 : ∀ (n s : Nat),
      (greedy_assembly subseq_to_uint sequence_compare k m kmers)[n]? = some (none, s) →
      ∀ i, s ∈ kmers.getD (i + 1) [] → ∀ c ∈ kmers.getD i [],
        overlap_ok sequence_compare (usub k m) s c = true →
        ∃ n2 t, n2 < n ∧
          (greedy_assembly subseq_to_uint sequence_compare k m kmers)[n2]? =
            some (some c, t) := by
    intro n s hns i hi c hc hov
    have hmem := hnull n s hns i hi c hc hov
    obtain ⟨e, he1, he2⟩ := List.mem_map.mp hmem
    obtain ⟨n2, hn2⟩ := List.mem_iff_getElem?.mp he1
    have hlt : n2 < n := by
      by_contra hcon
      rw [List.getElem?_take_eq_none (by omega)] at hn2
      cases hn2
    rw [List.getElem?_take_of_lt hlt] at hn2
    obtain ⟨q, t⟩ := e
    simp only at he2
    subst he2
    exact ⟨n2, t, hlt, hn2⟩
  refine ⟨part1, ?_⟩
  intro n s q hns i hi c hc hov hfree
  cases q with
  | none =>
    obtain ⟨n2, t, hlt, hn2⟩ := part1 n s hns i hi c hc hov
    exact absurd hn2 (hfree n2 t hlt)
  | some c2 =>
    obtain ⟨j, -, hcj, hsj, -, hok⟩ := inv.pairs c2 s (List.getElem?_mem hns)
    have e : j + 1 = i + 1 := column_unique kmers hd _ _ s hsj hi
    have e2 : j = i := by omega
    subst e2
    exact ⟨c2, rfl, hcj, hok⟩

theorem null_only_without_candidate_witness :
    (∀ (n s : Nat),
      (greedy_assembly (fun kmer _ start _ => if start = 0 then kmer / 10 else kmer % 10)
        (fun kmer _ _ _ candidate _ _ _ => (kmer : Int) / 10 - candidate % 10) 3 1
        [[12, 23], [31, 20, 14], [43, 40]])[n]? = some (none, s) →
      ∀ i, s ∈ [[12, 23], [31, 20, 14], [43, 40]].getD (i + 1) [] →
        ∀ c ∈ [[12, 23], [31, 20, 14], [43, 40]].getD i [],
        overlap_ok (fun kmer _ _ _ candidate _ _ _ => (kmer : Int) / 10 - candidate % 10)
          (usub 3 1) s c = true →
        ∃ n2 t, n2 < n ∧
          (greedy_assembly (fun kmer _ start _ => if start = 0 then kmer / 10 else kmer % 10)
            (fun kmer _ _ _ candidate _ _ _ => (kmer : Int) / 10 - candidate % 10) 3 1
            [[12, 23], [31, 20, 14], [43, 40]])[n2]? = some (some c, t)) ∧
    (∀ (n s : Nat) (q : Option Nat),
      (greedy_assembly (fun kmer _ start _ => if start = 0 then kmer / 10 else kmer % 10)
        (fun kmer _ _ _ candidate _ _ _ => (kmer : Int) / 10 - candidate % 10) 3 1
        [[12, 23], [31, 20, 14], [43, 40]])[n]? = some (q, s) →
      ∀ i, s ∈ [[12, 23], [31, 20, 14], [43, 40]].getD (i + 1) [] →
        ∀ c ∈ [[12, 23], [31, 20, 14], [43, 40]].getD i [],
        overlap_ok (fun kmer _ _ _ candidate _ _ _ => (kmer : Int) / 10 - candidate % 10)
          (usub 3 1) s c = true →
        (∀ n2 t, n2 < n →
          (greedy_assembly (fun kmer _ start _ => if start = 0 then kmer / 10 else kmer % 10)
            (fun kmer _ _ _ candidate _ _ _ => (kmer : Int) / 10 - candidate % 10) 3 1
            [[12, 23], [31, 20, 14], [43, 40]])[n2]? ≠ some (some c, t)) →
        ∃ c2, q = some c2 ∧ c2 ∈ [[12, 23], [31, 20, 14], [43, 40]].getD i [] ∧
          overlap_ok (fun kmer _ _ _ candidate _ _ _ => (kmer : Int) / 10 - candidate % 10)
            (usub 3 1) s c2 = true) :=
  null_only_without_candidate _ _ 3 1 [[12, 23], [31, 20, 14], [43, 40]] (by decide)
    (by
      intro s c hov
      simp only [overlap_ok, decide_eq_true_eq] at hov
      simp only [suffix_key, prefix_key, Nat.one_ne_zero, if_true, if_false]
      omega)

/-! ## The legacy `link_kmers` -/

theorem legacy_distribute_example (f : List Nat → Nat → Nat) :
    distribute (subsequence (List.replicate 18 0)) f 40 5 1 0 [1, 1] [35, 34] =
      ([(35, [(f [0, 0, 0, 0, 0, 0, 0, 0, 0] 34, [0])]),
        (34, [(f [0, 0, 0, 0, 0, 0, 0, 0, 0] 34, [1])])], [35, 34]) := by
  have e1 : subsequence [0, 0, 0, 0, 0, 0, 0, 0, 0, 0, 0, 0, 0, 0, 0, 0, 0, 0] 0 35 0 33 =
      [0, 0, 0, 0, 0, 0, 0, 0, 0] := by decide
  have e2 : subsequence [0, 0, 0, 0, 0, 0, 0, 0, 0, 0, 0, 0, 0, 0, 0, 0, 0, 0] 9 35 0 33 =
      [0, 0, 0, 0, 0, 0, 0, 0, 0] := by decide
  have b : max_block_size 40 5 1 0 = 9 := by decide
  have s1 : loaded_seq_size 40 5 1 = 35 := by decide
  have u1 : usub (usub (usub 40 1) 5) 1 = 33 := by decide
  have u2 : usub (usub 40 5) 1 = 34 := by decide
  simp [distribute, List.range_succ, b, s1, u1, u2, e1, e2, bin_find, bin_set]

theorem legacy_link_example (f : List Nat → Nat → Nat) :
    link_kmers (subsequence (List.replicate 18 0)) f 40 5 1 0 [1, 1] [35, 34] =
      Except.ok [[0, 1]] := by
  have e3 : subsequence [0, 0, 0, 0, 0, 0, 0, 0, 0, 0, 0, 0, 0, 0, 0, 0, 0, 0] 0 35 1 34 =
      [0, 0, 0, 0, 0, 0, 0, 0, 0] := by decide
  have b : max_block_size 40 5 1 0 = 9 := by decide
  have s1 : loaded_seq_size 40 5 1 = 35 := by decide
  have u3 : usub 35 1 = 34 := by decide
  have t1 : to_int 35 - to_int 1 = 34 := by decide
  have t2 : to_int 34 - to_int 1 = 33 := by decide
  have t3 : to_uint 34 = 34 := by decide
  have t4 : to_uint 33 = 33 := by decide
  have ts : tested_size 40 5 1 34 = 0 := by decide
  have srt : ([35, 34].insertionSort (fun a b => a ≤ b)).reverse = [35, 34] := by decide
  simp only [link_kmers, legacy_distribute_example, srt]
  simp [link_paths, start_path, extend_path, link_step, bin_find, bin_set, bin_erase,
    e3, b, s1, u3, t1, t2, t3, t4, ts]

/-- The value tested at line 306 for a last sequence of `nb` k-mers with minimizer position
`p`, `1 <= nb <= p` (otherwise the loop is left before the test): `k - m - 2 + 2 * nb - p`, and
not the `k - m - 1` nucleotides of the overlap. -/
theorem tested_size_eq (k m nb p : Nat) (hk : k < 2 ^ 30) (hm : m + 2 ≤ k) (hnb1 : 1 ≤ nb)
    (hnb : nb ≤ p) (hp : p ≤ k - m) :
    tested_size k m nb (to_int p - to_int nb) = k - m - 2 + 2 * nb - p := by
  have e1 : to_int p = (p : Int) := by
    unfold to_int
    rw [Nat.mod_eq_of_lt (by omega), if_pos (by omega)]
  have e2 : to_int nb = (nb : Int) := by
    unfold to_int
    rw [Nat.mod_eq_of_lt (by omega), if_pos (by omega)]
  have e3 : to_uint ((p : Int) - (nb : Int)) = p - nb := by
    unfold to_uint
    have : ((p : Int) - (nb : Int)) % 2 ^ 32 = ((p - nb : Nat) : Int) := by omega
    rw [this, Int.toNat_ofNat]
  rw [e1, e2]
  unfold tested_size
  rw [e3]
  unfold loaded_seq_size
  rw [usub_eq k 1 (by omega) (by omega), Nat.mod_eq_of_lt (show nb < 2 ^ 32 by omega),
    usub_eq (k - 1 + nb) m (by omega) (by omega),
    usub_eq (k - 1 + nb - m) 1 (by omega) (by omega),
    usub_eq (k - 1 + nb - m - 1) (p - nb) (by omega) (by omega)]
  omega

theorem legacy_exit_example (f : List Nat → Nat → Nat) :
    link_kmers (subsequence (List.replicate 20 0)) f 31 10 20 0 [20, 1] [20, 0] =
      Except.error (Fatal.exit 1) := by
  have e1 : subsequence [0, 0, 0, 0, 0, 0, 0, 0, 0, 0, 0, 0, 0, 0, 0, 0, 0, 0, 0, 0]
      0 40 0 19 = [0, 0, 0, 0, 0] := by decide
  have e2 : subsequence [0, 0, 0, 0, 0, 0, 0, 0, 0, 0, 0, 0, 0, 0, 0, 0, 0, 0, 0, 0]
      10 21 0 19 = [0, 0, 0, 0, 0] := by decide
  have e3 : subsequence [0, 0, 0, 0, 0, 0, 0, 0, 0, 0, 0, 0, 0, 0, 0, 0, 0, 0, 0, 0]
      0 40 20 39 = [0, 0, 0, 0, 0] := by decide
  have b : max_block_size 31 10 20 0 = 10 := by decide
  have s1 : loaded_seq_size 31 10 20 = 40 := by decide
  have s2 : loaded_seq_size 31 10 1 = 21 := by decide
  have u1 : usub (usub (usub 31 1) 10) 1 = 19 := by decide
  have u2 : usub (usub 31 10) 1 = 20 := by decide
  have u3 : usub 40 1 = 39 := by decide
  have u4 : usub 40 20 = 20 := by decide
  have t1 : to_int 20 - to_int 20 = 0 := by decide
  have t3 : to_uint 0 = 0 := by decide
  have ts : tested_size 31 10 20 0 = 39 := by decide
  have hd : distribute (subsequence (List.replicate 20 0)) f 31 10 20 0 [20, 1] [20, 0] =
      ([(20, [(f [0, 0, 0, 0, 0] 20, [0])]), (0, [(f [0, 0, 0, 0, 0] 20, [1])])],
        [20, 0]) := by
    simp [distribute, List.range_succ, b, s1, s2, u1, u2, e1, e2, bin_find, bin_set]
  have srt : ([20, 0].insertionSort (fun a b => a ≤ b)).reverse = [20, 0] := by decide
  simp only [link_kmers, hd, srt]
  simp [link_paths, start_path, extend_path, link_step, bin_find, bin_set, bin_erase,
    e3, b, s1, u3, u4, t1, t3, ts]

/-- The test of line 306 also ends the process for an overlap of 20 nucleotides: `k = 31`,
`m = 10`, a sequence of 20 k-mers with minimizer position 20 followed by a sequence with
minimizer position 0. -/
theorem legacy_short_overlap_exit :
    usub (usub 31 10) 1 = 20 ∧ tested_size 31 10 20 0 = 39 ∧
    ∀ seq_to_uint : List Nat → Nat → Nat,
      link_kmers (subsequence (List.replicate 20 0)) seq_to_uint 31 10 20 0 [20, 1] [20, 0] =
        Except.error (Fatal.exit 1) :=
  ⟨by decide, by decide, legacy_exit_example⟩

/-- C21: with `k = 40` and `m = 5` the suffix that must match a prefix has
`k - m - 1 = 34` nucleotides, more than 32. For two sequences of one k-mer each (all `A`)
with minimizer positions 35 and 34, the value tested at line 306 is 0: the legacy
`link_kmers` returns the path made of the two sequences, whatever `seq_to_uint` is. The
second sequence is appended without verification and `exit(1)` is not reached. -/
theorem legacy_long_overlap_appended :
    32 < usub (usub 40 5) 1 ∧ tested_size 40 5 1 (to_int 35 - to_int 1) = 0 ∧
    ∀ seq_to_uint : List Nat → Nat → Nat,
      link_kmers (subsequence (List.replicate 18 0)) seq_to_uint 40 5 1 0 [1, 1] [35, 34] =
        Except.ok [[0, 1]] :=
  ⟨by decide, by decide, legacy_link_example⟩
end Compact
